import Mathlib

set_option autoImplicit false

/-!
A shallow embedding of `skiplist.c` (an in-memory ordered container implemented
as a multi-level skip list) together with proofs about its operations.

Modelling conventions:
* Heap addresses are natural numbers; address `0` plays the role of the shared
  `&SENTINEL` terminator.  A `node?` result of `none` is exactly the C test
  `IS_SENTINEL`.
* The allocator is modelled by the `heap` list: an allocation appends one node
  and returns its 1-based index, and `node_free` never reuses addresses, so a
  freed node simply becomes unreachable garbage.  Allocation failure is driven
  by an explicit oracle (`ao : List Bool`, one entry per allocation attempt in
  program order, missing entries meaning success).
* The `void **` out-parameters (`old` of `add_or_set`, `value` of delete/get)
  are modelled as `Option (Option V)`: the outer layer is whether the caller
  passed a cell at all (`none` = NULL pointer), the inner layer is the cell's
  current content (`none` = NULL value).  An operation returns the cell's final
  content, so "left unmodified" is provable as equality with the input cell.
* The pseudo-random height draw (`SKIPLIST_GEN_HEIGHT`) is an input of the
  insert operation; the C generator always returns a height of at least 1.
* Unbounded pointer-chasing loops are written as fuel-indexed recursions; every
  operation passes `heap.length + 1` fuel, which is shown sufficient whenever
  the representation invariant holds.
-/

namespace Skiplist

/-- One `struct skiplist_node`: height `h`, key `k`, value `v` and the forward
pointer array `next` (length `h`, each entry an address or `0` for the
sentinel). -/
structure SkipNode (K V : Type) where
  h : Nat
  k : K
  v : V
  next : List Nat

/-- The container `struct skiplist`: live-entry count, the address of the head
node, the comparison callback and the heap holding every allocated node
(address `a ≥ 1` lives at heap index `a - 1`). -/
structure SL (K V : Type) where
  count : Nat
  headAddr : Nat
  cmp : K → K → Int
  heap : List (SkipNode K V)

variable {K V : Type}

/-- Dereference an address: `none` exactly when the address is the sentinel
(or, in corrupt states that the invariant rules out, out of range). -/
def node? (s : SL K V) (a : Nat) : Option (SkipNode K V) :=
  if a = 0 then none else s.heap[a - 1]?

/-- `a->next[i]`, reading `0` (sentinel) out of range. -/
def nextAt (s : SL K V) (a : Nat) (i : Nat) : Nat :=
  match node? s a with
  | none => 0
  | some n => n.next.getD i 0

/-- `a->h` (0 for the sentinel, which the C code declares with height 0). -/
def hOf (s : SL K V) (a : Nat) : Nat :=
  match node? s a with
  | none => 0
  | some n => n.h

/-- The height of the current head node (`sl->head->h`). -/
def headHeight (s : SL K V) : Nat := hOf s s.headAddr

/-- `IS_SENTINEL(a) ? 1 : sl->cmp(a->k, key)`, the comparison step shared by
the search loops. -/
def cmpRes (s : SL K V) (key : K) (a : Nat) : Int :=
  match node? s a with
  | none => 1
  | some n => s.cmp n.k key

/-- Write `a->next[i] = t`.  Writing through the sentinel or a dangling
address is a no-op (the C code never does either in a valid state). -/
def setNext (s : SL K V) (a : Nat) (i : Nat) (t : Nat) : SL K V :=
  if a = 0 then s else
    match s.heap[a - 1]? with
    | none => s
    | some n =>
      { s with heap := s.heap.set (a - 1) { n with next := n.next.set i t } }

/-- Write `a->v = w` (the in-place value replacement of the upsert path). -/
def setVal (s : SL K V) (a : Nat) (w : V) : SL K V :=
  if a = 0 then s else
    match s.heap[a - 1]? with
    | none => s
    | some n => { s with heap := s.heap.set (a - 1) { n with v := w } }

/-- `node_alloc`: append a fresh node whose forward pointers are all
initialized to the sentinel; the fresh address is `heap.length + 1`. -/
def allocNode (s : SL K V) (height : Nat) (key : K) (value : V) :
    SL K V × Nat :=
  ({ s with heap := s.heap ++ [⟨height, key, value, List.replicate height 0⟩] },
   s.heap.length + 1)

/-- `skiplist_new` (with the head allocation succeeding): head of height 1,
single forward pointer to the sentinel, zero count.  The head's key and value
slots are never read, mirroring the C head whose `k`/`v` hold `&SENTINEL`. -/
def skiplist_new [Inhabited K] [Inhabited V] (cmp : K → K → Int) : SL K V :=
  { count := 0, headAddr := 1, cmp := cmp,
    heap := [⟨1, default, default, [0]⟩] }

/-- One level of the search loop of `init_prevs`: follow `cur->next[lvl]`
while the successor's key is strictly less than `key`. -/
def advanceLevel (s : SL K V) (key : K) (lvl : Nat) : Nat → Nat → Nat
  | 0, cur => cur
  | fuel + 1, cur =>
    let nxt := nextAt s cur lvl
    if cmpRes s key nxt < 0 then advanceLevel s key lvl fuel nxt else cur

/-- The descending part of `init_prevs`: record the stopping node of every
level from `lvl` down to 0, resuming each level from the node recorded one
level above.  The returned list has `prevs[L]` at index `L`. -/
def initPrevsGo (s : SL K V) (key : K) (fuel : Nat) : Nat → Nat → List Nat
  | 0, cur => [advanceLevel s key 0 fuel cur]
  | lvl + 1, cur =>
    let cur' := advanceLevel s key (lvl + 1) fuel cur
    initPrevsGo s key fuel lvl cur' ++ [cur']

/-- `init_prevs`: for each level `L < height`, the last node at level `L`
whose key is strictly less than `key` (the head if there is none). -/
def init_prevs (s : SL K V) (key : K) (height : Nat) : List Nat :=
  if height = 0 then []
  else initPrevsGo s key (s.heap.length + 1) (height - 1) s.headAddr

/-- `grow_head` after a successful allocation: allocate a head of the new
node's height, copy the forward pointers of the existing levels, point every
new level at the new tall node `nn`, and install it as the head (the old head
is freed, i.e. becomes garbage). -/
def growHead (s : SL K V) [Inhabited K] [Inhabited V] (nn : Nat) : SL K V :=
  let oldHead := s.headAddr
  let oldH := headHeight s
  let nh := hOf s nn
  let newNode : SkipNode K V :=
    ⟨nh, default, default,
     (List.range nh).map (fun i => if i < oldH then nextAt s oldHead i else nn)⟩
  { count := s.count, headAddr := s.heap.length + 1, cmp := s.cmp,
    heap := s.heap ++ [newNode] }

/-- One iteration of the splice loop of `add_or_set`:
`nn->next[i] = prevs[i]->next[i]; prevs[i]->next[i] = nn`. -/
def spliceStep (nn : Nat) (prevs : List Nat) (s : SL K V) (i : Nat) :
    SL K V :=
  let p := prevs.getD i 0
  let s1 := setNext s nn i (nextAt s p i)
  setNext s1 p i nn

/-- The splice loop: link `nn` in at every level below `minH`. -/
def splice (s : SL K V) (nn : Nat) (prevs : List Nat) (minH : Nat) :
    SL K V :=
  (List.range minH).foldl (spliceStep nn prevs) s

/-- Result of `add_or_set`: the C return value, the container, and the final
content of the caller's `old` cell. -/
structure AddRes (K V : Type) where
  ok : Bool
  sl : SL K V
  old : Option (Option V)

/-- The `try_replace` block of `add_or_set` applied to the level-0 successor
`succ0` of `prevs[0]`.  Returns `some r` when the key matched and the value
was replaced in place, otherwise `none` paired with the updated `old` cell
(`*old = NULL` on a non-sentinel miss, untouched on a sentinel successor). -/
def tryReplace (s : SL K V) (key : K) (value : V) (old : Option (Option V))
    (succ0 : Nat) : Option (AddRes K V) × Option (Option V) :=
  match node? s succ0 with
  | none => (none, old)
  | some n =>
    if s.cmp n.k key = 0 then
      (some { ok := true, sl := setVal s succ0 value,
              old := old.map (fun _ => some n.v) }, old)
    else (none, old.map (fun _ => none))

/-- `add_or_set`: the shared implementation of plain insert
(`try_replace = false`) and upsert (`try_replace = true`).  `newHeight` is the
value drawn by `SKIPLIST_GEN_HEIGHT` (always at least 1) and `ao` the
allocation oracle (entry 0: the new node, entry 1: the grown head). -/
def add_or_set [Inhabited K] [Inhabited V] (s : SL K V) (try_replace : Bool)
    (key : K) (value : V) (old : Option (Option V)) (newHeight : Nat)
    (ao : List Bool) : AddRes K V :=
  let cur_height := headHeight s
  let prevs := init_prevs s key cur_height
  let succ0 := nextAt s (prevs.getD 0 0) 0
  let rep := if try_replace then tryReplace s key value old succ0
             else (none, old)
  match rep.1 with
  | some r => r
  | none =>
    let old' := rep.2
    if ao.getD 0 true = false then
      { ok := false, sl := s, old := old' }
    else
      let (s1, nn) := allocNode s newHeight key value
      if newHeight > cur_height then
        if ao.getD 1 true = false then
          { ok := false, sl := s1, old := old' }
        else
          let s2 := growHead s1 nn
          let prevs2 := prevs.map (fun p => if p = s.headAddr then s2.headAddr
                                            else p)
          let s3 := splice s2 nn prevs2 (min newHeight cur_height)
          { ok := true,
            sl := { s3 with count := s3.count + 1 }, old := old' }
      else
        let s3 := splice s1 nn prevs (min newHeight cur_height)
        { ok := true, sl := { s3 with count := s3.count + 1 }, old := old' }

/-- `skiplist_add`: plain insert, duplicates permitted, no `old` cell. -/
def skiplist_add [Inhabited K] [Inhabited V] (s : SL K V) (key : K) (value : V)
    (newHeight : Nat) (ao : List Bool) : AddRes K V :=
  add_or_set s false key value none newHeight ao

/-- `skiplist_set`: upsert (replace on match, insert otherwise). -/
def skiplist_set [Inhabited K] [Inhabited V] (s : SL K V) (key : K) (value : V)
    (old : Option (Option V)) (newHeight : Nat) (ao : List Bool) : AddRes K V :=
  add_or_set s true key value old newHeight ao

/-- Result of `delete_one_or_all`: the C return value, the container, the
final content of the caller's `value` cell, and the list of disposal-callback
invocations in order (each entry is the exact pair of key and value arguments
passed to the callback). -/
structure DelRes (K V : Type) where
  found : Bool
  sl : SL K V
  old : Option (Option V)
  calls : List (K × V)

/-- The walk of the delete-all branch: follow the run of key-equal nodes at
level 0, maintaining `nexts` (for every level of the node at hand, the first
address past it, overwritten at each node) and `tdh` (the tallest doomed
height), and record each disposal-callback invocation `cb(key, doomed->v)`.
The container's heap is not mutated during the walk (freeing is a no-op in
this model); the caller applies the count decrements afterwards. -/
def deleteAllWalk (s : SL K V) (key : K) :
    Nat → Nat → List Nat → Nat → List (K × V) →
    List Nat × Nat × List (K × V)
  | 0, _, nexts, tdh, calls => (nexts, tdh, calls)
  | fuel + 1, doomed, nexts, tdh, calls =>
    match node? s doomed with
    | none => (nexts, tdh, calls)
    | some dn =>
      let nxt := dn.next.getD 0 0
      let tdh' := max tdh dn.h
      let nexts' := (List.range dn.h).foldl
        (fun ns i => ns.set i (dn.next.getD i 0)) nexts
      let calls' := calls ++ [(key, dn.v)]
      let res : Int := match node? s nxt with
                       | none => -1
                       | some nx => s.cmp nx.k key
      if res = 0 then deleteAllWalk s key fuel nxt nexts' tdh' calls'
      else (nexts', tdh', calls')

/-- `delete_one_or_all`: single delete when `useCb = false` (the C call with a
NULL callback), delete-all-matching otherwise.  Note the delete-all branch of
the C code always returns `false`. -/
def delete_one_or_all (s : SL K V) (key : K) (useCb : Bool)
    (old : Option (Option V)) : DelRes K V :=
  let cur_height := headHeight s
  let prevs := init_prevs s key cur_height
  let doomed := nextAt s (prevs.getD 0 0) 0
  match node? s doomed with
  | none => ⟨false, s, old, []⟩
  | some dn =>
    if s.cmp dn.k key ≠ 0 then ⟨false, s, old, []⟩
    else if useCb = false then
      let s1 := (List.range dn.h).foldl
        (fun t i => setNext t (prevs.getD i 0) i (nextAt t doomed i)) s
      ⟨true, { s1 with count := s1.count - 1 },
       old.map (fun _ => some dn.v), []⟩
    else
      let w := deleteAllWalk s key (s.heap.length + 1) doomed
        (List.replicate cur_height 0) 0 []
      let s1 := (List.range w.2.1).foldl
        (fun t i => setNext t (prevs.getD i 0) i (w.1.getD i 0)) s
      ⟨false, { s1 with count := s1.count - w.2.2.length }, old, w.2.2⟩

/-- `skiplist_delete`: remove the first node matching `key`, reporting its
value through the caller's cell. -/
def skiplist_delete (s : SL K V) (key : K) (old : Option (Option V)) :
    DelRes K V :=
  delete_one_or_all s key false old

/-- `skiplist_delete_all`: remove every node matching `key`, invoking the
disposal callback once per removed node. -/
def skiplist_delete_all (s : SL K V) (key : K) : DelRes K V :=
  delete_one_or_all s key true none

/-- The loop of `get_first_eq_node`: descend exactly like `init_prevs` (so
that on equal keys the first match is reached) and at level 0 return the
successor exactly when its key compares equal. -/
def getFirstEqGo (s : SL K V) (key : K) (fuel : Nat) : Nat → Nat → Option Nat
  | 0, cur =>
    let cur' := advanceLevel s key 0 fuel cur
    let nxt := nextAt s cur' 0
    match node? s nxt with
    | none => none
    | some n => if s.cmp n.k key = 0 then some nxt else none
  | lvl + 1, cur => getFirstEqGo s key fuel lvl (advanceLevel s key (lvl + 1) fuel cur)

/-- `get_first_eq_node`: the first level-0 node whose key compares equal to
`key`, if any. -/
def get_first_eq_node (s : SL K V) (key : K) : Option Nat :=
  if headHeight s = 0 then none
  else getFirstEqGo s key (s.heap.length + 1) (headHeight s - 1) s.headAddr

/-- `skiplist_get`: lookup, reporting the found node's value through the
caller's cell. -/
def skiplist_get (s : SL K V) (key : K) (value : Option (Option V)) :
    Bool × Option (Option V) :=
  match get_first_eq_node s key with
  | some a => (true, value.map (fun _ => (node? s a).map (fun n => n.v)))
  | none => (false, value)

/-- `skiplist_member`. -/
def skiplist_member (s : SL K V) (key : K) : Bool :=
  (skiplist_get s key none).1

/-- `skiplist_first`: key and value of the level-0 successor of the head,
`none` (the C `false`) when it is the sentinel. -/
def skiplist_first (s : SL K V) : Option (K × V) :=
  match node? s (nextAt s s.headAddr 0) with
  | none => none
  | some n => some (n.k, n.v)

/-- `skiplist_pop_first`: unlink the first node at every level it occupies
and return its key and value. -/
def skiplist_pop_first (s : SL K V) : Option (K × V) × SL K V :=
  let first := nextAt s s.headAddr 0
  match node? s first with
  | none => (none, s)
  | some fn =>
    let s1 := (List.range fn.h).foldl
      (fun t i => setNext t t.headAddr i (nextAt t first i)) s
    (some (fn.k, fn.v), { s1 with count := s1.count - 1 })

/-- One level of the search loop of `skiplist_pop_last`: advance while the
two-ahead successor at this level is not the sentinel, stopping at the node
whose one-ahead or two-ahead successor is the sentinel. -/
def advancePenult (s : SL K V) (lvl : Nat) : Nat → Nat → Nat
  | 0, cur => cur
  | fuel + 1, cur =>
    let nxt := nextAt s cur lvl
    if nxt = 0 then cur
    else if nextAt s nxt lvl = 0 then cur
    else advancePenult s lvl fuel nxt

/-- The descending part of the `skiplist_pop_last` search, recording the
stopping node of every level (index `L` holds `prevs[L]`). -/
def popLastGo (s : SL K V) (fuel : Nat) : Nat → Nat → List Nat
  | 0, cur => [advancePenult s 0 fuel cur]
  | lvl + 1, cur =>
    let cur' := advancePenult s (lvl + 1) fuel cur
    popLastGo s fuel lvl cur' ++ [cur']

/-- `skiplist_pop_last`: locate the per-level predecessors of the last node,
point them at the sentinel, and return the last node's key and value.  An
empty container (count 0) fails without being modified. -/
def skiplist_pop_last (s : SL K V) : Option (K × V) × SL K V :=
  if s.count = 0 then (none, s)
  else
    let hh := headHeight s
    let prevs := if hh = 0 then []
                 else popLastGo s (s.heap.length + 1) (hh - 1) s.headAddr
    let lastA := nextAt s (prevs.getD 0 0) 0
    match node? s lastA with
    | none => (none, s)
    | some ln =>
      let s1 := (List.range ln.h).foldl
        (fun t i => setNext t (prevs.getD i 0) i 0) s
      (some (ln.k, ln.v), { s1 with count := s1.count - 1 })

/-- `skiplist_count`. -/
def skiplist_count (s : SL K V) : Nat := s.count

/-- `skiplist_empty`. -/
def skiplist_empty (s : SL K V) : Bool := skiplist_count s == 0

/-- The level-0 walk of `skiplist_clear`, collecting the disposal-callback
invocations `cb(doomed->k, doomed->v)` in order. -/
def clearWalk (s : SL K V) : Nat → Nat → List (K × V) → List (K × V)
  | 0, _, acc => acc
  | fuel + 1, cur, acc =>
    match node? s cur with
    | none => acc
    | some n => clearWalk s fuel (n.next.getD 0 0) (acc ++ [(n.k, n.v)])

/-- `skiplist_clear`: free every node by a level-0 traversal, reset all head
forward pointers to the sentinel, and return the number of removed entries
together with the callback trace.  Exactly as in the C code, the `count`
field of the container is not touched. -/
def skiplist_clear (s : SL K V) : Nat × List (K × V) × SL K V :=
  let calls := clearWalk s (s.heap.length + 1) (nextAt s s.headAddr 0) []
  let s1 := (List.range (headHeight s)).foldl
    (fun t i => setNext t t.headAddr i 0) s
  (calls.length, calls, s1)

/-- Repeatedly `skiplist_pop_first` until the container reports empty (or the
fuel runs out), collecting the popped pairs in order together with the final
container. -/
def drainFirst [Inhabited K] [Inhabited V] : Nat → SL K V → List (K × V) × SL K V
  | 0, s => ([], s)
  | fuel + 1, s =>
    let r := skiplist_pop_first s
    match r.1 with
    | none => ([], r.2)
    | some kv =>
      let rest := drainFirst fuel r.2
      (kv :: rest.1, rest.2)

/-- Repeatedly `skiplist_pop_last` until the container reports empty (or the
fuel runs out), collecting the popped pairs in order together with the final
container. -/
def drainLast [Inhabited K] [Inhabited V] : Nat → SL K V → List (K × V) × SL K V
  | 0, s => ([], s)
  | fuel + 1, s =>
    let r := skiplist_pop_last s
    match r.1 with
    | none => ([], r.2)
    | some kv =>
      let rest := drainLast fuel r.2
      (kv :: rest.1, rest.2)

/-- A concrete lawful comparator on integers, standing in for the C
`example_cmp` style three-way comparison callbacks. -/
def intCmp (a b : Int) : Int :=
  if a < b then -1 else if b < a then 1 else 0

/-- A freshly created integer skiplist. -/
def exNew : SL Int Int := skiplist_new intCmp

/-- One entry `(5, 50)`. -/
def exOne : SL Int Int := (skiplist_add exNew 5 50 1 [true]).sl

/-- Entries `(5, 50)` and `(7, 70)`. -/
def exTwo : SL Int Int := (skiplist_add exOne 7 70 1 [true]).sl

/-- Two duplicate entries under key `5`: value `1` inserted first, value `2`
second. -/
def exDup : SL Int Int :=
  (skiplist_add (skiplist_add exNew 5 1 1 [true]).sl 5 2 1 [true]).sl

/-- A coarser comparator that only compares the tens digit, so that distinct
keys such as 51 and 52 are comparator-equal — the analogue of
comparator-equal but physically distinct key references in the C code. -/
def divCmp (a b : Int) : Int := intCmp (a / 10) (b / 10)

/-- Two entries with distinct stored keys 51 and 52 that are
comparator-equal under `divCmp`. -/
def exRef : SL Int Int :=
  (skiplist_add (skiplist_add (skiplist_new divCmp) 51 1 1 [true]).sl
    52 2 1 [true]).sl

/-! ## Abstraction: per-level chains and the representation invariant -/

/-- The addresses reachable from `a` (inclusive) by following `next[lvl]`
pointers, stopping at the sentinel; fuel-bounded. -/
def chainFrom (s : SL K V) (lvl : Nat) : Nat → Nat → List Nat
  | 0, _ => []
  | fuel + 1, a => if a = 0 then [] else a :: chainFrom s lvl fuel (nextAt s a lvl)

/-- The real nodes on level `lvl`, in list order, as reached from the head. -/
def levelChain (s : SL K V) (lvl : Nat) : List Nat :=
  chainFrom s lvl (s.heap.length + 1) (nextAt s s.headAddr lvl)

/-- The key stored at address `a` (defaulting for the sentinel, whose key is
never consulted). -/
def kOf [Inhabited K] (s : SL K V) (a : Nat) : K :=
  match node? s a with
  | none => default
  | some n => n.k

/-- The value stored at address `a`. -/
def vOf [Inhabited V] (s : SL K V) (a : Nat) : V :=
  match node? s a with
  | none => default
  | some n => n.v

/-- `a` is a real allocated node whose forward-pointer array has exactly `h`
slots. -/
def nodeOkB (s : SL K V) (a : Nat) : Bool :=
  a != 0 &&
    match s.heap[a - 1]? with
    | none => false
    | some n => n.next.length == n.h

/-- The sublist of `abs` whose nodes occupy level `L`. -/
def filterLevel (s : SL K V) (abs : List Nat) (L : Nat) : List Nat :=
  abs.filter (fun a => L < hOf s a)

/-- `l` is a faithful picture of the level-`lvl` pointers: each element's
`next[lvl]` is the following element, the last one's is the sentinel. -/
def linkedB (s : SL K V) (lvl : Nat) : List Nat → Bool
  | [] => true
  | [x] => nextAt s x lvl == 0
  | x :: y :: rest => nextAt s x lvl == y && linkedB s lvl (y :: rest)

/-- The structural part of the representation invariant tying a container to
its abstract state `abs`, the list of live node addresses in level-0 order:
head and live nodes are distinct valid nodes; the head has positive height
bounding every node height; for each level `L` below the head height the
level-`L` pointers thread head and exactly the nodes of height above `L` in
order; and keys are non-decreasing along `abs`. -/
def RepN [Inhabited K] (s : SL K V) (abs : List Nat) : Prop :=
  (s.headAddr :: abs).Nodup ∧
  (∀ a ∈ s.headAddr :: abs, nodeOkB s a = true) ∧
  1 ≤ headHeight s ∧
  (∀ a ∈ abs, 1 ≤ hOf s a ∧ hOf s a ≤ headHeight s) ∧
  (∀ L < headHeight s, linkedB s L (s.headAddr :: filterLevel s abs L) = true) ∧
  List.Pairwise (fun a b => s.cmp (kOf s a) (kOf s b) ≤ 0) abs

/-- The full invariant additionally ties the `count` field to the number of
live nodes.  (`skiplist_clear` preserves `RepN` but breaks this part.) -/
def Rep [Inhabited K] (s : SL K V) (abs : List Nat) : Prop :=
  RepN s abs ∧ s.count = abs.length

instance [Inhabited K] (s : SL K V) (abs : List Nat) : Decidable (RepN s abs) := by
  unfold RepN; infer_instance

instance [Inhabited K] (s : SL K V) (abs : List Nat) : Decidable (Rep s abs) := by
  unfold Rep; infer_instance

/-- Lawfulness of the three-way comparison callback: consistent sign flip on
swapped arguments, and transitivity of "not greater". -/
structure LawfulCmp (cmp : K → K → Int) : Prop where
  flip : ∀ a b, cmp a b < 0 ↔ 0 < cmp b a
  le_trans : ∀ a b c, cmp a b ≤ 0 → cmp b c ≤ 0 → cmp a c ≤ 0

theorem LawfulCmp.eq_flip {cmp : K → K → Int} (hc : LawfulCmp cmp) {a b : K}
    (h : cmp a b = 0) : cmp b a = 0 := by
  have h1 := hc.flip a b
  have h2 := hc.flip b a
  omega

theorem LawfulCmp.lt_of_le_of_lt {cmp : K → K → Int} (hc : LawfulCmp cmp)
    {a b c : K} (h1 : cmp a b ≤ 0) (h2 : cmp b c < 0) : cmp a c < 0 := by
  have hle := hc.le_trans a b c h1 (le_of_lt h2)
  rcases lt_or_eq_of_le hle with h | h
  · exact h
  · exfalso
    have hca : cmp c a = 0 := hc.eq_flip h
    have := hc.le_trans c a b (le_of_eq hca) h1
    have := (hc.flip b c).mp h2
    omega

theorem LawfulCmp.lt_of_lt_of_le {cmp : K → K → Int} (hc : LawfulCmp cmp)
    {a b c : K} (h1 : cmp a b < 0) (h2 : cmp b c ≤ 0) : cmp a c < 0 := by
  have hle := hc.le_trans a b c (le_of_lt h1) h2
  rcases lt_or_eq_of_le hle with h | h
  · exact h
  · exfalso
    have hca : cmp c a = 0 := hc.eq_flip h
    have := hc.le_trans b c a h2 (le_of_eq hca)
    have := (hc.flip a b).mp h1
    omega

/-! ## List helpers -/

/-- The last element of `d :: l`. -/
def lastD {α : Type} (d : α) : List α → α
  | [] => d
  | x :: xs => lastD x xs

theorem lastD_append_cons {α : Type} (d y : α) (xs ys : List α) :
    lastD d (xs ++ y :: ys) = lastD y ys := by
  induction xs generalizing d with
  | nil => rfl
  | cons x xs ih => simpa using ih x

theorem lastD_concat {α : Type} (d y : α) (xs : List α) :
    lastD d (xs ++ [y]) = y := lastD_append_cons d y xs []

theorem lastD_mem {α : Type} (d : α) (l : List α) :
    lastD d l = d ∨ lastD d l ∈ l := by
  induction l generalizing d with
  | nil => exact Or.inl rfl
  | cons x xs ih =>
    rcases ih x with h | h
    · exact Or.inr (by simp [lastD, h])
    · exact Or.inr (by simp [lastD, h])

theorem lastD_cons {α : Type} (d x : α) (xs : List α) :
    lastD d (x :: xs) = lastD x xs := rfl

/-! ## Basic state-update lemmas -/

theorem getElem?_some_lt {α : Type} {l : List α} {i : Nat} {n : α}
    (h : l[i]? = some n) : i < l.length := by
  by_contra hge
  rw [List.getElem?_eq_none (le_of_not_lt hge)] at h
  cases h

theorem node?_setNext (s : SL K V) (b : Nat) (i : Nat) (t : Nat) (a : Nat) :
    node? (setNext s b i t) a =
      if a = b then (node? s a).map (fun n => { n with next := n.next.set i t })
      else node? s a := by
  by_cases hb0 : b = 0
  · subst hb0
    by_cases ha : a = 0 <;> simp [setNext, node?, ha]
  · simp only [setNext, if_neg hb0]
    rcases h : s.heap[b - 1]? with _ | n
    · by_cases hab : a = b
      · subst hab; simp [node?, hb0, h]
      · simp [hab]
    · by_cases hab : a = b
      · subst hab
        have hlt : a - 1 < s.heap.length := getElem?_some_lt h
        simp [node?, hb0, h, List.getElem?_set_self hlt]
      · by_cases ha0 : a = 0
        · simp [node?, ha0, hab]
        · have hne : ¬ (b - 1 = a - 1) := by omega
          simp [node?, ha0, hab, List.getElem?_set_ne hne]

theorem node?_setVal (s : SL K V) (b : Nat) (w : V) (a : Nat) :
    node? (setVal s b w) a =
      if a = b then (node? s a).map (fun n => { n with v := w })
      else node? s a := by
  by_cases hb0 : b = 0
  · subst hb0
    by_cases ha : a = 0 <;> simp [setVal, node?, ha]
  · simp only [setVal, if_neg hb0]
    rcases h : s.heap[b - 1]? with _ | n
    · by_cases hab : a = b
      · subst hab; simp [node?, hb0, h]
      · simp [hab]
    · by_cases hab : a = b
      · subst hab
        have hlt : a - 1 < s.heap.length := getElem?_some_lt h
        simp [node?, hb0, h, List.getElem?_set_self hlt]
      · by_cases ha0 : a = 0
        · simp [node?, ha0, hab]
        · have hne : ¬ (b - 1 = a - 1) := by omega
          simp [node?, ha0, hab, List.getElem?_set_ne hne]

theorem nodeOkB_eq_node? (s : SL K V) (a : Nat) :
    nodeOkB s a = (a != 0 &&
      match node? s a with
      | none => false
      | some n => n.next.length == n.h) := by
  unfold nodeOkB node?
  by_cases ha : a = 0 <;> simp [ha]

theorem hOf_setNext (s : SL K V) (b : Nat) (i : Nat) (t : Nat) (a : Nat) :
    hOf (setNext s b i t) a = hOf s a := by
  unfold hOf
  rw [node?_setNext]
  by_cases hab : a = b
  · subst hab; cases node? s a <;> simp
  · simp [hab]

theorem kOf_setNext [Inhabited K] (s : SL K V) (b : Nat) (i : Nat) (t : Nat)
    (a : Nat) : kOf (setNext s b i t) a = kOf s a := by
  unfold kOf
  rw [node?_setNext]
  by_cases hab : a = b
  · subst hab; cases node? s a <;> simp
  · simp [hab]

theorem vOf_setNext [Inhabited V] (s : SL K V) (b : Nat) (i : Nat) (t : Nat)
    (a : Nat) : vOf (setNext s b i t) a = vOf s a := by
  unfold vOf
  rw [node?_setNext]
  by_cases hab : a = b
  · subst hab; cases node? s a <;> simp
  · simp [hab]

theorem nodeOkB_setNext (s : SL K V) (b : Nat) (i : Nat) (t : Nat) (a : Nat) :
    nodeOkB (setNext s b i t) a = nodeOkB s a := by
  rw [nodeOkB_eq_node?, nodeOkB_eq_node?, node?_setNext]
  by_cases hab : a = b
  · subst hab; cases node? s a <;> simp
  · simp [hab]

theorem headAddr_setNext (s : SL K V) (b : Nat) (i : Nat) (t : Nat) :
    (setNext s b i t).headAddr = s.headAddr := by
  unfold setNext
  split
  · rfl
  · split <;> rfl

theorem count_setNext (s : SL K V) (b : Nat) (i : Nat) (t : Nat) :
    (setNext s b i t).count = s.count := by
  unfold setNext
  split
  · rfl
  · split <;> rfl

theorem cmp_setNext (s : SL K V) (b : Nat) (i : Nat) (t : Nat) :
    (setNext s b i t).cmp = s.cmp := by
  unfold setNext
  split
  · rfl
  · split <;> rfl

theorem heapLength_setNext (s : SL K V) (b : Nat) (i : Nat) (t : Nat) :
    (setNext s b i t).heap.length = s.heap.length := by
  unfold setNext
  split
  · rfl
  · split
    · rfl
    · simp

theorem nextAt_setNext_ne_addr (s : SL K V) {b a : Nat} (i : Nat) (t : Nat)
    (j : Nat) (hab : a ≠ b) : nextAt (setNext s b i t) a j = nextAt s a j := by
  unfold nextAt
  rw [node?_setNext]
  simp [hab]

theorem nextAt_setNext_ne_lvl (s : SL K V) (b : Nat) {i : Nat} (t : Nat)
    (a : Nat) {j : Nat} (hj : j ≠ i) :
    nextAt (setNext s b i t) a j = nextAt s a j := by
  unfold nextAt
  rw [node?_setNext]
  by_cases hab : a = b
  · subst hab
    cases node? s a <;>
      simp [List.getD, List.getElem?_set_ne (Ne.symm hj)]
  · simp [hab]

theorem nextAt_setNext_self (s : SL K V) {b : Nat} {i : Nat} (t : Nat)
    (hok : nodeOkB s b = true) (hi : i < hOf s b) :
    nextAt (setNext s b i t) b i = t := by
  rw [nodeOkB_eq_node?] at hok
  rcases h : node? s b with _ | n
  · rw [h] at hok; simp at hok
  · have hlen : n.next.length = n.h := by
      rw [h] at hok
      simp at hok
      exact hok.2
    have hh : hOf s b = n.h := by unfold hOf; rw [h]
    unfold nextAt
    rw [node?_setNext]
    simp only [if_pos rfl, h, Option.map_some]
    have hilt : i < n.next.length := by omega
    simp [List.getD, List.getElem?_set_self hilt]

theorem nextAt_setVal (s : SL K V) (b : Nat) (w : V) (a : Nat) (j : Nat) :
    nextAt (setVal s b w) a j = nextAt s a j := by
  unfold nextAt
  rw [node?_setVal]
  by_cases hab : a = b
  · subst hab; cases node? s a <;> simp
  · simp [hab]

theorem hOf_setVal (s : SL K V) (b : Nat) (w : V) (a : Nat) :
    hOf (setVal s b w) a = hOf s a := by
  unfold hOf
  rw [node?_setVal]
  by_cases hab : a = b
  · subst hab; cases node? s a <;> simp
  · simp [hab]

theorem kOf_setVal [Inhabited K] (s : SL K V) (b : Nat) (w : V) (a : Nat) :
    kOf (setVal s b w) a = kOf s a := by
  unfold kOf
  rw [node?_setVal]
  by_cases hab : a = b
  · subst hab; cases node? s a <;> simp
  · simp [hab]

theorem nodeOkB_setVal (s : SL K V) (b : Nat) (w : V) (a : Nat) :
    nodeOkB (setVal s b w) a = nodeOkB s a := by
  rw [nodeOkB_eq_node?, nodeOkB_eq_node?, node?_setVal]
  by_cases hab : a = b
  · subst hab; cases node? s a <;> simp
  · simp [hab]

theorem headAddr_setVal (s : SL K V) (b : Nat) (w : V) :
    (setVal s b w).headAddr = s.headAddr := by
  unfold setVal
  split
  · rfl
  · split <;> rfl

theorem count_setVal (s : SL K V) (b : Nat) (w : V) :
    (setVal s b w).count = s.count := by
  unfold setVal
  split
  · rfl
  · split <;> rfl

theorem cmp_setVal (s : SL K V) (b : Nat) (w : V) :
    (setVal s b w).cmp = s.cmp := by
  unfold setVal
  split
  · rfl
  · split <;> rfl

theorem heapLength_setVal (s : SL K V) (b : Nat) (w : V) :
    (setVal s b w).heap.length = s.heap.length := by
  unfold setVal
  split
  · rfl
  · split
    · rfl
    · simp

theorem vOf_setVal_self [Inhabited V] (s : SL K V) {b : Nat} (w : V)
    (hok : nodeOkB s b = true) : vOf (setVal s b w) b = w := by
  rw [nodeOkB_eq_node?] at hok
  unfold vOf
  rw [node?_setVal]
  rcases h : node? s b with _ | n
  · rw [h] at hok; simp at hok
  · simp [h]

theorem vOf_setVal_ne [Inhabited V] (s : SL K V) {b : Nat} (w : V) {a : Nat}
    (hab : a ≠ b) : vOf (setVal s b w) a = vOf s a := by
  unfold vOf
  rw [node?_setVal]
  simp [hab]

theorem cmpRes_setNext (s : SL K V) (key : K) (b : Nat) (i : Nat) (t : Nat)
    (a : Nat) : cmpRes (setNext s b i t) key a = cmpRes s key a := by
  unfold cmpRes
  rw [node?_setNext, cmp_setNext]
  by_cases hab : a = b
  · subst hab; cases node? s a <;> simp
  · simp [hab]

theorem cmpRes_setVal (s : SL K V) (key : K) (b : Nat) (w : V) (a : Nat) :
    cmpRes (setVal s b w) key a = cmpRes s key a := by
  unfold cmpRes
  rw [node?_setVal, cmp_setVal]
  by_cases hab : a = b
  · subst hab; cases node? s a <;> simp
  · simp [hab]

/-! ## Shape preservation across pointer updates -/

/-- `t` differs from `s` at most in forward pointers: same count, head,
comparator, heap size, and per-address existence, height, key and value. -/
def SameShape [Inhabited K] [Inhabited V] (t s : SL K V) : Prop :=
  t.count = s.count ∧ t.headAddr = s.headAddr ∧ t.cmp = s.cmp ∧
  t.heap.length = s.heap.length ∧
  ∀ a, (node? t a).isSome = (node? s a).isSome ∧ hOf t a = hOf s a ∧
    kOf t a = kOf s a ∧ vOf t a = vOf s a ∧ nodeOkB t a = nodeOkB s a

theorem sameShape_refl [Inhabited K] [Inhabited V] (s : SL K V) :
    SameShape s s := by
  refine ⟨rfl, rfl, rfl, rfl, fun a => ⟨rfl, rfl, rfl, rfl, rfl⟩⟩

theorem SameShape.trans [Inhabited K] [Inhabited V] {u t s : SL K V}
    (h1 : SameShape u t) (h2 : SameShape t s) : SameShape u s := by
  obtain ⟨a1, b1, c1, d1, e1⟩ := h1
  obtain ⟨a2, b2, c2, d2, e2⟩ := h2
  refine ⟨a1.trans a2, b1.trans b2, c1.trans c2, d1.trans d2, fun a => ?_⟩
  obtain ⟨p1, q1, r1, s1', t1⟩ := e1 a
  obtain ⟨p2, q2, r2, s2', t2⟩ := e2 a
  exact ⟨p1.trans p2, q1.trans q2, r1.trans r2, s1'.trans s2', t1.trans t2⟩

theorem isSome_node?_setNext (s : SL K V) (b : Nat) (i : Nat) (t : Nat)
    (a : Nat) : (node? (setNext s b i t) a).isSome = (node? s a).isSome := by
  rw [node?_setNext]
  by_cases hab : a = b
  · subst hab; cases node? s a <;> simp
  · simp [hab]

theorem sameShape_setNext [Inhabited K] [Inhabited V] (s : SL K V)
    (b : Nat) (i : Nat) (t : Nat) : SameShape (setNext s b i t) s := by
  refine ⟨count_setNext s b i t, headAddr_setNext s b i t, cmp_setNext s b i t,
    heapLength_setNext s b i t, fun a =>
      ⟨isSome_node?_setNext s b i t a, hOf_setNext s b i t a,
       kOf_setNext s b i t a, vOf_setNext s b i t a, nodeOkB_setNext s b i t a⟩⟩

theorem SameShape.headHeight_eq [Inhabited K] [Inhabited V] {t s : SL K V}
    (h : SameShape t s) : headHeight t = headHeight s := by
  obtain ⟨-, hh, -, -, hf⟩ := h
  unfold headHeight
  rw [hh]
  exact (hf s.headAddr).2.1

theorem cmpRes_eq_kOf [Inhabited K] (s : SL K V) (key : K) (a : Nat) :
    cmpRes s key a =
      if (node? s a).isSome then s.cmp (kOf s a) key else 1 := by
  unfold cmpRes kOf
  cases node? s a <;> simp

theorem SameShape.cmpRes_eq [Inhabited K] [Inhabited V] {t s : SL K V}
    (h : SameShape t s) (key : K) (a : Nat) : cmpRes t key a = cmpRes s key a := by
  rw [cmpRes_eq_kOf, cmpRes_eq_kOf, h.2.2.1, (h.2.2.2.2 a).1, (h.2.2.2.2 a).2.2.1]

theorem sameShape_foldl [Inhabited K] [Inhabited V] (g : SL K V → Nat → SL K V)
    (hg : ∀ t i, SameShape (g t i) t) (l : List Nat) (s : SL K V) :
    SameShape (l.foldl g s) s := by
  induction l generalizing s with
  | nil => exact sameShape_refl s
  | cons x xs ih => exact (ih (g s x)).trans (hg s x)

/-! ## Allocation lemmas -/

theorem node?_allocNode_old (s : SL K V) (h : Nat) (k : K) (v : V) {a : Nat}
    (ha : a ≤ s.heap.length) :
    node? (allocNode s h k v).1 a = node? s a := by
  unfold node? allocNode
  by_cases h0 : a = 0
  · simp [h0]
  · have : a - 1 < s.heap.length := by omega
    simp only [h0, if_false]
    rw [List.getElem?_append, if_pos this]

theorem node?_allocNode_new (s : SL K V) (h : Nat) (k : K) (v : V) :
    node? (allocNode s h k v).1 (s.heap.length + 1) =
      some ⟨h, k, v, List.replicate h 0⟩ := by
  unfold node? allocNode
  simp

theorem headAddr_allocNode (s : SL K V) (h : Nat) (k : K) (v : V) :
    (allocNode s h k v).1.headAddr = s.headAddr := rfl

theorem count_allocNode (s : SL K V) (h : Nat) (k : K) (v : V) :
    (allocNode s h k v).1.count = s.count := rfl

theorem cmp_allocNode (s : SL K V) (h : Nat) (k : K) (v : V) :
    (allocNode s h k v).1.cmp = s.cmp := rfl

theorem heapLength_allocNode (s : SL K V) (h : Nat) (k : K) (v : V) :
    (allocNode s h k v).1.heap.length = s.heap.length + 1 := by
  simp [allocNode]

theorem nextAt_allocNode_old (s : SL K V) (h : Nat) (k : K) (v : V) {a : Nat}
    (ha : a ≤ s.heap.length) (j : Nat) :
    nextAt (allocNode s h k v).1 a j = nextAt s a j := by
  unfold nextAt
  rw [node?_allocNode_old s h k v ha]

theorem hOf_allocNode_old (s : SL K V) (h : Nat) (k : K) (v : V) {a : Nat}
    (ha : a ≤ s.heap.length) : hOf (allocNode s h k v).1 a = hOf s a := by
  unfold hOf
  rw [node?_allocNode_old s h k v ha]

theorem kOf_allocNode_old [Inhabited K] (s : SL K V) (h : Nat) (k : K) (v : V)
    {a : Nat} (ha : a ≤ s.heap.length) :
    kOf (allocNode s h k v).1 a = kOf s a := by
  unfold kOf
  rw [node?_allocNode_old s h k v ha]

theorem vOf_allocNode_old [Inhabited V] (s : SL K V) (h : Nat) (k : K) (v : V)
    {a : Nat} (ha : a ≤ s.heap.length) :
    vOf (allocNode s h k v).1 a = vOf s a := by
  unfold vOf
  rw [node?_allocNode_old s h k v ha]

theorem nodeOkB_allocNode_old (s : SL K V) (h : Nat) (k : K) (v : V) {a : Nat}
    (ha : a ≤ s.heap.length) :
    nodeOkB (allocNode s h k v).1 a = nodeOkB s a := by
  rw [nodeOkB_eq_node?, nodeOkB_eq_node?, node?_allocNode_old s h k v ha]

theorem hOf_allocNode_new (s : SL K V) (h : Nat) (k : K) (v : V) :
    hOf (allocNode s h k v).1 (s.heap.length + 1) = h := by
  unfold hOf
  rw [node?_allocNode_new]

theorem kOf_allocNode_new [Inhabited K] (s : SL K V) (h : Nat) (k : K) (v : V) :
    kOf (allocNode s h k v).1 (s.heap.length + 1) = k := by
  unfold kOf
  rw [node?_allocNode_new]

theorem vOf_allocNode_new [Inhabited V] (s : SL K V) (h : Nat) (k : K) (v : V) :
    vOf (allocNode s h k v).1 (s.heap.length + 1) = v := by
  unfold vOf
  rw [node?_allocNode_new]

theorem nextAt_allocNode_new (s : SL K V) (h : Nat) (k : K) (v : V) (j : Nat) :
    nextAt (allocNode s h k v).1 (s.heap.length + 1) j = 0 := by
  unfold nextAt
  rw [node?_allocNode_new]
  by_cases hj : j < h <;> simp [List.getD, List.getElem?_replicate, hj]

theorem nodeOkB_allocNode_new (s : SL K V) (h : Nat) (k : K) (v : V) :
    nodeOkB (allocNode s h k v).1 (s.heap.length + 1) = true := by
  rw [nodeOkB_eq_node?, node?_allocNode_new]
  simp

/-! ## Head-growth lemmas -/

theorem node?_growHead_old [Inhabited K] [Inhabited V] (s : SL K V) (nn : Nat)
    {a : Nat} (ha : a ≤ s.heap.length) :
    node? (growHead s nn) a = node? s a := by
  unfold node? growHead
  by_cases h0 : a = 0
  · simp [h0]
  · have : a - 1 < s.heap.length := by omega
    simp only [h0, if_false]
    rw [List.getElem?_append, if_pos this]

theorem headAddr_growHead [Inhabited K] [Inhabited V] (s : SL K V) (nn : Nat) :
    (growHead s nn).headAddr = s.heap.length + 1 := rfl

theorem count_growHead [Inhabited K] [Inhabited V] (s : SL K V) (nn : Nat) :
    (growHead s nn).count = s.count := rfl

theorem cmp_growHead [Inhabited K] [Inhabited V] (s : SL K V) (nn : Nat) :
    (growHead s nn).cmp = s.cmp := rfl

theorem heapLength_growHead [Inhabited K] [Inhabited V] (s : SL K V)
    (nn : Nat) : (growHead s nn).heap.length = s.heap.length + 1 := by
  simp [growHead]

theorem node?_growHead_new [Inhabited K] [Inhabited V] (s : SL K V) (nn : Nat) :
    node? (growHead s nn) (s.heap.length + 1) =
      some ⟨hOf s nn, default, default,
        (List.range (hOf s nn)).map
          (fun i => if i < headHeight s then nextAt s s.headAddr i else nn)⟩ := by
  unfold node? growHead
  simp

theorem hOf_growHead_new [Inhabited K] [Inhabited V] (s : SL K V) (nn : Nat) :
    hOf (growHead s nn) (s.heap.length + 1) = hOf s nn := by
  unfold hOf
  rw [node?_growHead_new]
  rfl

theorem nextAt_growHead_new [Inhabited K] [Inhabited V] (s : SL K V) (nn : Nat)
    (j : Nat) :
    nextAt (growHead s nn) (s.heap.length + 1) j =
      if j < hOf s nn then
        (if j < headHeight s then nextAt s s.headAddr j else nn)
      else 0 := by
  unfold nextAt
  rw [node?_growHead_new]
  by_cases hj : j < hOf s nn
  · by_cases h2 : j < headHeight s <;>
      simp [List.getD, List.getElem?_map, List.getElem?_range hj, hj, h2, nextAt]
  · have hle : ((List.range (hOf s nn)).map
        (fun i => if i < headHeight s then nextAt s s.headAddr i else nn)).length ≤ j := by
      simpa using le_of_not_lt hj
    simp [List.getD, List.getElem?_eq_none hle, hj]

theorem nodeOkB_growHead_new [Inhabited K] [Inhabited V] (s : SL K V)
    (nn : Nat) : nodeOkB (growHead s nn) (s.heap.length + 1) = true := by
  rw [nodeOkB_eq_node?, node?_growHead_new]
  simp

theorem nextAt_growHead_old [Inhabited K] [Inhabited V] (s : SL K V) (nn : Nat)
    {a : Nat} (ha : a ≤ s.heap.length) (j : Nat) :
    nextAt (growHead s nn) a j = nextAt s a j := by
  unfold nextAt
  rw [node?_growHead_old s nn ha]

theorem hOf_growHead_old [Inhabited K] [Inhabited V] (s : SL K V) (nn : Nat)
    {a : Nat} (ha : a ≤ s.heap.length) : hOf (growHead s nn) a = hOf s a := by
  unfold hOf
  rw [node?_growHead_old s nn ha]

theorem kOf_growHead_old [Inhabited K] [Inhabited V] (s : SL K V) (nn : Nat)
    {a : Nat} (ha : a ≤ s.heap.length) : kOf (growHead s nn) a = kOf s a := by
  unfold kOf
  rw [node?_growHead_old s nn ha]

theorem vOf_growHead_old [Inhabited K] [Inhabited V] (s : SL K V) (nn : Nat)
    {a : Nat} (ha : a ≤ s.heap.length) : vOf (growHead s nn) a = vOf s a := by
  unfold vOf
  rw [node?_growHead_old s nn ha]

theorem nodeOkB_growHead_old [Inhabited K] [Inhabited V] (s : SL K V)
    (nn : Nat) {a : Nat} (ha : a ≤ s.heap.length) :
    nodeOkB (growHead s nn) a = nodeOkB s a := by
  rw [nodeOkB_eq_node?, nodeOkB_eq_node?, node?_growHead_old s nn ha]

/-! ## Net effect of the relinking loops -/

theorem foldl_range_succ {α : Type} (f : α → Nat → α) (s : α) (m : Nat) :
    (List.range (m + 1)).foldl f s = f ((List.range m).foldl f s) m := by
  rw [List.range_succ, List.foldl_append]
  rfl

/-- A loop writing precomputed values: `for i < m: addr[i]->next[i] = val i`. -/
theorem fold_setNext_fixed [Inhabited K] [Inhabited V] (s : SL K V)
    (addr val : Nat → Nat) (m : Nat)
    (hok : ∀ i, i < m → nodeOkB s (addr i) = true ∧ i < hOf s (addr i)) :
    SameShape
      ((List.range m).foldl (fun t i => setNext t (addr i) i (val i)) s) s ∧
    ∀ a j,
      nextAt ((List.range m).foldl (fun t i => setNext t (addr i) i (val i)) s)
          a j =
        if j < m ∧ a = addr j then val j else nextAt s a j := by
  induction m with
  | zero => exact ⟨sameShape_refl s, fun a j => by simp⟩
  | succ m ih =>
    obtain ⟨ihS, ihT⟩ := ih (fun i hi => hok i (Nat.lt_succ_of_lt hi))
    rw [foldl_range_succ]
    set F := (List.range m).foldl (fun t i => setNext t (addr i) i (val i)) s
      with hF
    refine ⟨(sameShape_setNext F (addr m) m (val m)).trans ihS, fun a j => ?_⟩
    by_cases hj : j = m
    · subst hj
      by_cases ha : a = addr j
      · subst ha
        have h1 : nodeOkB F (addr j) = true := by
          rw [((ihS.2.2.2.2) (addr j)).2.2.2.2]
          exact (hok j (Nat.lt_succ_self j)).1
        have h2 : j < hOf F (addr j) := by
          rw [((ihS.2.2.2.2) (addr j)).2.1]
          exact (hok j (Nat.lt_succ_self j)).2
        rw [nextAt_setNext_self F (val j) h1 h2]
        simp [Nat.lt_succ_self]
      · rw [nextAt_setNext_ne_addr F j (val j) j ha, ihT]
        simp [ha]
    · rw [nextAt_setNext_ne_lvl F (addr m) (val m) a hj, ihT]
      have : (j < m ∧ a = addr j) ↔ (j < m + 1 ∧ a = addr j) := by
        constructor
        · rintro ⟨h1, h2⟩; exact ⟨Nat.lt_succ_of_lt h1, h2⟩
        · rintro ⟨h1, h2⟩; exact ⟨by omega, h2⟩
      by_cases hc : j < m ∧ a = addr j
      · simp [hc, this.mp hc]
      · simp only [if_neg hc, if_neg (fun h => hc (this.mpr h))]

/-- A loop writing values read from an untouched source node:
`for i < m: addr[i]->next[i] = src->next[i]`. -/
theorem fold_setNext_read [Inhabited K] [Inhabited V] (s : SL K V)
    (addr : Nat → Nat) (src : Nat) (m : Nat)
    (hok : ∀ i, i < m → nodeOkB s (addr i) = true ∧ i < hOf s (addr i)) :
    SameShape
      ((List.range m).foldl (fun t i => setNext t (addr i) i (nextAt t src i)) s) s ∧
    ∀ a j,
      nextAt
        ((List.range m).foldl (fun t i => setNext t (addr i) i (nextAt t src i)) s)
          a j =
        if j < m ∧ a = addr j then nextAt s src j else nextAt s a j := by
  induction m with
  | zero => exact ⟨sameShape_refl s, fun a j => by simp⟩
  | succ m ih =>
    obtain ⟨ihS, ihT⟩ := ih (fun i hi => hok i (Nat.lt_succ_of_lt hi))
    rw [foldl_range_succ]
    set F := (List.range m).foldl
      (fun t i => setNext t (addr i) i (nextAt t src i)) s with hF
    have hread : nextAt F src m = nextAt s src m := by
      rw [ihT src m]
      have : ¬ (m < m ∧ src = addr m) := by
        rintro ⟨h1, -⟩; omega
      simp [this]
    refine ⟨(sameShape_setNext F (addr m) m (nextAt F src m)).trans ihS,
      fun a j => ?_⟩
    by_cases hj : j = m
    · subst hj
      by_cases ha : a = addr j
      · subst ha
        have h1 : nodeOkB F (addr j) = true := by
          rw [((ihS.2.2.2.2) (addr j)).2.2.2.2]
          exact (hok j (Nat.lt_succ_self j)).1
        have h2 : j < hOf F (addr j) := by
          rw [((ihS.2.2.2.2) (addr j)).2.1]
          exact (hok j (Nat.lt_succ_self j)).2
        rw [nextAt_setNext_self F (nextAt F src j) h1 h2, hread]
        simp [Nat.lt_succ_self]
      · rw [nextAt_setNext_ne_addr F j (nextAt F src j) j ha, ihT]
        simp [ha]
    · rw [nextAt_setNext_ne_lvl F (addr m) (nextAt F src m) a hj, ihT]
      have heqv : (j < m ∧ a = addr j) ↔ (j < m + 1 ∧ a = addr j) := by
        constructor
        · rintro ⟨h1, h2⟩; exact ⟨Nat.lt_succ_of_lt h1, h2⟩
        · rintro ⟨h1, h2⟩; exact ⟨by omega, h2⟩
      by_cases hc : j < m ∧ a = addr j
      · simp [hc, heqv.mp hc]
      · simp only [if_neg hc, if_neg (fun h => hc (heqv.mpr h))]

/-- The `skiplist_pop_first` loop:
`for i < m: head->next[i] = src->next[i]`, where `head` is read from the
evolving state (its address never changes). -/
theorem fold_setNext_head_read [Inhabited K] [Inhabited V] (s : SL K V)
    (src : Nat) (m : Nat)
    (hok : ∀ i, i < m → nodeOkB s s.headAddr = true ∧ i < hOf s s.headAddr) :
    SameShape
      ((List.range m).foldl (fun t i => setNext t t.headAddr i (nextAt t src i)) s) s ∧
    ∀ a j,
      nextAt
        ((List.range m).foldl (fun t i => setNext t t.headAddr i (nextAt t src i)) s)
          a j =
        if j < m ∧ a = s.headAddr then nextAt s src j else nextAt s a j := by
  induction m with
  | zero => exact ⟨sameShape_refl s, fun a j => by simp⟩
  | succ m ih =>
    obtain ⟨ihS, ihT⟩ := ih (fun i hi => hok i (Nat.lt_succ_of_lt hi))
    rw [foldl_range_succ]
    set F := (List.range m).foldl
      (fun t i => setNext t t.headAddr i (nextAt t src i)) s with hF
    have hhd : F.headAddr = s.headAddr := ihS.2.1
    have hread : nextAt F src m = nextAt s src m := by
      rw [ihT src m]
      have : ¬ (m < m ∧ src = s.headAddr) := by
        rintro ⟨h1, -⟩; omega
      simp [this]
    refine ⟨(sameShape_setNext F F.headAddr m (nextAt F src m)).trans ihS,
      fun a j => ?_⟩
    rw [hhd]
    by_cases hj : j = m
    · subst hj
      by_cases ha : a = s.headAddr
      · subst ha
        have h1 : nodeOkB F s.headAddr = true := by
          rw [((ihS.2.2.2.2) s.headAddr).2.2.2.2]
          exact (hok j (Nat.lt_succ_self j)).1
        have h2 : j < hOf F s.headAddr := by
          rw [((ihS.2.2.2.2) s.headAddr).2.1]
          exact (hok j (Nat.lt_succ_self j)).2
        rw [nextAt_setNext_self F (nextAt F src j) h1 h2, hread]
        simp [Nat.lt_succ_self]
      · rw [nextAt_setNext_ne_addr F j (nextAt F src j) j ha, ihT]
        simp [ha]
    · rw [nextAt_setNext_ne_lvl F s.headAddr (nextAt F src m) a hj, ihT]
      have heqv : (j < m ∧ a = s.headAddr) ↔ (j < m + 1 ∧ a = s.headAddr) := by
        constructor
        · rintro ⟨h1, h2⟩; exact ⟨Nat.lt_succ_of_lt h1, h2⟩
        · rintro ⟨h1, h2⟩; exact ⟨by omega, h2⟩
      by_cases hc : j < m ∧ a = s.headAddr
      · simp [hc, heqv.mp hc]
      · simp only [if_neg hc, if_neg (fun h => hc (heqv.mpr h))]

/-- The `skiplist_clear` loop: `for i < m: head->next[i] = &SENTINEL`. -/
theorem fold_setNext_head_zero [Inhabited K] [Inhabited V] (s : SL K V)
    (m : Nat)
    (hok : ∀ i, i < m → nodeOkB s s.headAddr = true ∧ i < hOf s s.headAddr) :
    SameShape
      ((List.range m).foldl (fun t i => setNext t t.headAddr i 0) s) s ∧
    ∀ a j,
      nextAt ((List.range m).foldl (fun t i => setNext t t.headAddr i 0) s) a j =
        if j < m ∧ a = s.headAddr then 0 else nextAt s a j := by
  induction m with
  | zero => exact ⟨sameShape_refl s, fun a j => by simp⟩
  | succ m ih =>
    obtain ⟨ihS, ihT⟩ := ih (fun i hi => hok i (Nat.lt_succ_of_lt hi))
    rw [foldl_range_succ]
    set F := (List.range m).foldl (fun t i => setNext t t.headAddr i 0) s with hF
    have hhd : F.headAddr = s.headAddr := ihS.2.1
    refine ⟨(sameShape_setNext F F.headAddr m 0).trans ihS, fun a j => ?_⟩
    rw [hhd]
    by_cases hj : j = m
    · subst hj
      by_cases ha : a = s.headAddr
      · subst ha
        have h1 : nodeOkB F s.headAddr = true := by
          rw [((ihS.2.2.2.2) s.headAddr).2.2.2.2]
          exact (hok j (Nat.lt_succ_self j)).1
        have h2 : j < hOf F s.headAddr := by
          rw [((ihS.2.2.2.2) s.headAddr).2.1]
          exact (hok j (Nat.lt_succ_self j)).2
        rw [nextAt_setNext_self F 0 h1 h2]
        simp [Nat.lt_succ_self]
      · rw [nextAt_setNext_ne_addr F j 0 j ha, ihT]
        simp [ha]
    · rw [nextAt_setNext_ne_lvl F s.headAddr 0 a hj, ihT]
      have heqv : (j < m ∧ a = s.headAddr) ↔ (j < m + 1 ∧ a = s.headAddr) := by
        constructor
        · rintro ⟨h1, h2⟩; exact ⟨Nat.lt_succ_of_lt h1, h2⟩
        · rintro ⟨h1, h2⟩; exact ⟨by omega, h2⟩
      by_cases hc : j < m ∧ a = s.headAddr
      · simp [hc, heqv.mp hc]
      · simp only [if_neg hc, if_neg (fun h => hc (heqv.mpr h))]

/-- The splice loop of `add_or_set`:
`for i < m: nn->next[i] = prevs[i]->next[i]; prevs[i]->next[i] = nn`. -/
theorem splice_nextAt [Inhabited K] [Inhabited V] (s : SL K V) (nn : Nat)
    (prevs : List Nat) (m : Nat)
    (hnn : nodeOkB s nn = true) (hm : m ≤ hOf s nn)
    (hp : ∀ i, i < m → nodeOkB s (prevs.getD i 0) = true ∧
      i < hOf s (prevs.getD i 0) ∧ prevs.getD i 0 ≠ nn) :
    SameShape (splice s nn prevs m) s ∧
    ∀ a j,
      nextAt (splice s nn prevs m) a j =
        if j < m ∧ a = nn then nextAt s (prevs.getD j 0) j
        else if j < m ∧ a = prevs.getD j 0 then nn
        else nextAt s a j := by
  induction m with
  | zero => exact ⟨sameShape_refl s, fun a j => by simp [splice]⟩
  | succ m ih =>
    obtain ⟨ihS, ihT⟩ := ih (le_trans (Nat.le_succ m) hm)
      (fun i hi => hp i (Nat.lt_succ_of_lt hi))
    unfold splice at *
    rw [foldl_range_succ]
    set F := (List.range m).foldl (spliceStep nn prevs) s with hF
    obtain ⟨hpm1, hpm2, hpm3⟩ := hp m (Nat.lt_succ_self m)
    have hread : nextAt F (prevs.getD m 0) m = nextAt s (prevs.getD m 0) m := by
      rw [ihT]
      have c1 : ¬ (m < m ∧ prevs.getD m 0 = nn) := by rintro ⟨h1, -⟩; omega
      have c2 : ¬ (m < m ∧ prevs.getD m 0 = prevs.getD m 0) := by
        rintro ⟨h1, -⟩; omega
      simp [c1, c2]
    have hokF : ∀ x, nodeOkB F x = nodeOkB s x := fun x => ((ihS.2.2.2.2) x).2.2.2.2
    have hhF : ∀ x, hOf F x = hOf s x := fun x => ((ihS.2.2.2.2) x).2.1
    have hstep : spliceStep nn prevs F m =
        setNext (setNext F nn m (nextAt F (prevs.getD m 0) m)) (prevs.getD m 0) m nn := by
      rfl
    rw [hstep]
    set G := setNext F nn m (nextAt F (prevs.getD m 0) m) with hG
    have hGshape : SameShape G F := sameShape_setNext F nn m _
    refine ⟨((sameShape_setNext G (prevs.getD m 0) m nn).trans hGshape).trans ihS,
      fun a j => ?_⟩
    by_cases hj : j = m
    · subst hj
      by_cases ha : a = prevs.getD j 0
      · subst ha
        have h1 : nodeOkB G (prevs.getD j 0) = true := by
          rw [(hGshape.2.2.2.2 (prevs.getD j 0)).2.2.2.2, hokF]; exact hpm1
        have h2 : j < hOf G (prevs.getD j 0) := by
          rw [(hGshape.2.2.2.2 (prevs.getD j 0)).2.1, hhF]; exact hpm2
        rw [nextAt_setNext_self G nn h1 h2]
        have hc1 : ¬ (j < j + 1 ∧ prevs.getD j 0 = nn) := by
          rintro ⟨-, h⟩; exact hpm3 h
        rw [if_neg hc1, if_pos ⟨Nat.lt_succ_self j, rfl⟩]
      · rw [nextAt_setNext_ne_addr G j nn j ha]
        by_cases hann : a = nn
        · have h1 : nodeOkB F nn = true := by rw [hokF]; exact hnn
          have h2 : j < hOf F nn := by rw [hhF]; omega
          rw [hann, nextAt_setNext_self F (nextAt F (prevs.getD j 0) j) h1 h2,
            hread, if_pos ⟨Nat.lt_succ_self j, rfl⟩]
        · rw [nextAt_setNext_ne_addr F j (nextAt F (prevs.getD j 0) j) j hann, ihT]
          have c1 : ¬ (j < j ∧ a = nn) := by rintro ⟨h1, -⟩; omega
          have c2 : ¬ (j < j ∧ a = prevs.getD j 0) := by rintro ⟨h1, -⟩; omega
          have d1 : ¬ (j < j + 1 ∧ a = nn) := by rintro ⟨-, h⟩; exact hann h
          have d2 : ¬ (j < j + 1 ∧ a = prevs.getD j 0) := by
            rintro ⟨-, h⟩; exact ha h
          rw [if_neg c1, if_neg c2, if_neg d1, if_neg d2]
    · rw [nextAt_setNext_ne_lvl G (prevs.getD m 0) nn a hj,
        nextAt_setNext_ne_lvl F nn (nextAt F (prevs.getD m 0) m) a hj, ihT]
      have e1 : (j < m ∧ a = nn) ↔ (j < m + 1 ∧ a = nn) := by
        constructor
        · rintro ⟨h1, h2⟩; exact ⟨Nat.lt_succ_of_lt h1, h2⟩
        · rintro ⟨h1, h2⟩; exact ⟨by omega, h2⟩
      have e2 : (j < m ∧ a = prevs.getD j 0) ↔ (j < m + 1 ∧ a = prevs.getD j 0) := by
        constructor
        · rintro ⟨h1, h2⟩; exact ⟨Nat.lt_succ_of_lt h1, h2⟩
        · rintro ⟨h1, h2⟩; exact ⟨by omega, h2⟩
      by_cases c1 : j < m ∧ a = nn
      · simp [c1, e1.mp c1]
      · by_cases c2 : j < m ∧ a = prevs.getD j 0
        · simp only [if_neg c1, if_pos c2, if_neg (fun h => c1 (e1.mpr h)),
            if_pos (e2.mp c2)]
        · simp only [if_neg c1, if_neg c2, if_neg (fun h => c1 (e1.mpr h)),
            if_neg (fun h => c2 (e2.mpr h))]

/-- The per-node `nexts` refresh inside the delete-all walk:
`for i < m: nexts[i] = f i`. -/
theorem fold_set_getD (base : List Nat) (f : Nat → Nat) (m : Nat) :
    ((List.range m).foldl (fun ns i => ns.set i (f i)) base).length =
      base.length ∧
    ∀ j d,
      ((List.range m).foldl (fun ns i => ns.set i (f i)) base).getD j d =
        if j < m ∧ j < base.length then f j else base.getD j d := by
  induction m with
  | zero => exact ⟨rfl, fun j d => by simp⟩
  | succ m ih =>
    obtain ⟨ihL, ihT⟩ := ih
    rw [foldl_range_succ]
    set F := (List.range m).foldl (fun ns i => ns.set i (f i)) base with hF
    refine ⟨by simp [ihL], fun j d => ?_⟩
    by_cases hj : j = m
    · subst hj
      by_cases hlen : j < base.length
      · have : j < F.length := by omega
        simp [List.getD, List.getElem?_set_self this, Nat.lt_succ_self, hlen]
      · have hFle : (F.set j (f j)).length ≤ j := by
          rw [List.length_set]; omega
        have hble : base.length ≤ j := le_of_not_lt hlen
        simp only [List.getD, List.get?_eq_getElem?]
        rw [List.getElem?_eq_none hFle, List.getElem?_eq_none hble]
        simp [hlen]
    · have heq : (F.set m (f m)).getD j d = F.getD j d := by
        simp only [List.getD, List.get?_eq_getElem?]
        rw [List.getElem?_set_ne (Ne.symm hj)]
      rw [heq, ihT]
      have heqv : (j < m ∧ j < base.length) ↔ (j < m + 1 ∧ j < base.length) := by
        constructor
        · rintro ⟨h1, h2⟩; exact ⟨Nat.lt_succ_of_lt h1, h2⟩
        · rintro ⟨h1, h2⟩; exact ⟨by omega, h2⟩
      by_cases hc : j < m ∧ j < base.length
      · simp [hc, heqv.mp hc]
      · simp only [if_neg hc, if_neg (fun h => hc (heqv.mpr h))]

/-! ## Chain decomposition -/

/-- Consecutive links only, without the terminal sentinel condition. -/
def linksB (s : SL K V) (lvl : Nat) : List Nat → Bool
  | [] => true
  | [_] => true
  | x :: y :: rest => nextAt s x lvl == y && linksB s lvl (y :: rest)

theorem linkedB_iff (s : SL K V) (lvl : Nat) :
    ∀ (l : List Nat), l ≠ [] →
      (linkedB s lvl l = true ↔
        linksB s lvl l = true ∧ nextAt s (lastD 0 l) lvl = 0)
  | [], h => absurd rfl h
  | [x], _ => by simp [linkedB, linksB, lastD]
  | x :: y :: rest, _ => by
    have ih := linkedB_iff s lvl (y :: rest) (by simp)
    simp only [linkedB, linksB, lastD, Bool.and_eq_true, beq_iff_eq]
    constructor
    · rintro ⟨h1, h2⟩
      obtain ⟨h3, h4⟩ := ih.mp h2
      exact ⟨⟨h1, h3⟩, h4⟩
    · rintro ⟨⟨h1, h3⟩, h4⟩
      exact ⟨h1, ih.mpr ⟨h3, h4⟩⟩

theorem linksB_append (s : SL K V) (lvl : Nat) :
    ∀ (xs : List Nat), xs ≠ [] → ∀ (ys : List Nat), ys ≠ [] →
      (linksB s lvl (xs ++ ys) = true ↔
        linksB s lvl xs = true ∧ nextAt s (lastD 0 xs) lvl = ys.headD 0 ∧
          linksB s lvl ys = true)
  | [], h, _, _ => absurd rfl h
  | [x], _, ys, hy => by
    cases ys with
    | nil => exact absurd rfl hy
    | cons y ys' =>
      simp [linksB, lastD]
  | x1 :: x2 :: xs', _, ys, hy => by
    have ih := linksB_append s lvl (x2 :: xs') (by simp) ys hy
    simp only [List.cons_append, linksB, Bool.and_eq_true, beq_iff_eq] at *
    constructor
    · rintro ⟨h1, h2⟩
      obtain ⟨h3, h4, h5⟩ := ih.mp h2
      exact ⟨⟨h1, h3⟩, h4, h5⟩
    · rintro ⟨⟨h1, h3⟩, h4, h5⟩
      exact ⟨h1, ih.mpr ⟨h3, h4, h5⟩⟩

theorem linksB_suffix (s : SL K V) (lvl : Nat) (xs ys : List Nat)
    (h : linksB s lvl (xs ++ ys) = true) : linksB s lvl ys = true := by
  rcases xs with _ | ⟨x, xs'⟩
  · simpa using h
  · rcases ys with _ | ⟨y, ys'⟩
    · rfl
    · exact ((linksB_append s lvl (x :: xs') (by simp) (y :: ys') (by simp)).mp h).2.2

theorem linkedB_suffix (s : SL K V) (lvl : Nat) (xs ys : List Nat)
    (hy : ys ≠ []) (h : linkedB s lvl (xs ++ ys) = true) :
    linkedB s lvl ys = true := by
  have hne : xs ++ ys ≠ [] := by
    intro hc
    rcases List.append_eq_nil.mp hc with ⟨-, h2⟩
    exact hy h2
  obtain ⟨h1, h2⟩ := (linkedB_iff s lvl (xs ++ ys) hne).mp h
  refine (linkedB_iff s lvl ys hy).mpr ⟨linksB_suffix s lvl xs ys h1, ?_⟩
  rcases ys with _ | ⟨y, ys'⟩
  · exact absurd rfl hy
  · have : lastD 0 (xs ++ y :: ys') = lastD y ys' := lastD_append_cons 0 y xs ys'
    rw [this] at h2
    simpa [lastD] using h2

theorem linkedB_break (s : SL K V) (lvl : Nat) (x : Nat) (A B : List Nat)
    (h : linkedB s lvl (x :: (A ++ B)) = true) :
    nextAt s (lastD x A) lvl = B.headD 0 := by
  rcases B with _ | ⟨b, B'⟩
  · obtain ⟨-, h2⟩ := (linkedB_iff s lvl (x :: (A ++ [])) (by simp)).mp h
    simp only [List.append_nil] at h2
    simpa [lastD] using h2
  · obtain ⟨h1, -⟩ := (linkedB_iff s lvl (x :: (A ++ b :: B')) (by simp)).mp h
    have hsplit : x :: (A ++ b :: B') = (x :: A) ++ (b :: B') := by simp
    rw [hsplit] at h1
    have := ((linksB_append s lvl (x :: A) (by simp) (b :: B') (by simp)).mp h1).2.1
    simpa [lastD] using this

theorem linkedB_glue (s : SL K V) (lvl : Nat) (x : Nat) (A B : List Nat)
    (h1 : linksB s lvl (x :: A) = true)
    (h2 : nextAt s (lastD x A) lvl = B.headD 0)
    (h3 : B = [] ∨ linkedB s lvl B = true) :
    linkedB s lvl (x :: (A ++ B)) = true := by
  rcases B with _ | ⟨b, B'⟩
  · refine (linkedB_iff s lvl (x :: (A ++ [])) (by simp)).mpr ?_
    simp only [List.append_nil]
    exact ⟨h1, by simpa [lastD] using h2⟩
  · rcases h3 with h3 | h3
    · cases h3
    · obtain ⟨h4, h5⟩ := (linkedB_iff s lvl (b :: B') (by simp)).mp h3
      refine (linkedB_iff s lvl (x :: (A ++ b :: B')) (by simp)).mpr ⟨?_, ?_⟩
      · have hsplit : x :: (A ++ b :: B') = (x :: A) ++ (b :: B') := by simp
        rw [hsplit]
        exact (linksB_append s lvl (x :: A) (by simp) (b :: B') (by simp)).mpr
          ⟨h1, by simpa [lastD] using h2, h4⟩
      · have : lastD 0 (x :: (A ++ b :: B')) = lastD b B' := by
          simp [lastD, lastD_append_cons]
        rw [this]
        simpa [lastD] using h5

theorem linksB_congr (s' s : SL K V) (lvl : Nat) :
    ∀ (l : List Nat), (∀ a ∈ l, nextAt s' a lvl = nextAt s a lvl) →
      linksB s' lvl l = linksB s lvl l
  | [], _ => rfl
  | [x], _ => rfl
  | x :: y :: rest, h => by
    have ih := linksB_congr s' s lvl (y :: rest) (fun a ha => h a (by simp [ha]))
    simp only [linksB, ih, h x (by simp)]

theorem linkedB_congr (s' s : SL K V) (lvl : Nat) :
    ∀ (l : List Nat), (∀ a ∈ l, nextAt s' a lvl = nextAt s a lvl) →
      linkedB s' lvl l = linkedB s lvl l
  | [], _ => rfl
  | [x], h => by simp [linkedB, h x (by simp)]
  | x :: y :: rest, h => by
    have ih := linkedB_congr s' s lvl (y :: rest) (fun a ha => h a (by simp [ha]))
    simp only [linkedB, ih, h x (by simp)]

theorem linksB_of_linkedB (s : SL K V) (lvl : Nat) (l : List Nat)
    (h : linkedB s lvl l = true) : linksB s lvl l = true := by
  rcases l with _ | ⟨x, xs⟩
  · rfl
  · exact ((linkedB_iff s lvl (x :: xs) (by simp)).mp h).1

theorem chainFrom_zero (s : SL K V) (lvl : Nat) (fuel : Nat) :
    chainFrom s lvl fuel 0 = [] := by
  cases fuel <;> simp [chainFrom]

theorem chainFrom_of_linked (s : SL K V) (lvl : Nat) :
    ∀ (rest : List Nat) (a : Nat) (fuel : Nat),
      linkedB s lvl (a :: rest) = true → a ≠ 0 → (∀ x ∈ rest, x ≠ 0) →
      rest.length < fuel → chainFrom s lvl fuel a = a :: rest
  | [], a, fuel, hl, ha, _, hf => by
    rcases fuel with _ | f
    · omega
    · have h0 : nextAt s a lvl = 0 := by simpa [linkedB] using hl
      simp [chainFrom, ha, h0, chainFrom_zero]
  | r :: rest', a, fuel, hl, ha, hz, hf => by
    rcases fuel with _ | f
    · simp at hf
    · have h1 : nextAt s a lvl = r ∧ linkedB s lvl (r :: rest') = true := by
        simpa [linkedB] using hl
      have ih := chainFrom_of_linked s lvl rest' r f h1.2
        (hz r (by simp)) (fun x hx => hz x (by simp [hx]))
        (by simp at hf; omega)
      simp [chainFrom, ha, h1.1, ih]

/-- Distinct nonzero addresses bounded by `N` number at most `N`. -/
theorem length_le_of_nodup_bounded (l : List Nat) (N : Nat) (hnd : l.Nodup)
    (hb : ∀ a ∈ l, a ≠ 0 ∧ a ≤ N) : l.length ≤ N := by
  classical
  have hsub : l.toFinset ⊆ Finset.Icc 1 N := by
    intro a ha
    rw [List.mem_toFinset] at ha
    obtain ⟨h1, h2⟩ := hb a ha
    rw [Finset.mem_Icc]
    omega
  have hcard := Finset.card_le_card hsub
  rw [List.toFinset_card_of_nodup hnd] at hcard
  simpa [Nat.card_Icc] using hcard

/-! ## Sorted-list helpers -/

theorem takeWhile_eq_filter {α : Type} (p : α → Bool) (R : α → α → Prop) :
    ∀ (l : List α), l.Pairwise R →
      (∀ a ∈ l, ∀ b ∈ l, R a b → p b = true → p a = true) →
      l.takeWhile p = l.filter p
  | [], _, _ => rfl
  | x :: xs, hp, hdc => by
    obtain ⟨hx, hxs⟩ := List.pairwise_cons.mp hp
    by_cases hpx : p x = true
    · simp [List.takeWhile_cons, List.filter_cons, hpx,
        takeWhile_eq_filter p R xs hxs
          (fun a ha b hb hr hp2 => hdc a (by simp [ha]) b (by simp [hb]) hr hp2)]
    · have hnil : xs.filter p = [] := by
        rw [List.filter_eq_nil]
        intro b hb hpb
        exact hpx (hdc x (by simp) b (by simp [hb]) (hx b hb) hpb)
      have hpx' : p x = false := by
        cases h : p x
        · rfl
        · exact absurd h hpx
      simp [List.takeWhile_cons, List.filter_cons, hpx', hnil]

theorem dropWhile_all_not {α : Type} (p : α → Bool) (R : α → α → Prop) :
    ∀ (l : List α), l.Pairwise R →
      (∀ a ∈ l, ∀ b ∈ l, R a b → p b = true → p a = true) →
      ∀ b ∈ l.dropWhile p, p b = false
  | [], _, _, b, hb => by simp at hb
  | x :: xs, hp, hdc, b, hb => by
    obtain ⟨hx, hxs⟩ := List.pairwise_cons.mp hp
    by_cases hpx : p x = true
    · rw [List.dropWhile_cons_of_pos hpx] at hb
      exact dropWhile_all_not p R xs hxs
        (fun a ha b2 hb2 hr hp2 => hdc a (by simp [ha]) b2 (by simp [hb2]) hr hp2)
        b hb
    · have hpx' : p x = false := by
        cases h : p x
        · rfl
        · exact absurd h hpx
      rw [List.dropWhile_cons_of_neg (by simp [hpx'])] at hb
      rcases List.mem_cons.mp hb with hb | hb
      · subst hb; exact hpx'
      · cases h : p b
        · rfl
        · exact absurd (hdc x (by simp) b (by simp [hb]) (hx b hb) h) hpx

theorem takeWhile_append_all {α : Type} (p : α → Bool) :
    ∀ (Q D : List α), (∀ a ∈ Q, p a = true) →
      (Q ++ D).takeWhile p = Q ++ D.takeWhile p
  | [], D, _ => rfl
  | q :: Q', D, h => by
    have hq : p q = true := h q (by simp)
    simp [List.takeWhile_cons, hq,
      takeWhile_append_all p Q' D (fun a ha => h a (by simp [ha]))]

theorem takeWhile_dropWhile_nil {α : Type} (p : α → Bool) (l : List α) :
    (l.dropWhile p).takeWhile p = [] := by
  rcases h : l.dropWhile p with _ | ⟨d, D'⟩
  · rfl
  · have hd : p d = false := by
      have := List.head_dropWhile_not p l (by simp [h])
      simpa [h] using this
    simp [List.takeWhile_cons, hd]

/-! ## Search-loop correctness -/

theorem cmpRes_sentinel (s : SL K V) (key : K) : cmpRes s key 0 = 1 := by
  simp [cmpRes, node?]

theorem lastD_mem_of_ne_nil {α : Type} (d : α) :
    ∀ (l : List α), l ≠ [] → lastD d l ∈ l
  | [], h => absurd rfl h
  | x :: xs, _ => by
    cases xs with
    | nil => simp [lastD]
    | cons y ys =>
      have ih := lastD_mem_of_ne_nil x (y :: ys) (by simp)
      rw [lastD_cons]
      exact List.mem_cons_of_mem x ih

theorem advanceLevel_spec (s : SL K V) (key : K) (lvl : Nat) :
    ∀ (rest : List Nat) (c : Nat) (fuel : Nat),
      linkedB s lvl (c :: rest) = true → rest.length ≤ fuel →
      advanceLevel s key lvl fuel c =
        lastD c (rest.takeWhile (fun a => decide (cmpRes s key a < 0)))
  | [], c, fuel, hl, _ => by
    have h0 : nextAt s c lvl = 0 := by simpa [linkedB] using hl
    rcases fuel with _ | f
    · rfl
    · simp [advanceLevel, h0, cmpRes_sentinel, lastD]
  | r :: rest', c, fuel, hl, hf => by
    rcases fuel with _ | f
    · simp at hf
    · have h1 : nextAt s c lvl = r ∧ linkedB s lvl (r :: rest') = true := by
        simpa [linkedB] using hl
      by_cases hr : cmpRes s key r < 0
      · have ih := advanceLevel_spec s key lvl rest' r f h1.2 (by simp at hf; omega)
        simp [advanceLevel, h1.1, hr, List.takeWhile_cons, ih, lastD]
      · simp [advanceLevel, h1.1, hr, List.takeWhile_cons, lastD]

/-! ## The predecessor abstraction at each level -/

/-- The level-`L` nodes whose key is strictly below `key`, in order. -/
def ltFilter (s : SL K V) (key : K) (abs : List Nat) (L : Nat) : List Nat :=
  (filterLevel s abs L).filter (fun a => decide (cmpRes s key a < 0))

/-- The level-`L` nodes from the first whose key is not below `key` onwards. -/
def geSuffix (s : SL K V) (key : K) (abs : List Nat) (L : Nat) : List Nat :=
  (filterLevel s abs L).dropWhile (fun a => decide (cmpRes s key a < 0))

/-- The node `init_prevs` records for level `L`: the last level-`L` node with
key strictly below `key`, or the head if there is none. -/
def predAt (s : SL K V) (key : K) (abs : List Nat) (L : Nat) : Nat :=
  lastD s.headAddr (ltFilter s key abs L)

theorem nodeOkB_props {s : SL K V} {a : Nat} (h : nodeOkB s a = true) :
    a ≠ 0 ∧ a ≤ s.heap.length ∧ (node? s a).isSome = true := by
  unfold nodeOkB at h
  by_cases ha : a = 0
  · subst ha; simp at h
  · rcases hg : s.heap[a - 1]? with _ | n
    · rw [hg] at h; simp [ha] at h
    · have hlt := getElem?_some_lt hg
      refine ⟨ha, by omega, ?_⟩
      unfold node?
      simp [ha, hg]

theorem rep_head_ok [Inhabited K] {s : SL K V} {abs : List Nat}
    (h : RepN s abs) : nodeOkB s s.headAddr = true := h.2.1 s.headAddr (by simp)

theorem rep_mem_ok [Inhabited K] {s : SL K V} {abs : List Nat} (h : RepN s abs)
    {a : Nat} (ha : a ∈ abs) : nodeOkB s a = true := h.2.1 a (by simp [ha])

theorem rep_headH [Inhabited K] {s : SL K V} {abs : List Nat} (h : RepN s abs) :
    1 ≤ headHeight s := h.2.2.1

theorem rep_heights [Inhabited K] {s : SL K V} {abs : List Nat} (h : RepN s abs) :
    ∀ a ∈ abs, 1 ≤ hOf s a ∧ hOf s a ≤ headHeight s := h.2.2.2.1

theorem rep_chains [Inhabited K] {s : SL K V} {abs : List Nat} (h : RepN s abs) :
    ∀ L, L < headHeight s →
      linkedB s L (s.headAddr :: filterLevel s abs L) = true := h.2.2.2.2.1

theorem rep_sorted [Inhabited K] {s : SL K V} {abs : List Nat} (h : RepN s abs) :
    abs.Pairwise (fun a b => s.cmp (kOf s a) (kOf s b) ≤ 0) := h.2.2.2.2.2

theorem rep_count [Inhabited K] {s : SL K V} {abs : List Nat} (h : Rep s abs) :
    s.count = abs.length := h.2

theorem rep_nodup [Inhabited K] {s : SL K V} {abs : List Nat} (h : RepN s abs) :
    (s.headAddr :: abs).Nodup := h.1

theorem rep_head_not_mem [Inhabited K] {s : SL K V} {abs : List Nat}
    (h : RepN s abs) : s.headAddr ∉ abs := (List.nodup_cons.mp h.1).1

theorem rep_abs_nodup [Inhabited K] {s : SL K V} {abs : List Nat}
    (h : RepN s abs) : abs.Nodup := (List.nodup_cons.mp h.1).2

theorem rep_abs_len [Inhabited K] {s : SL K V} {abs : List Nat}
    (h : RepN s abs) : abs.length ≤ s.heap.length := by
  refine length_le_of_nodup_bounded abs s.heap.length (rep_abs_nodup h)
    (fun a ha => ?_)
  have := nodeOkB_props (rep_mem_ok h ha)
  exact ⟨this.1, this.2.1⟩

theorem mem_filterLevel {s : SL K V} {abs : List Nat} {L a : Nat} :
    a ∈ filterLevel s abs L ↔ a ∈ abs ∧ L < hOf s a := by
  simp [filterLevel, List.mem_filter]

theorem filterLevel_length_le (s : SL K V) (abs : List Nat) (L : Nat) :
    (filterLevel s abs L).length ≤ abs.length :=
  (List.filter_sublist abs).length_le

theorem filterLevel_top [Inhabited K] {s : SL K V} {abs : List Nat}
    (h : RepN s abs) {L : Nat} (hL : headHeight s ≤ L) :
    filterLevel s abs L = [] := by
  unfold filterLevel
  rw [List.filter_eq_nil]
  intro a ha
  have := (rep_heights h a ha).2
  simp only [decide_eq_true_eq]
  omega

theorem cmpRes_eq_of_isSome [Inhabited K] {s : SL K V} {a : Nat}
    (h : (node? s a).isSome = true) (key : K) :
    cmpRes s key a = s.cmp (kOf s a) key := by
  unfold cmpRes kOf
  rcases hn : node? s a with _ | n
  · rw [hn] at h; cases h
  · rfl

theorem headD_zero_cmpRes (s : SL K V) (key : K) :
    cmpRes s key (([] : List Nat).headD 0) = 1 := cmpRes_sentinel s key

/-- Split of the level-`L` chain into the strictly-below prefix and the
not-below suffix, with the suffix elementwise not below. -/
theorem fl_split [Inhabited K] {s : SL K V} {abs : List Nat} (hrep : RepN s abs)
    (hc : LawfulCmp s.cmp) (key : K) (L : Nat) :
    filterLevel s abs L = ltFilter s key abs L ++ geSuffix s key abs L ∧
    (∀ b ∈ geSuffix s key abs L, ¬ (cmpRes s key b < 0)) := by
  have hsor : (filterLevel s abs L).Pairwise
      (fun a b => s.cmp (kOf s a) (kOf s b) ≤ 0) :=
    (rep_sorted hrep).filter _
  have hdc : ∀ a ∈ filterLevel s abs L, ∀ b ∈ filterLevel s abs L,
      s.cmp (kOf s a) (kOf s b) ≤ 0 →
      (fun x => decide (cmpRes s key x < 0)) b = true →
      (fun x => decide (cmpRes s key x < 0)) a = true := by
    intro a ha b hb hr hpb
    have hsa := (nodeOkB_props (rep_mem_ok hrep (mem_filterLevel.mp ha).1)).2.2
    have hsb := (nodeOkB_props (rep_mem_ok hrep (mem_filterLevel.mp hb).1)).2.2
    simp only [decide_eq_true_eq] at hpb ⊢
    rw [cmpRes_eq_of_isSome hsb key] at hpb
    rw [cmpRes_eq_of_isSome hsa key]
    exact hc.lt_of_le_of_lt hr hpb
  have htd : (filterLevel s abs L).takeWhile
      (fun x => decide (cmpRes s key x < 0)) ++
      (filterLevel s abs L).dropWhile
      (fun x => decide (cmpRes s key x < 0)) = filterLevel s abs L :=
    List.takeWhile_append_dropWhile _ _
  constructor
  · conv_lhs => rw [← htd]
    rw [takeWhile_eq_filter _ _ (filterLevel s abs L) hsor hdc]
    rfl
  · intro b hb
    have := dropWhile_all_not _ _ (filterLevel s abs L) hsor hdc b hb
    simpa using this

theorem filterLevel_filter_succ (s : SL K V) (abs : List Nat) (L : Nat) :
    filterLevel s abs (L + 1) =
      (filterLevel s abs L).filter (fun a => decide (L + 1 < hOf s a)) := by
  unfold filterLevel
  rw [List.filter_filter]
  apply List.filter_congr
  intro a _
  by_cases h : L + 1 < hOf s a
  · have h2 : L < hOf s a := by omega
    simp [h, h2]
  · simp [h]

theorem ltFilter_succ (s : SL K V) (key : K) (abs : List Nat) (L : Nat) :
    ltFilter s key abs (L + 1) =
      (ltFilter s key abs L).filter (fun a => decide (L + 1 < hOf s a)) := by
  unfold ltFilter
  rw [filterLevel_filter_succ, List.filter_filter, List.filter_filter]
  apply List.filter_congr
  intro a _
  rw [Bool.and_comm]

theorem predAt_top [Inhabited K] {s : SL K V} {abs : List Nat}
    (hrep : RepN s abs) (key : K) {L : Nat} (hL : headHeight s ≤ L) :
    predAt s key abs L = s.headAddr := by
  unfold predAt ltFilter
  rw [filterLevel_top hrep hL]
  rfl

/-- Descending one level of the search resumes from the recorded node and
reaches the level-below predecessor. -/
theorem pred_step [Inhabited K] {s : SL K V} {abs : List Nat}
    (hrep : RepN s abs) (hc : LawfulCmp s.cmp) (key : K) {L : Nat}
    (hL : L < headHeight s) :
    advanceLevel s key L (s.heap.length + 1) (predAt s key abs (L + 1)) =
      predAt s key abs L := by
  obtain ⟨hsplit, hge⟩ := fl_split hrep hc key L
  have hchain : linkedB s L (s.headAddr :: filterLevel s abs L) = true :=
    rep_chains hrep L hL
  have hlen : (filterLevel s abs L).length ≤ s.heap.length :=
    le_trans (filterLevel_length_le s abs L) (rep_abs_len hrep)
  have hFsub : ∀ a ∈ ltFilter s key abs L,
      (fun x => decide (cmpRes s key x < 0)) a = true :=
    fun a ha => (List.mem_filter.mp ha).2
  have htake : (geSuffix s key abs L).takeWhile
      (fun x => decide (cmpRes s key x < 0)) = [] :=
    takeWhile_dropWhile_nil _ (filterLevel s abs L)
  rcases hne : ltFilter s key abs (L + 1) with _ | ⟨g0, G'⟩
  · have hpred1 : predAt s key abs (L + 1) = s.headAddr := by
      unfold predAt; rw [hne]; rfl
    rw [hpred1,
      advanceLevel_spec s key L (filterLevel s abs L) s.headAddr
        (s.heap.length + 1) hchain (by omega)]
    have ht : (filterLevel s abs L).takeWhile
        (fun x => decide (cmpRes s key x < 0)) = ltFilter s key abs L := by
      conv_lhs => rw [hsplit]
      rw [takeWhile_append_all _ _ _ hFsub, htake, List.append_nil]
    rw [ht]
    rfl
  · have hcmem1 : predAt s key abs (L + 1) ∈ ltFilter s key abs (L + 1) := by
      unfold predAt
      rw [hne]
      exact lastD_mem_of_ne_nil s.headAddr (g0 :: G') (by simp)
    have hcF : predAt s key abs (L + 1) ∈ ltFilter s key abs L := by
      rw [ltFilter_succ] at hcmem1
      exact (List.mem_filter.mp hcmem1).1
    obtain ⟨P, Q, hPQ⟩ := List.append_of_mem hcF
    have hflPQ : filterLevel s abs L =
        P ++ predAt s key abs (L + 1) :: (Q ++ geSuffix s key abs L) := by
      rw [hsplit, hPQ]; simp
    have hsuffix : linkedB s L
        (predAt s key abs (L + 1) :: (Q ++ geSuffix s key abs L)) = true := by
      apply linkedB_suffix s L (s.headAddr :: P) _ (by simp)
      have heq : (s.headAddr :: P) ++
          predAt s key abs (L + 1) :: (Q ++ geSuffix s key abs L) =
          s.headAddr :: filterLevel s abs L := by
        rw [hflPQ]; simp
      rw [heq]
      exact hchain
    have hlen2 : (Q ++ geSuffix s key abs L).length ≤ s.heap.length := by
      have := hlen
      rw [hflPQ] at this
      simp only [List.length_append, List.length_cons] at this ⊢
      omega
    rw [advanceLevel_spec s key L (Q ++ geSuffix s key abs L)
      (predAt s key abs (L + 1)) (s.heap.length + 1) hsuffix (by omega)]
    have hQsub : ∀ a ∈ Q, (fun x => decide (cmpRes s key x < 0)) a = true :=
      fun a ha => hFsub a (by rw [hPQ]; simp [ha])
    have ht : (Q ++ geSuffix s key abs L).takeWhile
        (fun x => decide (cmpRes s key x < 0)) = Q := by
      rw [takeWhile_append_all _ _ _ hQsub, htake, List.append_nil]
    rw [ht]
    show lastD (predAt s key abs (L + 1)) Q = predAt s key abs L
    have hform : predAt s key abs L =
        lastD s.headAddr (P ++ predAt s key abs (L + 1) :: Q) := by
      show lastD s.headAddr (ltFilter s key abs L) = _
      rw [hPQ]
    rw [hform, lastD_append_cons]

/-- The level-`L` successor of the recorded predecessor is the first
level-`L` node not below `key` (or the sentinel). -/
theorem nextAt_predAt [Inhabited K] {s : SL K V} {abs : List Nat}
    (hrep : RepN s abs) (hc : LawfulCmp s.cmp) (key : K) {L : Nat}
    (hL : L < headHeight s) :
    nextAt s (predAt s key abs L) L = (geSuffix s key abs L).headD 0 := by
  obtain ⟨hsplit, -⟩ := fl_split hrep hc key L
  have hchain := rep_chains hrep L hL
  have hform : s.headAddr :: filterLevel s abs L =
      s.headAddr :: (ltFilter s key abs L ++ geSuffix s key abs L) := by
    rw [← hsplit]
  rw [hform] at hchain
  exact linkedB_break s L s.headAddr (ltFilter s key abs L)
    (geSuffix s key abs L) hchain

theorem getD_append_left {xs ys : List Nat} {L d : Nat} (h : L < xs.length) :
    (xs ++ ys).getD L d = xs.getD L d := by
  simp only [List.getD, List.get?_eq_getElem?]
  rw [List.getElem?_append, if_pos h]

theorem getD_append_at_length (xs : List Nat) (y : Nat) (ys : List Nat)
    (d : Nat) : (xs ++ y :: ys).getD xs.length d = y := by
  simp only [List.getD, List.get?_eq_getElem?]
  rw [List.getElem?_append, if_neg (lt_irrefl _), Nat.sub_self]
  simp

theorem initPrevsGo_spec [Inhabited K] {s : SL K V} {abs : List Nat}
    (hrep : RepN s abs) (hc : LawfulCmp s.cmp) (key : K) :
    ∀ (lvl : Nat), lvl < headHeight s →
      (initPrevsGo s key (s.heap.length + 1) lvl
          (predAt s key abs (lvl + 1))).length = lvl + 1 ∧
      ∀ L, L ≤ lvl →
        (initPrevsGo s key (s.heap.length + 1) lvl
            (predAt s key abs (lvl + 1))).getD L 0 = predAt s key abs L := by
  intro lvl
  induction lvl with
  | zero =>
    intro hlt
    have h0 := pred_step hrep hc key hlt
    constructor
    · rfl
    · intro L hL
      interval_cases L
      simpa [initPrevsGo] using h0
  | succ lvl ih =>
    intro hlt
    have hstep := pred_step hrep hc key hlt
    have hlt' : lvl < headHeight s := by omega
    obtain ⟨ihL, ihT⟩ := ih hlt'
    have hgo : initPrevsGo s key (s.heap.length + 1) (lvl + 1)
        (predAt s key abs (lvl + 1 + 1)) =
        initPrevsGo s key (s.heap.length + 1) lvl (predAt s key abs (lvl + 1))
          ++ [predAt s key abs (lvl + 1)] := by
      rw [initPrevsGo, hstep]
    rw [hgo]
    constructor
    · simp [ihL]
    · intro L hL
      by_cases hLle : L ≤ lvl
      · rw [getD_append_left (by omega), ihT L hLle]
      · have hLeq : L = lvl + 1 := by omega
        subst hLeq
        have h2 := getD_append_at_length
          (initPrevsGo s key (s.heap.length + 1) lvl (predAt s key abs (lvl + 1)))
          (predAt s key abs (lvl + 1)) [] 0
        rw [ihL] at h2
        exact h2

theorem init_prevs_spec [Inhabited K] {s : SL K V} {abs : List Nat}
    (hrep : RepN s abs) (hc : LawfulCmp s.cmp) (key : K) :
    (init_prevs s key (headHeight s)).length = headHeight s ∧
    ∀ L, L < headHeight s →
      (init_prevs s key (headHeight s)).getD L 0 = predAt s key abs L := by
  have h1 := rep_headH hrep
  have hh : headHeight s - 1 + 1 = headHeight s := by omega
  have hstart : s.headAddr = predAt s key abs (headHeight s - 1 + 1) := by
    rw [hh]
    exact (predAt_top hrep key (le_refl _)).symm
  obtain ⟨hl, hg⟩ := initPrevsGo_spec hrep hc key (headHeight s - 1) (by omega)
  unfold init_prevs
  rw [if_neg (by omega), hstart]
  exact ⟨by rw [hl]; omega, fun L hL => hg L (by omega)⟩

theorem getFirstEqGo_spec [Inhabited K] {s : SL K V} {abs : List Nat}
    (hrep : RepN s abs) (hc : LawfulCmp s.cmp) (key : K) :
    ∀ (lvl : Nat), lvl < headHeight s →
      getFirstEqGo s key (s.heap.length + 1) lvl (predAt s key abs (lvl + 1)) =
        (if cmpRes s key ((geSuffix s key abs 0).headD 0) = 0
         then some ((geSuffix s key abs 0).headD 0) else none) := by
  intro lvl
  induction lvl with
  | zero =>
    intro hlt
    have h0 := pred_step hrep hc key hlt
    have hnx := nextAt_predAt hrep hc key hlt
    rw [getFirstEqGo, h0, hnx]
    rcases hg : geSuffix s key abs 0 with _ | ⟨d, D'⟩
    · simp [node?, cmpRes_sentinel]
    · have hdmem : d ∈ abs := by
        have hmem : d ∈ geSuffix s key abs 0 := by rw [hg]; simp
        have hsub : List.Sublist (geSuffix s key abs 0) (filterLevel s abs 0) :=
          List.dropWhile_sublist _
        exact (mem_filterLevel.mp (hsub.subset hmem)).1
      have hsome := (nodeOkB_props (rep_mem_ok hrep hdmem)).2.2
      rcases hn : node? s d with _ | n
      · rw [hn] at hsome; cases hsome
      · have hcr : cmpRes s key d = s.cmp n.k key := by
          unfold cmpRes; rw [hn]
        simp only [List.headD_cons, hn, hcr]
  | succ lvl ih =>
    intro hlt
    have hstep := pred_step hrep hc key hlt
    rw [getFirstEqGo, hstep]
    exact ih (by omega)

/-- `get_first_eq_node` returns the first level-0 node not below `key`
exactly when that node's key compares equal. -/
theorem get_first_eq_spec [Inhabited K] {s : SL K V} {abs : List Nat}
    (hrep : RepN s abs) (hc : LawfulCmp s.cmp) (key : K) :
    get_first_eq_node s key =
      (if cmpRes s key ((geSuffix s key abs 0).headD 0) = 0
       then some ((geSuffix s key abs 0).headD 0) else none) := by
  have h1 := rep_headH hrep
  have hh : headHeight s - 1 + 1 = headHeight s := by omega
  have hstart : s.headAddr = predAt s key abs (headHeight s - 1 + 1) := by
    rw [hh]
    exact (predAt_top hrep key (le_refl _)).symm
  unfold get_first_eq_node
  rw [if_neg (by omega), hstart]
  exact getFirstEqGo_spec hrep hc key (headHeight s - 1) (by omega)

theorem nextAt_ge_h {s : SL K V} {a L : Nat} (hok : nodeOkB s a = true)
    (hL : hOf s a ≤ L) : nextAt s a L = 0 := by
  rw [nodeOkB_eq_node?] at hok
  rcases hn : node? s a with _ | n
  · unfold nextAt; rw [hn]
  · rw [hn] at hok
    simp at hok
    obtain ⟨-, hlen⟩ := hok
    unfold nextAt
    rw [hn]
    have hh : hOf s a = n.h := by unfold hOf; rw [hn]
    have hle : n.next.length ≤ L := by omega
    simp [List.getD, List.getElem?_eq_none hle]

/-- Below the head height, the pointer-walked level chain is exactly the
height-filtered abstract list. -/
theorem levelChain_eq [Inhabited K] {s : SL K V} {abs : List Nat}
    (hrep : RepN s abs) {L : Nat} (hL : L < headHeight s) :
    levelChain s L = filterLevel s abs L := by
  unfold levelChain
  have hchain := rep_chains hrep L hL
  rcases hfl : filterLevel s abs L with _ | ⟨x, xs⟩
  · rw [hfl] at hchain
    have h0 : nextAt s s.headAddr L = 0 := by simpa [linkedB] using hchain
    rw [h0, chainFrom_zero]
  · rw [hfl] at hchain
    have h1 : nextAt s s.headAddr L = x ∧ linkedB s L (x :: xs) = true := by
      simpa [linkedB] using hchain
    rw [h1.1]
    have hxmem : x ∈ abs := by
      have : x ∈ filterLevel s abs L := by rw [hfl]; simp
      exact (mem_filterLevel.mp this).1
    have hlen : (filterLevel s abs L).length ≤ s.heap.length :=
      le_trans (filterLevel_length_le s abs L) (rep_abs_len hrep)
    apply chainFrom_of_linked s L xs x (s.heap.length + 1) h1.2
      (nodeOkB_props (rep_mem_ok hrep hxmem)).1
    · intro y hy
      have : y ∈ filterLevel s abs L := by rw [hfl]; simp [hy]
      exact (nodeOkB_props (rep_mem_ok hrep (mem_filterLevel.mp this).1)).1
    · rw [hfl] at hlen
      simp only [List.length_cons] at hlen
      omega

/-- At or above the head height the level chain is empty. -/
theorem levelChain_top [Inhabited K] {s : SL K V} {abs : List Nat}
    (hrep : RepN s abs) {L : Nat} (hL : headHeight s ≤ L) :
    levelChain s L = [] := by
  unfold levelChain
  rw [nextAt_ge_h (rep_head_ok hrep) hL, chainFrom_zero]

/-! ## Transport of the level decomposition -/

theorem filterLevel_zero [Inhabited K] {s : SL K V} {abs : List Nat}
    (hrep : RepN s abs) : filterLevel s abs 0 = abs := by
  unfold filterLevel
  rw [List.filter_eq_self]
  intro a ha
  have := (rep_heights hrep a ha).1
  simp only [decide_eq_true_eq]
  omega

theorem filterLevel_of_zero [Inhabited K] {s : SL K V} {abs : List Nat}
    (hrep : RepN s abs) (L : Nat) :
    filterLevel s abs L = (filterLevel s abs 0).filter
      (fun a => decide (L < hOf s a)) := by
  rw [filterLevel_zero hrep]
  unfold filterLevel
  rfl

theorem ltFilter_of_zero [Inhabited K] {s : SL K V} {abs : List Nat}
    (hrep : RepN s abs) (key : K) (L : Nat) :
    ltFilter s key abs L = (ltFilter s key abs 0).filter
      (fun a => decide (L < hOf s a)) := by
  unfold ltFilter
  rw [filterLevel_of_zero hrep L, List.filter_filter, List.filter_filter]
  apply List.filter_congr
  intro a _
  rw [Bool.and_comm]

theorem geSuffix_of_zero [Inhabited K] {s : SL K V} {abs : List Nat}
    (hrep : RepN s abs) (hc : LawfulCmp s.cmp) (key : K) (L : Nat) :
    geSuffix s key abs L = (geSuffix s key abs 0).filter
      (fun a => decide (L < hOf s a)) := by
  have h0 := (fl_split hrep hc key 0).1
  have hL := (fl_split hrep hc key L).1
  have hLform : filterLevel s abs L =
      (ltFilter s key abs 0).filter (fun a => decide (L < hOf s a)) ++
      (geSuffix s key abs 0).filter (fun a => decide (L < hOf s a)) := by
    rw [filterLevel_of_zero hrep L, h0, List.filter_append]
  rw [hL, ltFilter_of_zero hrep key L] at hLform
  exact List.append_cancel_left hLform

theorem predAt_cases [Inhabited K] (s : SL K V) (key : K) (abs : List Nat)
    (L : Nat) : predAt s key abs L = s.headAddr ∨
      predAt s key abs L ∈ ltFilter s key abs L := by
  unfold predAt
  rcases h : ltFilter s key abs L with _ | ⟨x, xs⟩
  · exact Or.inl rfl
  · exact Or.inr (by
      rw [← h]
      exact lastD_mem_of_ne_nil s.headAddr _ (by rw [h]; simp))

theorem mem_ltFilter_mem_abs {s : SL K V} {key : K} {abs : List Nat} {L a : Nat}
    (h : a ∈ ltFilter s key abs L) : a ∈ abs := by
  unfold ltFilter at h
  exact (mem_filterLevel.mp (List.mem_filter.mp h).1).1

theorem mem_geSuffix_mem_abs {s : SL K V} {key : K} {abs : List Nat} {L a : Nat}
    (h : a ∈ geSuffix s key abs L) : a ∈ abs := by
  unfold geSuffix at h
  exact (mem_filterLevel.mp ((List.dropWhile_sublist _).subset h)).1

theorem predAt_mem_cons [Inhabited K] {s : SL K V} {abs : List Nat} (key : K)
    (L : Nat) : predAt s key abs L ∈ s.headAddr :: abs := by
  rcases predAt_cases s key abs L with h | h
  · rw [h]; simp
  · exact List.mem_cons_of_mem _ (mem_ltFilter_mem_abs h)

theorem predAt_ok [Inhabited K] {s : SL K V} {abs : List Nat}
    (hrep : RepN s abs) (key : K) (L : Nat) :
    nodeOkB s (predAt s key abs L) = true :=
  hrep.2.1 _ (predAt_mem_cons key L)

theorem predAt_hOf [Inhabited K] {s : SL K V} {abs : List Nat}
    (hrep : RepN s abs) (key : K) {L : Nat} (hL : L < headHeight s) :
    L < hOf s (predAt s key abs L) := by
  rcases predAt_cases s key abs L with h | h
  · rw [h]; exact hL
  · have : predAt s key abs L ∈ filterLevel s abs L := by
      unfold ltFilter at h
      exact (List.mem_filter.mp h).1
    exact (mem_filterLevel.mp this).2

theorem predAt_le_len [Inhabited K] {s : SL K V} {abs : List Nat}
    (hrep : RepN s abs) (key : K) (L : Nat) :
    predAt s key abs L ≤ s.heap.length :=
  (nodeOkB_props (predAt_ok hrep key L)).2.1

/-- `linksB` never reads the forward pointer of the final element. -/
theorem linksB_congr_dropLast (s' s : SL K V) (lvl : Nat) :
    ∀ (l : List Nat), (∀ a ∈ l.dropLast, nextAt s' a lvl = nextAt s a lvl) →
      linksB s' lvl l = linksB s lvl l
  | [], _ => rfl
  | [_], _ => rfl
  | x :: y :: rest, h => by
    have ih := linksB_congr_dropLast s' s lvl (y :: rest)
      (fun a ha => h a (by simp at ha ⊢; tauto))
    have hx : nextAt s' x lvl = nextAt s x lvl := h x (by simp)
    simp only [linksB, ih, hx]

/-! ## Invariant preservation for simple updates -/

theorem repN_setVal [Inhabited K] {s : SL K V} {abs : List Nat}
    (hrep : RepN s abs) (b : Nat) (w : V) : RepN (setVal s b w) abs := by
  obtain ⟨h1, h2, h3, h4, h5, h6⟩ := hrep
  have hhd := headAddr_setVal s b w
  have hHH : headHeight (setVal s b w) = headHeight s := by
    unfold headHeight
    rw [hhd, hOf_setVal]
  have hfl : ∀ L, filterLevel (setVal s b w) abs L = filterLevel s abs L := by
    intro L
    unfold filterLevel
    apply List.filter_congr
    intro a _
    rw [hOf_setVal]
  refine ⟨by rw [hhd]; exact h1, ?_, by rw [hHH]; exact h3, ?_, ?_, ?_⟩
  · intro a ha
    rw [hhd] at ha
    rw [nodeOkB_setVal]
    exact h2 a ha
  · intro a ha
    rw [hOf_setVal, hHH]
    exact h4 a ha
  · intro L hL
    rw [hHH] at hL
    rw [hhd, hfl L]
    rw [linkedB_congr (setVal s b w) s L _
      (fun a _ => nextAt_setVal s b w a L)]
    exact h5 L hL
  · have hk : ∀ a, kOf (setVal s b w) a = kOf s a := kOf_setVal s b w
    have hcmp : (setVal s b w).cmp = s.cmp := cmp_setVal s b w
    refine h6.imp ?_
    intro a c h
    rw [hcmp, hk, hk]
    exact h

theorem repN_allocNode [Inhabited K] {s : SL K V} {abs : List Nat}
    (hrep : RepN s abs) (h : Nat) (k : K) (v : V) :
    RepN (allocNode s h k v).1 abs := by
  obtain ⟨h1, h2, h3, h4, h5, h6⟩ := hrep
  have hle : ∀ a ∈ s.headAddr :: abs, a ≤ s.heap.length :=
    fun a ha => (nodeOkB_props (h2 a ha)).2.1
  have hhd := headAddr_allocNode s h k v
  have hHH : headHeight (allocNode s h k v).1 = headHeight s := by
    unfold headHeight
    rw [hhd, hOf_allocNode_old s h k v (hle s.headAddr (by simp))]
  have hfl : ∀ L, filterLevel (allocNode s h k v).1 abs L =
      filterLevel s abs L := by
    intro L
    unfold filterLevel
    apply List.filter_congr
    intro a ha
    rw [hOf_allocNode_old s h k v (hle a (by simp [ha]))]
  refine ⟨by rw [hhd]; exact h1, ?_, by rw [hHH]; exact h3, ?_, ?_, ?_⟩
  · intro a ha
    rw [hhd] at ha
    rw [nodeOkB_allocNode_old s h k v (hle a ha)]
    exact h2 a ha
  · intro a ha
    rw [hOf_allocNode_old s h k v (hle a (by simp [ha])), hHH]
    exact h4 a ha
  · intro L hL
    rw [hHH] at hL
    rw [hhd, hfl L]
    rw [linkedB_congr (allocNode s h k v).1 s L _ ?_]
    · exact h5 L hL
    · intro a ha
      rcases List.mem_cons.mp ha with ha | ha
      · subst ha
        exact nextAt_allocNode_old s h k v (hle s.headAddr (by simp)) L
      · have : a ∈ abs := (mem_filterLevel.mp ha).1
        exact nextAt_allocNode_old s h k v (hle a (by simp [this])) L
  · refine List.Pairwise.imp_of_mem ?_ h6
    intro a c ha hc hac
    have hcmp : (allocNode s h k v).1.cmp = s.cmp := rfl
    rw [hcmp, kOf_allocNode_old s h k v (hle a (by simp [ha])),
      kOf_allocNode_old s h k v (hle c (by simp [hc]))]
    exact hac

/-! ## The upsert replace path -/

theorem geSuffix_sublist_abs [Inhabited K] {s : SL K V} {abs : List Nat}
    (hrep : RepN s abs) (key : K) :
    List.Sublist (geSuffix s key abs 0) abs := by
  unfold geSuffix
  rw [filterLevel_zero hrep]
  exact List.dropWhile_sublist _

/-- When some live key compares equal, the first not-below node compares
equal (it is the first match). -/
theorem geSuffix_head_eq_of_exists [Inhabited K] {s : SL K V} {abs : List Nat}
    (hrep : RepN s abs) (hc : LawfulCmp s.cmp) {key : K}
    (hex : ∃ a ∈ abs, s.cmp (kOf s a) key = 0) :
    cmpRes s key ((geSuffix s key abs 0).headD 0) = 0 := by
  obtain ⟨a, ha, heq⟩ := hex
  obtain ⟨hsplit, hge⟩ := fl_split hrep hc key 0
  rw [filterLevel_zero hrep] at hsplit
  have hsome_a := (nodeOkB_props (rep_mem_ok hrep ha)).2.2
  have hnotlt : a ∉ ltFilter s key abs 0 := by
    intro hmem
    have h2 := (List.mem_filter.mp hmem).2
    rw [cmpRes_eq_of_isSome hsome_a key] at h2
    simp only [decide_eq_true_eq] at h2
    omega
  have hmem_ge : a ∈ geSuffix s key abs 0 := by
    have : a ∈ ltFilter s key abs 0 ++ geSuffix s key abs 0 := hsplit ▸ ha
    rcases List.mem_append.mp this with h | h
    · exact absurd h hnotlt
    · exact h
  rcases hgs : geSuffix s key abs 0 with _ | ⟨d, D⟩
  · rw [hgs] at hmem_ge; simp at hmem_ge
  · have hdmem : d ∈ abs := mem_geSuffix_mem_abs (by rw [hgs]; simp)
    have hsome_d := (nodeOkB_props (rep_mem_ok hrep hdmem)).2.2
    have hdge : ¬ (cmpRes s key d < 0) := by
      have := hge d (by rw [hgs]; simp)
      exact this
    rw [hgs] at hmem_ge
    have hdle : s.cmp (kOf s d) key ≤ 0 := by
      rcases List.mem_cons.mp hmem_ge with h | h
      · rw [h] at heq
        omega
      · have hpair : (d :: D).Pairwise
            (fun x y => s.cmp (kOf s x) (kOf s y) ≤ 0) :=
          (rep_sorted hrep).sublist (hgs ▸ geSuffix_sublist_abs hrep key)
        have hda := (List.pairwise_cons.mp hpair).1 a h
        have : s.cmp (kOf s a) key ≤ 0 := by omega
        exact hc.le_trans _ _ _ hda this
    rw [cmpRes_eq_of_isSome hsome_d key] at hdge
    simp only [List.headD_cons]
    rw [cmpRes_eq_of_isSome hsome_d key]
    omega

theorem geSuffix_nil_iff [Inhabited K] {s : SL K V} {abs : List Nat}
    (hrep : RepN s abs) (hc : LawfulCmp s.cmp) (key : K) :
    geSuffix s key abs 0 = [] ↔ ∀ a ∈ abs, cmpRes s key a < 0 := by
  obtain ⟨hsplit, hge⟩ := fl_split hrep hc key 0
  rw [filterLevel_zero hrep] at hsplit
  constructor
  · intro hnil a ha
    have hmem : a ∈ ltFilter s key abs 0 := by
      rw [hsplit, hnil, List.append_nil] at ha
      exact ha
    have := (List.mem_filter.mp hmem).2
    simpa using this
  · intro hall
    rcases hgs : geSuffix s key abs 0 with _ | ⟨d, D⟩
    · rfl
    · exfalso
      have hdmem : d ∈ abs := mem_geSuffix_mem_abs (by rw [hgs]; simp)
      exact hge d (by rw [hgs]; simp) (hall d hdmem)

theorem succ0_eval [Inhabited K] {s : SL K V} {abs : List Nat}
    (hrep : RepN s abs) (hc : LawfulCmp s.cmp) (key : K) :
    nextAt s ((init_prevs s key (headHeight s)).getD 0 0) 0 =
      (geSuffix s key abs 0).headD 0 := by
  have hH : 0 < headHeight s := rep_headH hrep
  obtain ⟨-, hget⟩ := init_prevs_spec hrep hc key
  rw [hget 0 hH]
  exact nextAt_predAt hrep hc key hH

/-- The replace branch of upsert: a matching key is found, its value is
swapped in place, nothing is allocated. -/
theorem set_replace_spec [Inhabited K] [Inhabited V] {s : SL K V}
    {abs : List Nat} (hrep : RepN s abs) (hc : LawfulCmp s.cmp) {key : K}
    (value : V) (old : Option (Option V)) (newHeight : Nat) (ao : List Bool)
    (hex : ∃ a ∈ abs, s.cmp (kOf s a) key = 0) :
    skiplist_set s key value old newHeight ao =
      { ok := true,
        sl := setVal s ((geSuffix s key abs 0).headD 0) value,
        old := old.map
          (fun _ => some (vOf s ((geSuffix s key abs 0).headD 0))) } := by
  have heq0 := geSuffix_head_eq_of_exists hrep hc hex
  have hsucc0 := succ0_eval hrep hc key
  rcases hn : node? s ((geSuffix s key abs 0).headD 0) with _ | n
  · exfalso
    unfold cmpRes at heq0
    rw [hn] at heq0
    simp at heq0
  · have hcmp : s.cmp n.k key = 0 := by
      unfold cmpRes at heq0
      rw [hn] at heq0
      simpa using heq0
    have hv : n.v = vOf s ((geSuffix s key abs 0).headD 0) := by
      unfold vOf
      rw [hn]
    simp only [skiplist_set, add_or_set, hsucc0, if_pos rfl, tryReplace, hn,
      if_pos hcmp]
    rw [hv]
    simp

/-- The `old` cell on an upsert that finds no match: left untouched when the
level-0 successor is the sentinel, written NULL when it is a real
non-matching node. -/
theorem set_insert_old_spec [Inhabited K] [Inhabited V] {s : SL K V}
    {abs : List Nat} (hrep : RepN s abs) (hc : LawfulCmp s.cmp) (key : K)
    (value : V) (old : Option (Option V)) (newHeight : Nat) (ao : List Bool)
    (hne : ∀ a ∈ abs, s.cmp (kOf s a) key ≠ 0) :
    (geSuffix s key abs 0 = [] →
      (skiplist_set s key value old newHeight ao).old = old) ∧
    (geSuffix s key abs 0 ≠ [] →
      (skiplist_set s key value old newHeight ao).old =
        old.map (fun _ => none)) := by
  have hsucc0 := succ0_eval hrep hc key
  simp only [List.getD, List.get?_eq_getElem?] at hsucc0
  constructor
  · intro hnil
    cases h0 : ao.getD 0 true <;>
      by_cases hg : newHeight > headHeight s <;>
        cases h1 : ao.getD 1 true <;>
          simp only [List.getD, List.get?_eq_getElem?] at h0 h1 <;>
          simp [skiplist_set, add_or_set, hsucc0, tryReplace, node?, hnil,
            h0, hg, h1]
  · intro hne'
    rcases hgs : geSuffix s key abs 0 with _ | ⟨d, D⟩
    · exact absurd hgs hne'
    · have hdmem : d ∈ abs := mem_geSuffix_mem_abs (by rw [hgs]; simp)
      have hsome_d := (nodeOkB_props (rep_mem_ok hrep hdmem)).2.2
      rcases hn : node? s d with _ | n
      · rw [hn] at hsome_d
        cases hsome_d
      · have hkd : kOf s d = n.k := by
          unfold kOf
          rw [hn]
        have hcm : ¬ (s.cmp n.k key = 0) := by
          rw [← hkd]
          exact hne d hdmem
        cases h0 : ao.getD 0 true <;>
          by_cases hg : newHeight > headHeight s <;>
            cases h1 : ao.getD 1 true <;>
              simp only [List.getD, List.get?_eq_getElem?] at h0 h1 <;>
              simp [skiplist_set, add_or_set, hsucc0, hgs, tryReplace, hn, hcm,
                h0, hg, h1]

/-! ## Auxiliary facts for the insertion proof -/

theorem mem_dropLast_ne_lastD {x : Nat} :
    ∀ {A : List Nat}, (x :: A).Nodup → ∀ {a : Nat},
      a ∈ (x :: A).dropLast → a ≠ lastD x A
  | [], _, a, ha => by simp at ha
  | y :: A', hnd, a, ha => by
    have htail : (y :: A').Nodup := (List.nodup_cons.mp hnd).2
    have hxn : x ∉ y :: A' := (List.nodup_cons.mp hnd).1
    rw [lastD_cons]
    have hform : (x :: y :: A').dropLast = x :: (y :: A').dropLast := by
      simp [List.dropLast]
    rw [hform] at ha
    rcases List.mem_cons.mp ha with ha | ha
    · rw [ha]
      intro hcon
      have hmem : lastD y A' ∈ y :: A' := by
        have h2 := lastD_mem_of_ne_nil x (y :: A') (by simp)
        rwa [lastD_cons] at h2
      rw [hcon] at hxn
      exact hxn hmem
    · exact mem_dropLast_ne_lastD htail ha

theorem mem_dropLast_cons {a x : Nat} :
    ∀ {A : List Nat}, a ∈ A.dropLast → a ∈ (x :: A).dropLast
  | [], h => by simp at h
  | z :: zs, h => by
    have heq : (x :: z :: zs).dropLast = x :: (z :: zs).dropLast := rfl
    rw [heq]
    exact List.mem_cons_of_mem x h

theorem linksB_prefix (s : SL K V) (lvl : Nat) (xs ys : List Nat)
    (h : linksB s lvl (xs ++ ys) = true) : linksB s lvl xs = true := by
  rcases xs with _ | ⟨x, xs'⟩
  · rfl
  · rcases ys with _ | ⟨y, ys'⟩
    · simpa using h
    · exact ((linksB_append s lvl (x :: xs') (by simp) (y :: ys') (by simp)).mp
        h).1

/-- Relink a chain after replacing its first element: consecutive links are
preserved when every non-final node keeps its forward pointer and the new
first element takes over the old one's. -/
theorem linksB_translated (s' s : SL K V) (lvl : Nat) :
    ∀ (A : List Nat) (hd hd0 : Nat), linksB s lvl (hd0 :: A) = true →
      (A ≠ [] → nextAt s' hd lvl = nextAt s hd0 lvl) →
      (∀ u ∈ A.dropLast, nextAt s' u lvl = nextAt s u lvl) →
      linksB s' lvl (hd :: A) = true
  | [], hd, hd0, _, _, _ => rfl
  | a0 :: A', hd, hd0, hlk, hfirst, hrest => by
    have h1 : nextAt s hd0 lvl = a0 ∧ linksB s lvl (a0 :: A') = true := by
      simpa [linksB] using hlk
    have hfst : nextAt s' hd lvl = a0 := by
      rw [hfirst (by simp), h1.1]
    have hrec : linksB s' lvl (a0 :: A') = true := by
      apply linksB_translated s' s lvl A' a0 a0 h1.2
      · intro hA'
        apply hrest
        rcases A' with _ | ⟨b, B⟩
        · exact absurd rfl hA'
        · simp [List.dropLast]
      · intro u hu
        apply hrest
        rcases A' with _ | ⟨b, B⟩
        · simp at hu
        · simp [List.dropLast] at hu ⊢
          tauto
    simp [linksB, hfst, hrec]

/-- The rebuilt level-`L` chain after splicing `nn` behind the per-level
predecessor, possibly with a replacement head node `hd`. -/
theorem insert_level_chain [Inhabited K] {s s' : SL K V} {abs : List Nat}
    (hrep : RepN s abs) (hc : LawfulCmp s.cmp) (key : K)
    {hd nn : Nat} {L : Nat} (hL : L < headHeight s)
    (hhd_notin : hd ∉ abs) (hnn_notin : nn ∉ abs)
    (H1 : ∀ a ∈ filterLevel s abs L, a ≠ predAt s key abs L →
        nextAt s' a L = nextAt s a L)
    (H2 : predAt s key abs L ≠ s.headAddr →
        nextAt s' hd L = nextAt s s.headAddr L)
    (H3 : nextAt s' (if predAt s key abs L = s.headAddr then hd
        else predAt s key abs L) L = nn)
    (H4 : nextAt s' nn L = (geSuffix s key abs L).headD 0) :
    linkedB s' L
      (hd :: (ltFilter s key abs L ++ nn :: geSuffix s key abs L)) = true := by
  obtain ⟨hsplit, -⟩ := fl_split hrep hc key L
  have hchain : linkedB s L
      (s.headAddr :: (ltFilter s key abs L ++ geSuffix s key abs L)) = true := by
    rw [← hsplit]
    exact rep_chains hrep L hL
  have hOnodup : (s.headAddr :: (ltFilter s key abs L ++ geSuffix s key abs L)).Nodup := by
    rw [← hsplit]
    refine List.Nodup.sublist ?_ (rep_nodup hrep)
    exact (List.filter_sublist abs).cons₂ s.headAddr
  have hAmem : ∀ a ∈ ltFilter s key abs L, a ∈ abs :=
    fun a ha => mem_ltFilter_mem_abs ha
  have hBmem : ∀ a ∈ geSuffix s key abs L, a ∈ abs :=
    fun a ha => mem_geSuffix_mem_abs ha
  have hpredA : ltFilter s key abs L ≠ [] →
      predAt s key abs L ≠ s.headAddr := by
    intro hne hcon
    have hmem : predAt s key abs L ∈ ltFilter s key abs L := by
      unfold predAt
      exact lastD_mem_of_ne_nil s.headAddr _ hne
    rw [hcon] at hmem
    exact rep_head_not_mem hrep (hAmem _ hmem)
  have hAnodup : (s.headAddr :: ltFilter s key abs L).Nodup := by
    refine List.Nodup.sublist ?_ hOnodup
    exact (List.sublist_append_left _ _).cons₂ s.headAddr
  -- Step 1: the prefix chain with the (possibly new) head
  have hlk_prefix : linksB s' L (hd :: ltFilter s key abs L) = true := by
    apply linksB_translated s' s L (ltFilter s key abs L) hd s.headAddr
    · apply linksB_prefix s L (s.headAddr :: ltFilter s key abs L)
        (geSuffix s key abs L)
      have : (s.headAddr :: ltFilter s key abs L) ++ geSuffix s key abs L =
          s.headAddr :: (ltFilter s key abs L ++ geSuffix s key abs L) := by
        simp
      rw [this]
      exact linksB_of_linkedB s L _ hchain
    · intro hne
      exact H2 (hpredA hne)
    · intro u hu
      have huA : u ∈ ltFilter s key abs L := (List.dropLast_sublist _).subset hu
      refine H1 u (by rw [hsplit]; simp [huA]) ?_
      exact mem_dropLast_ne_lastD hAnodup (mem_dropLast_cons hu)
  -- Step 2: the tail chain from nn
  have hdisj : ∀ b ∈ geSuffix s key abs L,
      b ∉ s.headAddr :: ltFilter s key abs L := by
    have hdj : (s.headAddr :: ltFilter s key abs L).Disjoint
        (geSuffix s key abs L) :=
      List.disjoint_of_nodup_append (by simpa using hOnodup)
    intro b hb hbmem
    exact hdj hbmem hb
  have htail : linkedB s' L (nn :: geSuffix s key abs L) = true := by
    apply linkedB_glue s' L nn [] (geSuffix s key abs L) rfl
    · simpa [lastD] using H4
    · rcases hgs : geSuffix s key abs L with _ | ⟨b, B⟩
      · exact Or.inl rfl
      · refine Or.inr ?_
        have hold : linkedB s L (geSuffix s key abs L) = true := by
          apply linkedB_suffix s L (s.headAddr :: ltFilter s key abs L)
            (geSuffix s key abs L) (by rw [hgs]; simp)
          have : (s.headAddr :: ltFilter s key abs L) ++ geSuffix s key abs L =
              s.headAddr :: (ltFilter s key abs L ++ geSuffix s key abs L) := by
            simp
          rw [this]
          exact hchain
        rw [← hgs]
        rw [linkedB_congr s' s L _ ?_]
        · exact hold
        · intro a ha
          refine H1 a (by rw [hsplit]; simp [ha]) ?_
          intro hcon
          rcases predAt_cases s key abs L with h | h
          · exact hdisj a ha (by rw [hcon, h]; simp)
          · exact hdisj a ha (by rw [hcon]; simp [h])
  -- Step 3: glue everything
  have hbridge : nextAt s' (lastD hd (ltFilter s key abs L)) L =
      (nn :: geSuffix s key abs L).headD 0 := by
    simp only [List.headD_cons]
    rcases hl : ltFilter s key abs L with _ | ⟨z, zs⟩
    · have hpe : predAt s key abs L = s.headAddr := by
        unfold predAt
        rw [hl]
        rfl
      rw [hpe] at H3
      simpa [lastD, if_pos rfl] using H3
    · have hlast : lastD hd (z :: zs) = predAt s key abs L := by
        unfold predAt
        rw [hl]
        rfl
      rw [hlast]
      have hpne : predAt s key abs L ≠ s.headAddr :=
        hpredA (by rw [hl]; simp)
      rwa [if_neg hpne] at H3
  exact linkedB_glue s' L hd (ltFilter s key abs L)
    (nn :: geSuffix s key abs L) hlk_prefix hbridge (Or.inr htail)

theorem abs_decomp [Inhabited K] {s : SL K V} {abs : List Nat}
    (hrep : RepN s abs) (hc : LawfulCmp s.cmp) (key : K) :
    abs = ltFilter s key abs 0 ++ geSuffix s key abs 0 := by
  have := (fl_split hrep hc key 0).1
  rwa [filterLevel_zero hrep] at this

theorem nodup_insert_mid [Inhabited K] {s : SL K V} {abs : List Nat}
    (hrep : RepN s abs) (hc : LawfulCmp s.cmp) (key : K) {hd nn : Nat}
    (hhd : hd = s.headAddr ∨ s.heap.length < hd)
    (hnn : s.heap.length < nn) (hhdnn : hd ≠ nn) :
    (hd :: (ltFilter s key abs 0 ++ nn :: geSuffix s key abs 0)).Nodup := by
  have habs := abs_decomp hrep hc key
  have hperm : ltFilter s key abs 0 ++ nn :: geSuffix s key abs 0 =
      ltFilter s key abs 0 ++ nn :: geSuffix s key abs 0 := rfl
  have hmid : List.Perm
      (ltFilter s key abs 0 ++ nn :: geSuffix s key abs 0)
      (nn :: (ltFilter s key abs 0 ++ geSuffix s key abs 0)) :=
    List.perm_middle
  have hperm2 : List.Perm
      (hd :: (ltFilter s key abs 0 ++ nn :: geSuffix s key abs 0))
      (hd :: nn :: abs) := by
    refine List.Perm.cons hd ?_
    have h2 := hmid
    rw [← habs] at h2
    exact h2
  rw [hperm2.nodup_iff]
  have hmem_le : ∀ a ∈ abs, a ≤ s.heap.length :=
    fun a ha => (nodeOkB_props (rep_mem_ok hrep ha)).2.1
  refine List.nodup_cons.mpr ⟨?_, List.nodup_cons.mpr ⟨?_, rep_abs_nodup hrep⟩⟩
  · intro hmem
    rcases List.mem_cons.mp hmem with hm | hm
    · exact hhdnn hm
    · rcases hhd with hh | hh
      · rw [hh] at hm
        exact rep_head_not_mem hrep hm
      · have := hmem_le hd hm
        omega
  · intro hmem
    have := hmem_le nn hmem
    omega

/-- The state after the non-growing insert path: allocate `nn` and splice it
in at every one of its levels. -/
theorem insert_state_nogrow [Inhabited K] [Inhabited V] {s : SL K V}
    {abs : List Nat} (hrep : RepN s abs) (hc : LawfulCmp s.cmp) (key : K)
    (value : V) {h : Nat} (h1 : 1 ≤ h) (hle : h ≤ headHeight s) :
    RepN (splice (allocNode s h key value).1 (s.heap.length + 1)
        (init_prevs s key (headHeight s)) (min h (headHeight s)))
      (ltFilter s key abs 0 ++ (s.heap.length + 1) :: geSuffix s key abs 0) ∧
    (splice (allocNode s h key value).1 (s.heap.length + 1)
        (init_prevs s key (headHeight s)) (min h (headHeight s))).count =
      s.count ∧
    (splice (allocNode s h key value).1 (s.heap.length + 1)
        (init_prevs s key (headHeight s)) (min h (headHeight s))).headAddr =
      s.headAddr ∧
    (splice (allocNode s h key value).1 (s.heap.length + 1)
        (init_prevs s key (headHeight s)) (min h (headHeight s))).heap.length =
      s.heap.length + 1 ∧
    kOf (splice (allocNode s h key value).1 (s.heap.length + 1)
        (init_prevs s key (headHeight s)) (min h (headHeight s)))
      (s.heap.length + 1) = key ∧
    vOf (splice (allocNode s h key value).1 (s.heap.length + 1)
        (init_prevs s key (headHeight s)) (min h (headHeight s)))
      (s.heap.length + 1) = value ∧
    hOf (splice (allocNode s h key value).1 (s.heap.length + 1)
        (init_prevs s key (headHeight s)) (min h (headHeight s)))
      (s.heap.length + 1) = h ∧
    (∀ a, a ≤ s.heap.length →
      kOf (splice (allocNode s h key value).1 (s.heap.length + 1)
        (init_prevs s key (headHeight s)) (min h (headHeight s))) a = kOf s a ∧
      vOf (splice (allocNode s h key value).1 (s.heap.length + 1)
        (init_prevs s key (headHeight s)) (min h (headHeight s))) a = vOf s a) ∧
    headHeight (splice (allocNode s h key value).1 (s.heap.length + 1)
        (init_prevs s key (headHeight s)) (min h (headHeight s))) =
      headHeight s := by
  have hH := rep_headH hrep
  set len := s.heap.length with hlen
  set nn := len + 1 with hnn
  set s1 := (allocNode s h key value).1 with hs1
  set prevs := init_prevs s key (headHeight s) with hprevs
  set minH := min h (headHeight s) with hminH
  obtain ⟨hplen, hpget⟩ := init_prevs_spec hrep hc key
  have hrep1 : RepN s1 abs := repN_allocNode hrep h key value
  have hmem_le : ∀ a ∈ s.headAddr :: abs, a ≤ len :=
    fun a ha => (nodeOkB_props (hrep.2.1 a ha)).2.1
  have hminH_cur : minH ≤ headHeight s := min_le_right _ _
  have hminH_h : minH = h := by omega
  -- splice preconditions in s1
  have hok_nn : nodeOkB s1 nn = true := nodeOkB_allocNode_new s h key value
  have hh_nn : hOf s1 nn = h := hOf_allocNode_new s h key value
  have hp : ∀ i, i < minH → nodeOkB s1 (prevs.getD i 0) = true ∧
      i < hOf s1 (prevs.getD i 0) ∧ prevs.getD i 0 ≠ nn := by
    intro i hi
    have hicur : i < headHeight s := by omega
    have hgi : prevs.getD i 0 = predAt s key abs i := hpget i hicur
    have hple : predAt s key abs i ≤ len := predAt_le_len hrep key i
    refine ⟨?_, ?_, ?_⟩
    · rw [hgi, nodeOkB_allocNode_old s h key value hple]
      exact predAt_ok hrep key i
    · rw [hgi, hOf_allocNode_old s h key value hple]
      exact predAt_hOf hrep key hicur
    · rw [hgi]
      omega
  obtain ⟨hsh, hT⟩ := splice_nextAt s1 nn prevs minH hok_nn (by omega) hp
  set s' := splice s1 nn prevs minH with hs'
  -- basic fields
  have hcount : s'.count = s.count := by
    rw [hsh.1, count_allocNode]
  have hhead : s'.headAddr = s.headAddr := by
    rw [hsh.2.1, headAddr_allocNode]
  have hheaplen : s'.heap.length = len + 1 := by
    rw [hsh.2.2.2.1, heapLength_allocNode]
  have hcmp' : s'.cmp = s.cmp := by
    rw [hsh.2.2.1, cmp_allocNode]
  have hk_nn : kOf s' nn = key := by
    rw [(hsh.2.2.2.2 nn).2.2.1, kOf_allocNode_new]
  have hv_nn : vOf s' nn = value := by
    rw [(hsh.2.2.2.2 nn).2.2.2.1, vOf_allocNode_new]
  have hh_nn' : hOf s' nn = h := by
    rw [(hsh.2.2.2.2 nn).2.1, hOf_allocNode_new]
  have hold : ∀ a, a ≤ len → kOf s' a = kOf s a ∧ vOf s' a = vOf s a ∧
      hOf s' a = hOf s a ∧ nodeOkB s' a = nodeOkB s a ∧
      (node? s' a).isSome = (node? s a).isSome := by
    intro a ha
    refine ⟨?_, ?_, ?_, ?_, ?_⟩
    · rw [(hsh.2.2.2.2 a).2.2.1, kOf_allocNode_old s h key value ha]
    · rw [(hsh.2.2.2.2 a).2.2.2.1, vOf_allocNode_old s h key value ha]
    · rw [(hsh.2.2.2.2 a).2.1, hOf_allocNode_old s h key value ha]
    · rw [(hsh.2.2.2.2 a).2.2.2.2, nodeOkB_allocNode_old s h key value ha]
    · rw [(hsh.2.2.2.2 a).1, hs1]
      unfold node? allocNode
      by_cases h0 : a = 0
      · simp [h0]
      · have : a - 1 < s.heap.length := by omega
        simp only [h0, if_false]
        rw [List.getElem?_append, if_pos this]
  have hHH : headHeight s' = headHeight s := by
    unfold headHeight
    rw [hhead, (hold s.headAddr (hmem_le s.headAddr (by simp))).2.2.1]
  -- the forward-pointer table in terms of the original state
  have hT' : ∀ a j, a ≤ len →
      nextAt s' a j = if j < minH ∧ a = predAt s key abs j then nn
        else nextAt s a j := by
    intro a j ha
    rw [hT a j]
    have hne_nn : a ≠ nn := by omega
    by_cases hj : j < minH
    · have hgj : prevs.getD j 0 = predAt s key abs j := hpget j (by omega)
      rw [hgj]
      have c1 : ¬ (j < minH ∧ a = nn) := by
        rintro ⟨-, hcc⟩; exact hne_nn hcc
      rw [if_neg c1]
      by_cases hap : a = predAt s key abs j
      · rw [if_pos ⟨hj, hap⟩, if_pos ⟨hj, hap⟩]
      · rw [if_neg (fun hcc => hap hcc.2), if_neg (fun hcc => hap hcc.2)]
        rw [nextAt_allocNode_old s h key value ha]
    · have c1 : ¬ (j < minH ∧ a = nn) := by rintro ⟨hcc, -⟩; omega
      have c2 : ¬ (j < minH ∧ a = prevs.getD j 0) := by rintro ⟨hcc, -⟩; omega
      have c3 : ¬ (j < minH ∧ a = predAt s key abs j) := by
        rintro ⟨hcc, -⟩; omega
      rw [if_neg c1, if_neg c2, if_neg c3,
        nextAt_allocNode_old s h key value ha]
  have hT'nn : ∀ j, nextAt s' nn j = if j < minH then
      nextAt s (predAt s key abs j) j else 0 := by
    intro j
    rw [hT nn j]
    by_cases hj : j < minH
    · rw [if_pos ⟨hj, rfl⟩, if_pos hj]
      have hgj : prevs.getD j 0 = predAt s key abs j := hpget j (by omega)
      rw [hgj, nextAt_allocNode_old s h key value (predAt_le_len hrep key j)]
    · have c1 : ¬ (j < minH ∧ nn = nn) := by rintro ⟨hcc, -⟩; omega
      have c2 : ¬ (j < minH ∧ nn = prevs.getD j 0) := by rintro ⟨hcc, -⟩; omega
      rw [if_neg c1, if_neg c2, if_neg hj, nextAt_allocNode_new]
  -- the new abstract list and its level filters
  set abs2 := ltFilter s key abs 0 ++ nn :: geSuffix s key abs 0 with habs2
  have habs := abs_decomp hrep hc key
  have hfl2 : ∀ L, L < headHeight s →
      filterLevel s' abs2 L = if L < h then
        ltFilter s key abs L ++ nn :: geSuffix s key abs L
      else filterLevel s abs L := by
    intro L hL
    have hfA : (ltFilter s key abs 0).filter (fun a => decide (L < hOf s' a)) =
        ltFilter s key abs L := by
      rw [ltFilter_of_zero hrep key L]
      apply List.filter_congr
      intro a ha
      rw [(hold a (hmem_le a (by simp [mem_ltFilter_mem_abs ha]))).2.2.1]
    have hfB : (geSuffix s key abs 0).filter (fun a => decide (L < hOf s' a)) =
        geSuffix s key abs L := by
      rw [geSuffix_of_zero hrep hc key L]
      apply List.filter_congr
      intro a ha
      rw [(hold a (hmem_le a (by simp [mem_geSuffix_mem_abs ha]))).2.2.1]
    have hmain : filterLevel s' abs2 L =
        ltFilter s key abs L ++
          (if decide (L < hOf s' nn) = true then nn :: geSuffix s key abs L
           else geSuffix s key abs L) := by
      unfold filterLevel
      rw [habs2, List.filter_append, List.filter_cons, hfA, hfB]
    rw [hmain]
    by_cases hLh : L < h
    · rw [if_pos (by simp [hh_nn', hLh]), if_pos hLh]
    · rw [if_neg (by simp [hh_nn']; omega), if_neg hLh]
      exact ((fl_split hrep hc key L).1).symm
  refine ⟨⟨?_, ?_, ?_, ?_, ?_, ?_⟩, hcount, hhead, hheaplen, hk_nn, hv_nn,
    hh_nn', fun a ha => ⟨(hold a ha).1, (hold a ha).2.1⟩, hHH⟩
  · rw [hhead]
    have hhd_le : s.headAddr ≤ len := hmem_le s.headAddr (by simp)
    exact nodup_insert_mid hrep hc key (Or.inl rfl) (by omega) (by omega)
  · intro a ha
    rw [hhead] at ha
    rcases List.mem_cons.mp ha with ha | ha
    · rw [ha, (hold s.headAddr (hmem_le s.headAddr (by simp))).2.2.2.1]
      exact rep_head_ok hrep
    · rw [habs2] at ha
      rcases List.mem_append.mp ha with ha | ha
      · have := mem_ltFilter_mem_abs ha
        rw [(hold a (hmem_le a (by simp [this]))).2.2.2.1]
        exact rep_mem_ok hrep this
      · rcases List.mem_cons.mp ha with ha | ha
        · rw [ha, (hsh.2.2.2.2 nn).2.2.2.2]
          exact hok_nn
        · have := mem_geSuffix_mem_abs ha
          rw [(hold a (hmem_le a (by simp [this]))).2.2.2.1]
          exact rep_mem_ok hrep this
  · rw [hHH]
    exact hH
  · intro a ha
    rw [habs2] at ha
    rw [hHH]
    rcases List.mem_append.mp ha with ha | ha
    · have hm := mem_ltFilter_mem_abs ha
      rw [(hold a (hmem_le a (by simp [hm]))).2.2.1]
      exact rep_heights hrep a hm
    · rcases List.mem_cons.mp ha with ha | ha
      · rw [ha, hh_nn']
        omega
      · have hm := mem_geSuffix_mem_abs ha
        rw [(hold a (hmem_le a (by simp [hm]))).2.2.1]
        exact rep_heights hrep a hm
  · intro L hL
    rw [hHH] at hL
    rw [hhead, hfl2 L hL]
    by_cases hLh : L < h
    · rw [if_pos hLh]
      apply insert_level_chain hrep hc key hL (rep_head_not_mem hrep)
        (fun hmem => by have := hmem_le nn (by simp [hmem]); omega)
      · intro a hafl hane
        have hamem := (mem_filterLevel.mp hafl).1
        rw [hT' a L (hmem_le a (by simp [hamem]))]
        rw [if_neg (fun hcc => hane hcc.2)]
      · intro hne
        rw [hT' s.headAddr L (hmem_le s.headAddr (by simp))]
        rw [if_neg (fun hcc => hne hcc.2.symm)]
      · have hif : (if predAt s key abs L = s.headAddr then s.headAddr
            else predAt s key abs L) = predAt s key abs L := by
          split
          · next hcc => exact hcc.symm
          · rfl
        rw [hif, hT' (predAt s key abs L) L (predAt_le_len hrep key L)]
        rw [if_pos ⟨by omega, rfl⟩]
      · rw [hT'nn L, if_pos (by omega)]
        exact nextAt_predAt hrep hc key hL
    · rw [if_neg hLh]
      rw [linkedB_congr s' s L _ ?_]
      · exact rep_chains hrep L hL
      · intro a ha
        rcases List.mem_cons.mp ha with ha | ha
        · rw [ha, hT' s.headAddr L (hmem_le s.headAddr (by simp))]
          rw [if_neg (by rintro ⟨hcc, -⟩; omega)]
        · have hm := (mem_filterLevel.mp ha).1
          rw [hT' a L (hmem_le a (by simp [hm]))]
          rw [if_neg (by rintro ⟨hcc, -⟩; omega)]
  · rw [habs2]
    have hpw : ∀ a ∈ abs, ∀ b ∈ abs, s.cmp (kOf s a) (kOf s b) ≤ 0 →
        s'.cmp (kOf s' a) (kOf s' b) ≤ 0 := by
      intro a ha b hb hr
      rw [hcmp', (hold a (hmem_le a (by simp [ha]))).1,
        (hold b (hmem_le b (by simp [hb]))).1]
      exact hr
    have hsorted := rep_sorted hrep
    rw [habs] at hsorted
    obtain ⟨hpA, hpB, hAB⟩ := List.pairwise_append.mp hsorted
    have hA_lt : ∀ a ∈ ltFilter s key abs 0, s.cmp (kOf s a) key < 0 := by
      intro a ha
      have := (List.mem_filter.mp ha).2
      have hsome := (nodeOkB_props (rep_mem_ok hrep (mem_ltFilter_mem_abs ha))).2.2
      rw [cmpRes_eq_of_isSome hsome key] at this
      simpa using this
    have hB_ge : ∀ b ∈ geSuffix s key abs 0, ¬ (s.cmp (kOf s b) key < 0) := by
      intro b hb
      have := (fl_split hrep hc key 0).2 b hb
      have hsome := (nodeOkB_props (rep_mem_ok hrep (mem_geSuffix_mem_abs hb))).2.2
      rw [cmpRes_eq_of_isSome hsome key] at this
      exact this
    rw [List.pairwise_append]
    refine ⟨?_, ?_, ?_⟩
    · refine List.Pairwise.imp_of_mem ?_ hpA
      intro a b ha hb hr
      exact hpw a (mem_ltFilter_mem_abs ha) b (mem_ltFilter_mem_abs hb) hr
    · rw [List.pairwise_cons]
      constructor
      · intro b hb
        have hbm := mem_geSuffix_mem_abs hb
        rw [hcmp', hk_nn, (hold b (hmem_le b (by simp [hbm]))).1]
        by_contra hgt
        push_neg at hgt
        have hlt := (hc.flip (kOf s b) key).mpr hgt
        exact hB_ge b hb hlt
      · refine List.Pairwise.imp_of_mem ?_ hpB
        intro a b ha hb hr
        exact hpw a (mem_geSuffix_mem_abs ha) b (mem_geSuffix_mem_abs hb) hr
    · intro a ha b hb
      have ham := mem_ltFilter_mem_abs ha
      rcases List.mem_cons.mp hb with hb | hb
      · rw [hb, hcmp', hk_nn, (hold a (hmem_le a (by simp [ham]))).1]
        exact le_of_lt (hA_lt a ha)
      · exact hpw a ham b (mem_geSuffix_mem_abs hb) (hAB a ha b hb)

theorem getD_map {f : Nat → Nat} {l : List Nat} {i : Nat} (hi : i < l.length)
    (d : Nat) : (l.map f).getD i d = f (l.getD i d) := by
  induction l generalizing i with
  | nil => simp at hi
  | cons x xs ih =>
    cases i with
    | zero => rfl
    | succ i =>
      simp only [List.map_cons]
      have : i < xs.length := by simpa using hi
      simpa [List.getD_cons_succ] using ih this

/-- The state after the growing insert path: allocate `nn`, grow the head to
the new height, redirect the predecessors that pointed at the old head, and
splice `nn` in at every previously existing level. -/
theorem insert_state_grow [Inhabited K] [Inhabited V] {s : SL K V}
    {abs : List Nat} (hrep : RepN s abs) (hc : LawfulCmp s.cmp) (key : K)
    (value : V) {h : Nat} (hgt : headHeight s < h) :
    RepN (splice (growHead (allocNode s h key value).1 (s.heap.length + 1))
        (s.heap.length + 1)
        ((init_prevs s key (headHeight s)).map
          (fun p => if p = s.headAddr then
            (growHead (allocNode s h key value).1 (s.heap.length + 1)).headAddr
            else p))
        (min h (headHeight s)))
      (ltFilter s key abs 0 ++ (s.heap.length + 1) :: geSuffix s key abs 0) ∧
    (splice (growHead (allocNode s h key value).1 (s.heap.length + 1))
        (s.heap.length + 1)
        ((init_prevs s key (headHeight s)).map
          (fun p => if p = s.headAddr then
            (growHead (allocNode s h key value).1 (s.heap.length + 1)).headAddr
            else p))
        (min h (headHeight s))).count = s.count ∧
    (splice (growHead (allocNode s h key value).1 (s.heap.length + 1))
        (s.heap.length + 1)
        ((init_prevs s key (headHeight s)).map
          (fun p => if p = s.headAddr then
            (growHead (allocNode s h key value).1 (s.heap.length + 1)).headAddr
            else p))
        (min h (headHeight s))).headAddr = s.heap.length + 2 ∧
    (splice (growHead (allocNode s h key value).1 (s.heap.length + 1))
        (s.heap.length + 1)
        ((init_prevs s key (headHeight s)).map
          (fun p => if p = s.headAddr then
            (growHead (allocNode s h key value).1 (s.heap.length + 1)).headAddr
            else p))
        (min h (headHeight s))).heap.length = s.heap.length + 2 ∧
    kOf (splice (growHead (allocNode s h key value).1 (s.heap.length + 1))
        (s.heap.length + 1)
        ((init_prevs s key (headHeight s)).map
          (fun p => if p = s.headAddr then
            (growHead (allocNode s h key value).1 (s.heap.length + 1)).headAddr
            else p))
        (min h (headHeight s))) (s.heap.length + 1) = key ∧
    vOf (splice (growHead (allocNode s h key value).1 (s.heap.length + 1))
        (s.heap.length + 1)
        ((init_prevs s key (headHeight s)).map
          (fun p => if p = s.headAddr then
            (growHead (allocNode s h key value).1 (s.heap.length + 1)).headAddr
            else p))
        (min h (headHeight s))) (s.heap.length + 1) = value ∧
    hOf (splice (growHead (allocNode s h key value).1 (s.heap.length + 1))
        (s.heap.length + 1)
        ((init_prevs s key (headHeight s)).map
          (fun p => if p = s.headAddr then
            (growHead (allocNode s h key value).1 (s.heap.length + 1)).headAddr
            else p))
        (min h (headHeight s))) (s.heap.length + 1) = h ∧
    (∀ a, a ≤ s.heap.length →
      kOf (splice (growHead (allocNode s h key value).1 (s.heap.length + 1))
        (s.heap.length + 1)
        ((init_prevs s key (headHeight s)).map
          (fun p => if p = s.headAddr then
            (growHead (allocNode s h key value).1 (s.heap.length + 1)).headAddr
            else p))
        (min h (headHeight s))) a = kOf s a ∧
      vOf (splice (growHead (allocNode s h key value).1 (s.heap.length + 1))
        (s.heap.length + 1)
        ((init_prevs s key (headHeight s)).map
          (fun p => if p = s.headAddr then
            (growHead (allocNode s h key value).1 (s.heap.length + 1)).headAddr
            else p))
        (min h (headHeight s))) a = vOf s a) ∧
    headHeight (splice (growHead (allocNode s h key value).1 (s.heap.length + 1))
        (s.heap.length + 1)
        ((init_prevs s key (headHeight s)).map
          (fun p => if p = s.headAddr then
            (growHead (allocNode s h key value).1 (s.heap.length + 1)).headAddr
            else p))
        (min h (headHeight s))) = h := by
  have hH := rep_headH hrep
  have h1 : 1 ≤ h := by omega
  set len := s.heap.length with hlen
  set nn := len + 1 with hnnd
  set s1 := (allocNode s h key value).1 with hs1
  set s2 := growHead s1 nn with hs2
  set prevs := init_prevs s key (headHeight s) with hprevsd
  set prevs2 := prevs.map (fun p => if p = s.headAddr then s2.headAddr else p)
    with hprevs2
  set minH := min h (headHeight s) with hminH
  obtain ⟨hplen0, hpget⟩ := init_prevs_spec hrep hc key
  have hplen : prevs.length = headHeight s := hplen0
  have hmem_le : ∀ a ∈ s.headAddr :: abs, a ≤ len :=
    fun a ha => (nodeOkB_props (hrep.2.1 a ha)).2.1
  have hhd_le : s.headAddr ≤ len := hmem_le s.headAddr (by simp)
  have hs1len : s1.heap.length = len + 1 := heapLength_allocNode s h key value
  have h12 : len + 2 = s1.heap.length + 1 := by omega
  -- field facts about s1 and s2 away from the new head
  have hs1old : ∀ a, a ≤ len → node? s1 a = node? s a := by
    intro a ha
    rw [hs1]
    exact node?_allocNode_old s h key value ha
  have hs2old : ∀ a, a ≤ len + 1 → node? s2 a = node? s1 a := by
    intro a ha
    rw [hs2]
    exact node?_growHead_old s1 nn (by omega)
  have hs2head : s2.headAddr = len + 2 := by
    rw [hs2, headAddr_growHead]
    omega
  have hs2len : s2.heap.length = len + 2 := by
    rw [hs2, heapLength_growHead]
    omega
  have hs2count : s2.count = s.count := by
    rw [hs2, count_growHead, hs1, count_allocNode]
  have hs2cmp : s2.cmp = s.cmp := by
    rw [hs2, cmp_growHead, hs1, cmp_allocNode]
  have hhh1 : headHeight s1 = headHeight s := by
    unfold headHeight
    rw [hs1, headAddr_allocNode, hOf_allocNode_old s h key value hhd_le]
  have hh_nn1 : hOf s1 nn = h := hOf_allocNode_new s h key value
  have hnextnn1 : ∀ j, nextAt s1 nn j = 0 := nextAt_allocNode_new s h key value
  have hnext2 : ∀ a j, a ≤ len + 1 → nextAt s2 a j = nextAt s1 a j := by
    intro a j ha
    unfold nextAt
    rw [hs2old a ha]
  have hh2 : ∀ a, a ≤ len + 1 → hOf s2 a = hOf s1 a := by
    intro a ha
    unfold hOf
    rw [hs2old a ha]
  have hk2 : ∀ a, a ≤ len + 1 → kOf s2 a = kOf s1 a := by
    intro a ha
    unfold kOf
    rw [hs2old a ha]
  have hv2 : ∀ a, a ≤ len + 1 → vOf s2 a = vOf s1 a := by
    intro a ha
    unfold vOf
    rw [hs2old a ha]
  have hok2 : ∀ a, a ≤ len + 1 → nodeOkB s2 a = nodeOkB s1 a := by
    intro a ha
    rw [nodeOkB_eq_node?, nodeOkB_eq_node?, hs2old a ha]
  -- facts about the new head in s2
  have hng_h : hOf s2 (len + 2) = h := by
    rw [hs2, h12, hOf_growHead_new, hh_nn1]
  have hng_ok : nodeOkB s2 (len + 2) = true := by
    rw [hs2, h12]
    exact nodeOkB_growHead_new s1 nn
  have hng_next : ∀ j, nextAt s2 (len + 2) j =
      if j < h then (if j < headHeight s then nextAt s s.headAddr j else nn)
      else 0 := by
    intro j
    have hna : nextAt s1 s1.headAddr j = nextAt s s.headAddr j := by
      rw [hs1, headAddr_allocNode]
      exact nextAt_allocNode_old s h key value hhd_le j
    rw [hs2, h12, nextAt_growHead_new s1 nn j, hh_nn1, hhh1, hna]
  -- the redirected predecessor array
  have hp2get : ∀ i, i < headHeight s →
      prevs2.getD i 0 = (if predAt s key abs i = s.headAddr then len + 2
        else predAt s key abs i) := by
    intro i hi
    have hilt : i < prevs.length := by omega
    have hmap : prevs2.getD i 0 = (if prevs.getD i 0 = s.headAddr then
        s2.headAddr else prevs.getD i 0) := by
      rw [hprevs2]
      exact getD_map hilt 0
    have hgi : prevs.getD i 0 = predAt s key abs i := hpget i hi
    rw [hmap, hgi, hs2head]
  -- splice preconditions in s2
  have hok_nn2 : nodeOkB s2 nn = true := by
    rw [hok2 nn (by omega), hs1]
    exact nodeOkB_allocNode_new s h key value
  have hh_nn2 : hOf s2 nn = h := by
    rw [hh2 nn (by omega), hh_nn1]
  have hp : ∀ i, i < minH → nodeOkB s2 (prevs2.getD i 0) = true ∧
      i < hOf s2 (prevs2.getD i 0) ∧ prevs2.getD i 0 ≠ nn := by
    intro i hi
    have hicur : i < headHeight s := by omega
    have hple : predAt s key abs i ≤ len := predAt_le_len hrep key i
    rw [hp2get i hicur]
    by_cases hph : predAt s key abs i = s.headAddr
    · rw [if_pos hph]
      refine ⟨hng_ok, ?_, by omega⟩
      rw [hng_h]
      omega
    · rw [if_neg hph]
      refine ⟨?_, ?_, by omega⟩
      · rw [hok2 (predAt s key abs i) (by omega), hs1,
          nodeOkB_allocNode_old s h key value hple]
        exact predAt_ok hrep key i
      · rw [hh2 (predAt s key abs i) (by omega), hs1,
          hOf_allocNode_old s h key value hple]
        exact predAt_hOf hrep key hicur
  obtain ⟨hsh, hT⟩ := splice_nextAt s2 nn prevs2 minH hok_nn2
    (by rw [hh_nn2]; omega) hp
  set s' := splice s2 nn prevs2 minH with hs'
  -- basic fields of the final state
  have hcount : s'.count = s.count := by rw [hsh.1, hs2count]
  have hhead : s'.headAddr = len + 2 := by rw [hsh.2.1, hs2head]
  have hheaplen : s'.heap.length = len + 2 := by rw [hsh.2.2.2.1, hs2len]
  have hcmp' : s'.cmp = s.cmp := by rw [hsh.2.2.1, hs2cmp]
  have hk_nn : kOf s' nn = key := by
    rw [(hsh.2.2.2.2 nn).2.2.1, hk2 nn (by omega), hs1]
    exact kOf_allocNode_new s h key value
  have hv_nn : vOf s' nn = value := by
    rw [(hsh.2.2.2.2 nn).2.2.2.1, hv2 nn (by omega), hs1]
    exact vOf_allocNode_new s h key value
  have hh_nn' : hOf s' nn = h := by
    rw [(hsh.2.2.2.2 nn).2.1, hh_nn2]
  have hold : ∀ a, a ≤ len → kOf s' a = kOf s a ∧ vOf s' a = vOf s a ∧
      hOf s' a = hOf s a ∧ nodeOkB s' a = nodeOkB s a := by
    intro a ha
    refine ⟨?_, ?_, ?_, ?_⟩
    · rw [(hsh.2.2.2.2 a).2.2.1, hk2 a (by omega), hs1,
        kOf_allocNode_old s h key value ha]
    · rw [(hsh.2.2.2.2 a).2.2.2.1, hv2 a (by omega), hs1,
        vOf_allocNode_old s h key value ha]
    · rw [(hsh.2.2.2.2 a).2.1, hh2 a (by omega), hs1,
        hOf_allocNode_old s h key value ha]
    · rw [(hsh.2.2.2.2 a).2.2.2.2, hok2 a (by omega), hs1,
        nodeOkB_allocNode_old s h key value ha]
  have hok_nh' : nodeOkB s' (len + 2) = true := by
    rw [(hsh.2.2.2.2 (len + 2)).2.2.2.2, hng_ok]
  have hh_nh' : hOf s' (len + 2) = h := by
    rw [(hsh.2.2.2.2 (len + 2)).2.1, hng_h]
  have hHH : headHeight s' = h := by
    unfold headHeight
    rw [hhead]
    exact hh_nh'
  -- the forward-pointer table in terms of the original state
  have hT'o : ∀ a j, a ≤ len →
      nextAt s' a j =
        if j < minH ∧ a = predAt s key abs j ∧ predAt s key abs j ≠ s.headAddr
        then nn else nextAt s a j := by
    intro a j ha
    rw [hT a j]
    have hne_nn : a ≠ nn := by omega
    have c1 : ¬ (j < minH ∧ a = nn) := fun hcc => hne_nn hcc.2
    rw [if_neg c1]
    have hbase : nextAt s2 a j = nextAt s a j := by
      rw [hnext2 a j (by omega), hs1, nextAt_allocNode_old s h key value ha]
    by_cases hj : j < minH
    · have hicur : j < headHeight s := by omega
      rw [hp2get j hicur]
      by_cases hph : predAt s key abs j = s.headAddr
      · rw [if_pos hph]
        have c2 : ¬ (j < minH ∧ a = len + 2) := by rintro ⟨-, hcc⟩; omega
        rw [if_neg c2, if_neg (by rintro ⟨-, -, hcc⟩; exact hcc hph), hbase]
      · rw [if_neg hph]
        by_cases hap : a = predAt s key abs j
        · rw [if_pos ⟨hj, hap⟩, if_pos ⟨hj, hap, hph⟩]
        · rw [if_neg (fun hcc => hap hcc.2), if_neg (fun hcc => hap hcc.2.1),
            hbase]
    · have c2 : ¬ (j < minH ∧ a = prevs2.getD j 0) := by rintro ⟨hcc, -⟩; omega
      have c3 : ¬ (j < minH ∧ a = predAt s key abs j ∧
          predAt s key abs j ≠ s.headAddr) := by rintro ⟨hcc, -⟩; omega
      rw [if_neg c2, if_neg c3, hbase]
  have hT'nh : ∀ j, nextAt s' (len + 2) j =
      if j < minH then
        (if predAt s key abs j = s.headAddr then nn
         else nextAt s s.headAddr j)
      else if j < h then nn else 0 := by
    intro j
    rw [hT (len + 2) j]
    have c1 : ¬ (j < minH ∧ len + 2 = nn) := by rintro ⟨-, hcc⟩; omega
    rw [if_neg c1]
    by_cases hj : j < minH
    · have hicur : j < headHeight s := by omega
      rw [hp2get j hicur]
      simp only [if_pos hj]
      by_cases hph : predAt s key abs j = s.headAddr
      · simp only [if_pos hph]
        rw [if_pos ⟨hj, trivial⟩]
      · simp only [if_neg hph]
        have hple := predAt_le_len hrep key j
        rw [if_neg (by rintro ⟨-, hcc⟩; omega), hng_next j,
          if_pos (by omega), if_pos hicur]
    · simp only [if_neg hj]
      rw [if_neg (by rintro ⟨hcc, -⟩; exact hj hcc), hng_next j]
      by_cases hjh : j < h
      · simp only [if_pos hjh]
        rw [if_neg (by omega)]
      · simp only [if_neg hjh]
  have hT'nn : ∀ j, nextAt s' nn j =
      if j < minH then nextAt s (predAt s key abs j) j else 0 := by
    intro j
    rw [hT nn j]
    by_cases hj : j < minH
    · rw [if_pos ⟨hj, rfl⟩, if_pos hj]
      have hicur : j < headHeight s := by omega
      rw [hp2get j hicur]
      by_cases hph : predAt s key abs j = s.headAddr
      · simp only [if_pos hph]
        rw [hng_next j, if_pos (by omega), if_pos hicur, hph]
      · simp only [if_neg hph]
        have hple := predAt_le_len hrep key j
        rw [hnext2 (predAt s key abs j) j (by omega), hs1,
          nextAt_allocNode_old s h key value hple]
    · have c1 : ¬ (j < minH ∧ nn = nn) := by rintro ⟨hcc, -⟩; omega
      have c2 : ¬ (j < minH ∧ nn = prevs2.getD j 0) := by rintro ⟨hcc, -⟩; omega
      rw [if_neg c1, if_neg c2, if_neg hj, hnext2 nn j (by omega), hnextnn1 j]
  -- the new abstract list and its level filters
  set abs2 := ltFilter s key abs 0 ++ nn :: geSuffix s key abs 0 with habs2
  have habs := abs_decomp hrep hc key
  have hflnil : ∀ L, headHeight s ≤ L →
      ltFilter s key abs L = [] ∧ geSuffix s key abs L = [] := by
    intro L hL
    unfold ltFilter geSuffix
    rw [filterLevel_top hrep hL]
    exact ⟨rfl, rfl⟩
  have hfl2 : ∀ L, L < h →
      filterLevel s' abs2 L =
        ltFilter s key abs L ++ nn :: geSuffix s key abs L := by
    intro L hL
    have hfA : (ltFilter s key abs 0).filter (fun a => decide (L < hOf s' a)) =
        ltFilter s key abs L := by
      rw [ltFilter_of_zero hrep key L]
      apply List.filter_congr
      intro a ha
      rw [(hold a (hmem_le a (by simp [mem_ltFilter_mem_abs ha]))).2.2.1]
    have hfB : (geSuffix s key abs 0).filter (fun a => decide (L < hOf s' a)) =
        geSuffix s key abs L := by
      rw [geSuffix_of_zero hrep hc key L]
      apply List.filter_congr
      intro a ha
      rw [(hold a (hmem_le a (by simp [mem_geSuffix_mem_abs ha]))).2.2.1]
    have hmain : filterLevel s' abs2 L =
        ltFilter s key abs L ++
          (if decide (L < hOf s' nn) = true then nn :: geSuffix s key abs L
           else geSuffix s key abs L) := by
      unfold filterLevel
      rw [habs2, List.filter_append, List.filter_cons, hfA, hfB]
    rw [hmain, if_pos (by simp [hh_nn', hL])]
  refine ⟨⟨?_, ?_, ?_, ?_, ?_, ?_⟩, hcount, hhead, hheaplen, hk_nn, hv_nn,
    hh_nn', fun a ha => ⟨(hold a ha).1, (hold a ha).2.1⟩, hHH⟩
  · rw [hhead]
    exact nodup_insert_mid hrep hc key (Or.inr (by omega)) (by omega) (by omega)
  · intro a ha
    rw [hhead] at ha
    rcases List.mem_cons.mp ha with ha | ha
    · rw [ha]
      exact hok_nh'
    · rw [habs2] at ha
      rcases List.mem_append.mp ha with ha | ha
      · have hm := mem_ltFilter_mem_abs ha
        rw [(hold a (hmem_le a (by simp [hm]))).2.2.2]
        exact rep_mem_ok hrep hm
      · rcases List.mem_cons.mp ha with ha | ha
        · rw [ha, (hsh.2.2.2.2 nn).2.2.2.2, hok_nn2]
        · have hm := mem_geSuffix_mem_abs ha
          rw [(hold a (hmem_le a (by simp [hm]))).2.2.2]
          exact rep_mem_ok hrep hm
  · rw [hHH]
    omega
  · intro a ha
    rw [habs2] at ha
    rw [hHH]
    rcases List.mem_append.mp ha with ha | ha
    · have hm := mem_ltFilter_mem_abs ha
      rw [(hold a (hmem_le a (by simp [hm]))).2.2.1]
      have := rep_heights hrep a hm
      omega
    · rcases List.mem_cons.mp ha with ha | ha
      · rw [ha, hh_nn']
        omega
      · have hm := mem_geSuffix_mem_abs ha
        rw [(hold a (hmem_le a (by simp [hm]))).2.2.1]
        have := rep_heights hrep a hm
        omega
  · intro L hL
    rw [hHH] at hL
    rw [hhead, hfl2 L hL]
    by_cases hLc : L < headHeight s
    · apply insert_level_chain hrep hc key hLc
        (fun hmem => by have := hmem_le (len + 2) (by simp [hmem]); omega)
        (fun hmem => by have := hmem_le nn (by simp [hmem]); omega)
      · intro a hafl hane
        have hamem := (mem_filterLevel.mp hafl).1
        rw [hT'o a L (hmem_le a (by simp [hamem]))]
        rw [if_neg (fun hcc => hane hcc.2.1)]
      · intro hne
        rw [hT'nh L, if_pos (by omega), if_neg hne]
      · by_cases hph : predAt s key abs L = s.headAddr
        · rw [if_pos hph, hT'nh L, if_pos (by omega), if_pos hph]
        · rw [if_neg hph,
            hT'o (predAt s key abs L) L (predAt_le_len hrep key L)]
          rw [if_pos ⟨by omega, rfl, hph⟩]
      · rw [hT'nn L, if_pos (by omega)]
        exact nextAt_predAt hrep hc key hLc
    · obtain ⟨he1, he2⟩ := hflnil L (by omega)
      rw [he1, he2]
      have hstep1 : nextAt s' (len + 2) L = nn := by
        rw [hT'nh L, if_neg (by omega), if_pos hL]
      have hstep2 : nextAt s' nn L = 0 := by
        rw [hT'nn L, if_neg (by omega)]
      simp [linkedB, hstep1, hstep2]
  · rw [habs2]
    have hpw : ∀ a ∈ abs, ∀ b ∈ abs, s.cmp (kOf s a) (kOf s b) ≤ 0 →
        s'.cmp (kOf s' a) (kOf s' b) ≤ 0 := by
      intro a ha b hb hr
      rw [hcmp', (hold a (hmem_le a (by simp [ha]))).1,
        (hold b (hmem_le b (by simp [hb]))).1]
      exact hr
    have hsorted := rep_sorted hrep
    rw [habs] at hsorted
    obtain ⟨hpA, hpB, hAB⟩ := List.pairwise_append.mp hsorted
    have hA_lt : ∀ a ∈ ltFilter s key abs 0, s.cmp (kOf s a) key < 0 := by
      intro a ha
      have := (List.mem_filter.mp ha).2
      have hsome := (nodeOkB_props (rep_mem_ok hrep (mem_ltFilter_mem_abs ha))).2.2
      rw [cmpRes_eq_of_isSome hsome key] at this
      simpa using this
    have hB_ge : ∀ b ∈ geSuffix s key abs 0, ¬ (s.cmp (kOf s b) key < 0) := by
      intro b hb
      have := (fl_split hrep hc key 0).2 b hb
      have hsome := (nodeOkB_props (rep_mem_ok hrep (mem_geSuffix_mem_abs hb))).2.2
      rw [cmpRes_eq_of_isSome hsome key] at this
      exact this
    rw [List.pairwise_append]
    refine ⟨?_, ?_, ?_⟩
    · refine List.Pairwise.imp_of_mem ?_ hpA
      intro a b ha hb hr
      exact hpw a (mem_ltFilter_mem_abs ha) b (mem_ltFilter_mem_abs hb) hr
    · rw [List.pairwise_cons]
      constructor
      · intro b hb
        have hbm := mem_geSuffix_mem_abs hb
        rw [hcmp', hk_nn, (hold b (hmem_le b (by simp [hbm]))).1]
        by_contra hgt2
        push_neg at hgt2
        have hlt := (hc.flip (kOf s b) key).mpr hgt2
        exact hB_ge b hb hlt
      · refine List.Pairwise.imp_of_mem ?_ hpB
        intro a b ha hb hr
        exact hpw a (mem_geSuffix_mem_abs ha) b (mem_geSuffix_mem_abs hb) hr
    · intro a ha b hb
      have ham := mem_ltFilter_mem_abs ha
      rcases List.mem_cons.mp hb with hb | hb
      · rw [hb, hcmp', hk_nn, (hold a (hmem_le a (by simp [ham]))).1]
        exact le_of_lt (hA_lt a ha)
      · exact hpw a ham b (mem_geSuffix_mem_abs hb) (hAB a ha b hb)

theorem repN_setCount [Inhabited K] {s : SL K V} {abs : List Nat}
    (hrep : RepN s abs) (c : Nat) : RepN { s with count := c } abs := by
  obtain ⟨h1, h2, h3, h4, h5, h6⟩ := hrep
  refine ⟨h1, h2, h3, h4, ?_, h6⟩
  intro L hL
  rw [linkedB_congr { s with count := c } s L _ (fun a _ => rfl)]
  exact h5 L hL

theorem count_bump (s : SL K V) :
    ({ s with count := s.count + 1 } : SL K V).count = s.count + 1 := rfl

theorem kOf_setCount [Inhabited K] (s : SL K V) (c : Nat) (a : Nat) :
    kOf ({ s with count := c } : SL K V) a = kOf s a := rfl

theorem vOf_setCount [Inhabited V] (s : SL K V) (c : Nat) (a : Nat) :
    vOf ({ s with count := c } : SL K V) a = vOf s a := rfl

theorem headAddr_setCount (s : SL K V) (c : Nat) :
    ({ s with count := c } : SL K V).headAddr = s.headAddr := rfl

theorem cmp_setCount (s : SL K V) (c : Nat) :
    ({ s with count := c } : SL K V).cmp = s.cmp := rfl

theorem cmp_splice [Inhabited K] [Inhabited V] (s : SL K V) (nn : Nat)
    (prevs : List Nat) (m : Nat) : (splice s nn prevs m).cmp = s.cmp := by
  have h := sameShape_foldl (spliceStep nn prevs)
    (fun t i => (sameShape_setNext _ _ _ _).trans (sameShape_setNext _ _ _ _))
    (List.range m) s
  exact h.2.2.1

/-- Control flow of `add_or_set` on the insert path (plain insert, or upsert
with no comparator-equal key stored): the returned flag and the final
container for every outcome of the allocation oracle. -/
theorem add_or_set_insert_eval [Inhabited K] [Inhabited V] {s : SL K V}
    {abs : List Nat} (hrep : RepN s abs) (hc : LawfulCmp s.cmp) (tr : Bool)
    (key : K) (value : V) (old : Option (Option V)) (newHeight : Nat)
    (ao : List Bool)
    (hmiss : tr = true → ∀ a ∈ abs, s.cmp (kOf s a) key ≠ 0) :
    (add_or_set s tr key value old newHeight ao).ok =
      (if ao.getD 0 true = false then false
       else if headHeight s < newHeight then
         (if ao.getD 1 true = false then false else true)
       else true) ∧
    (add_or_set s tr key value old newHeight ao).sl =
      (if ao.getD 0 true = false then s
       else if headHeight s < newHeight then
         (if ao.getD 1 true = false then (allocNode s newHeight key value).1
          else
            { splice (growHead (allocNode s newHeight key value).1
                  (s.heap.length + 1)) (s.heap.length + 1)
                ((init_prevs s key (headHeight s)).map
                  (fun p => if p = s.headAddr then
                    (growHead (allocNode s newHeight key value).1
                      (s.heap.length + 1)).headAddr else p))
                (min newHeight (headHeight s)) with
              count := (splice (growHead (allocNode s newHeight key value).1
                  (s.heap.length + 1)) (s.heap.length + 1)
                ((init_prevs s key (headHeight s)).map
                  (fun p => if p = s.headAddr then
                    (growHead (allocNode s newHeight key value).1
                      (s.heap.length + 1)).headAddr else p))
                (min newHeight (headHeight s))).count + 1 })
       else
         { splice (allocNode s newHeight key value).1 (s.heap.length + 1)
             (init_prevs s key (headHeight s)) (min newHeight (headHeight s))
             with
           count := (splice (allocNode s newHeight key value).1
             (s.heap.length + 1) (init_prevs s key (headHeight s))
             (min newHeight (headHeight s))).count + 1 }) := by
  have hsucc0 := succ0_eval hrep hc key
  simp only [List.getD, List.get?_eq_getElem?] at hsucc0
  cases tr with
  | false =>
    constructor <;>
      (cases h0 : ao.getD 0 true <;>
        by_cases hg : newHeight > headHeight s <;>
          cases h1 : ao.getD 1 true <;>
            simp only [List.getD, List.get?_eq_getElem?] at h0 h1 <;>
            simp [add_or_set, h0, hg, h1, allocNode])
  | true =>
    have hne := hmiss rfl
    rcases hgs : geSuffix s key abs 0 with _ | ⟨d, D⟩
    · rw [hgs] at hsucc0
      constructor <;>
        (cases h0 : ao.getD 0 true <;>
          by_cases hg : newHeight > headHeight s <;>
            cases h1 : ao.getD 1 true <;>
              simp only [List.getD, List.get?_eq_getElem?] at h0 h1 <;>
              simp [add_or_set, hsucc0, tryReplace, node?, h0, hg, h1,
                allocNode])
    · have hdmem : d ∈ abs := mem_geSuffix_mem_abs (by rw [hgs]; simp)
      have hsome_d := (nodeOkB_props (rep_mem_ok hrep hdmem)).2.2
      rcases hn : node? s d with _ | n
      · rw [hn] at hsome_d
        cases hsome_d
      · have hkd : kOf s d = n.k := by
          unfold kOf
          rw [hn]
        have hcm : ¬ (s.cmp n.k key = 0) := by
          rw [← hkd]
          exact hne d hdmem
        rw [hgs] at hsucc0
        constructor <;>
          (cases h0 : ao.getD 0 true <;>
            by_cases hg : newHeight > headHeight s <;>
              cases h1 : ao.getD 1 true <;>
                simp only [List.getD, List.get?_eq_getElem?] at h0 h1 <;>
                simp [add_or_set, hsucc0, tryReplace, hn, hcm, h0, hg, h1,
                  allocNode])

/-- A successful insert (plain, or upsert that found no comparator-equal
key): the new node lives at the fresh address, is spliced between the
strictly-smaller keys and the rest, the count grows by one, and every old
node keeps its key and value. -/
theorem add_or_set_insert_ok [Inhabited K] [Inhabited V] {s : SL K V}
    {abs : List Nat} (hrep : Rep s abs) (hc : LawfulCmp s.cmp) (tr : Bool)
    (key : K) (value : V) (old : Option (Option V)) {newHeight : Nat}
    (ao : List Bool) (h1 : 1 ≤ newHeight)
    (hmiss : tr = true → ∀ a ∈ abs, s.cmp (kOf s a) key ≠ 0)
    (hao0 : ao.getD 0 true = true)
    (hao1 : headHeight s < newHeight → ao.getD 1 true = true) :
    (add_or_set s tr key value old newHeight ao).ok = true ∧
    Rep (add_or_set s tr key value old newHeight ao).sl
      (ltFilter s key abs 0 ++ (s.heap.length + 1) :: geSuffix s key abs 0) ∧
    kOf (add_or_set s tr key value old newHeight ao).sl (s.heap.length + 1)
      = key ∧
    vOf (add_or_set s tr key value old newHeight ao).sl (s.heap.length + 1)
      = value ∧
    (∀ a, a ≤ s.heap.length →
      kOf (add_or_set s tr key value old newHeight ao).sl a = kOf s a ∧
      vOf (add_or_set s tr key value old newHeight ao).sl a = vOf s a) ∧
    (add_or_set s tr key value old newHeight ao).sl.count = s.count + 1 := by
  obtain ⟨hok, hsl⟩ := add_or_set_insert_eval hrep.1 hc tr key value old
    newHeight ao hmiss
  have h0ne : ¬ (ao.getD 0 true = false) := by rw [hao0]; simp
  have habs := abs_decomp hrep.1 hc key
  have hlen : (ltFilter s key abs 0 ++ (s.heap.length + 1) ::
      geSuffix s key abs 0).length = abs.length + 1 := by
    conv_rhs => rw [habs]
    simp only [List.length_append, List.length_cons]
    omega
  by_cases hg : headHeight s < newHeight
  · have h1ne : ¬ (ao.getD 1 true = false) := by rw [hao1 hg]; simp
    rw [if_neg h0ne, if_pos hg, if_neg h1ne] at hok hsl
    obtain ⟨hrepn, hcount, hhead, hlen2, hknn, hvnn, hhnn, holdf, hHH⟩ :=
      insert_state_grow hrep.1 hc key value hg
    refine ⟨hok, ⟨?_, ?_⟩, ?_, ?_, ?_, ?_⟩
    · rw [hsl]
      exact repN_setCount hrepn _
    · rw [hsl, count_bump, hcount, hrep.2, hlen]
    · rw [hsl, kOf_setCount]
      exact hknn
    · rw [hsl, vOf_setCount]
      exact hvnn
    · intro a ha
      rw [hsl, kOf_setCount, vOf_setCount]
      exact holdf a ha
    · rw [hsl, count_bump, hcount]
  · have hle : newHeight ≤ headHeight s := Nat.le_of_not_lt hg
    rw [if_neg h0ne, if_neg hg] at hok hsl
    obtain ⟨hrepn, hcount, hhead, hlen2, hknn, hvnn, hhnn, holdf, hHH⟩ :=
      insert_state_nogrow hrep.1 hc key value h1 hle
    refine ⟨hok, ⟨?_, ?_⟩, ?_, ?_, ?_, ?_⟩
    · rw [hsl]
      exact repN_setCount hrepn _
    · rw [hsl, count_bump, hcount, hrep.2, hlen]
    · rw [hsl, kOf_setCount]
      exact hknn
    · rw [hsl, vOf_setCount]
      exact hvnn
    · intro a ha
      rw [hsl, kOf_setCount, vOf_setCount]
      exact holdf a ha
    · rw [hsl, count_bump, hcount]

theorem count_sub (s : SL K V) (n : Nat) :
    ({ s with count := s.count - n } : SL K V).count = s.count - n := rfl

/-- The level-`L` chain after unlinking the first node `d` of the level-`L`
suffix: the per-level predecessor is re-pointed past `d`, everything else
keeps its links. -/
theorem remove_level_chain [Inhabited K] {s s' : SL K V} {abs : List Nat}
    (hrep : RepN s abs) (hc : LawfulCmp s.cmp) (key : K)
    {d : Nat} {DL : List Nat} {L : Nat} (hL : L < headHeight s)
    (hgsL : geSuffix s key abs L = d :: DL)
    (H1 : ∀ a ∈ s.headAddr :: filterLevel s abs L,
        a ≠ predAt s key abs L → nextAt s' a L = nextAt s a L)
    (H3 : nextAt s' (predAt s key abs L) L = nextAt s d L) :
    linkedB s' L (s.headAddr :: (ltFilter s key abs L ++ DL)) = true := by
  obtain ⟨hsplit, -⟩ := fl_split hrep hc key L
  have hchain : linkedB s L
      (s.headAddr :: (ltFilter s key abs L ++ (d :: DL))) = true := by
    rw [← hgsL, ← hsplit]
    exact rep_chains hrep L hL
  have hOnodup : (s.headAddr :: (ltFilter s key abs L ++ (d :: DL))).Nodup := by
    rw [← hgsL, ← hsplit]
    refine List.Nodup.sublist ?_ (rep_nodup hrep)
    exact (List.filter_sublist abs).cons₂ s.headAddr
  set P := ltFilter s key abs L with hP
  have hPmem : ∀ a ∈ P, a ∈ filterLevel s abs L := by
    intro a ha
    rw [hsplit]
    exact List.mem_append.mpr (Or.inl ha)
  have hDLmem : ∀ a ∈ DL, a ∈ filterLevel s abs L := by
    intro a ha
    rw [hsplit, hgsL]
    exact List.mem_append.mpr (Or.inr (by simp [ha]))
  have hd_next : nextAt s d L = DL.headD 0 := by
    have hch2 : linkedB s L (s.headAddr :: ((P ++ [d]) ++ DL)) = true := by
      have hshp : s.headAddr :: ((P ++ [d]) ++ DL) =
          s.headAddr :: (P ++ (d :: DL)) := by simp
      rw [hshp]
      exact hchain
    have := linkedB_break s L s.headAddr (P ++ [d]) DL hch2
    rwa [lastD_concat] at this
  have hhd_notP : s.headAddr ∉ P ++ (d :: DL) := (List.nodup_cons.mp hOnodup).1
  have htail_nodup : (P ++ (d :: DL)).Nodup := (List.nodup_cons.mp hOnodup).2
  have hDL_ne_pred : ∀ a ∈ DL, a ≠ predAt s key abs L := by
    intro a ha hcon
    rcases predAt_cases s key abs L with hcp | hcp
    · rw [hcon, hcp] at ha
      exact hhd_notP (List.mem_append.mpr (Or.inr (by simp [ha])))
    · rw [hcon] at ha
      have hdisj := (List.nodup_append.mp htail_nodup).2.2
      exact hdisj hcp (by simp [ha])
  have hheadP_nodup : (s.headAddr :: P).Nodup := by
    refine List.Nodup.sublist ?_ hOnodup
    exact (List.sublist_append_left P (d :: DL)).cons₂ s.headAddr
  have hlinksP : linksB s' L (s.headAddr :: P) = true := by
    have holdl : linksB s L ((s.headAddr :: P) ++ (d :: DL)) = true := by
      have hshp : (s.headAddr :: P) ++ (d :: DL) =
          s.headAddr :: (P ++ (d :: DL)) := by simp
      rw [hshp]
      exact linksB_of_linkedB s L _ hchain
    have holdP := linksB_prefix s L (s.headAddr :: P) (d :: DL) holdl
    rw [linksB_congr_dropLast s' s L (s.headAddr :: P) ?_]
    · exact holdP
    · intro u hu
      have hne := mem_dropLast_ne_lastD hheadP_nodup hu
      have humem : u ∈ s.headAddr :: filterLevel s abs L := by
        rcases List.mem_cons.mp ((List.dropLast_sublist _).subset hu) with
          hu2 | hu2
        · rw [hu2]; simp
        · exact List.mem_cons_of_mem _ (hPmem u hu2)
      exact H1 u humem hne
  have hDLchain : DL = [] ∨ linkedB s' L DL = true := by
    by_cases hDL : DL = []
    · exact Or.inl hDL
    · refine Or.inr ?_
      have hs0 : linkedB s L ((s.headAddr :: P) ++ (d :: DL)) = true := by
        have hshp : (s.headAddr :: P) ++ (d :: DL) =
            s.headAddr :: (P ++ (d :: DL)) := by simp
        rw [hshp]
        exact hchain
      have hs1 : linkedB s L (d :: DL) = true :=
        linkedB_suffix s L (s.headAddr :: P) (d :: DL) (by simp) hs0
      have hs2 : linkedB s L DL = true :=
        linkedB_suffix s L [d] DL hDL hs1
      rw [linkedB_congr s' s L DL ?_]
      · exact hs2
      · intro a ha
        exact H1 a (List.mem_cons_of_mem _ (hDLmem a ha)) (hDL_ne_pred a ha)
  refine linkedB_glue s' L s.headAddr P DL hlinksP ?_ hDLchain
  exact H3.trans hd_next

/-- The container after the single-delete relink loop: the first level-0
node with key not below `key` is unlinked from every level it occupies; the
shape (heap length, head, keys, values, heights, count field) is untouched. -/
theorem delete_one_state [Inhabited K] [Inhabited V] {s : SL K V}
    {abs : List Nat} (hrep : RepN s abs) (hc : LawfulCmp s.cmp) (key : K)
    {d : Nat} {D : List Nat} (hgs : geSuffix s key abs 0 = d :: D) :
    RepN ((List.range (hOf s d)).foldl
        (fun t i => setNext t ((init_prevs s key (headHeight s)).getD i 0) i
          (nextAt t d i)) s)
      (ltFilter s key abs 0 ++ D) ∧
    SameShape ((List.range (hOf s d)).foldl
        (fun t i => setNext t ((init_prevs s key (headHeight s)).getD i 0) i
          (nextAt t d i)) s) s := by
  have hd_mem : d ∈ abs := mem_geSuffix_mem_abs (by rw [hgs]; simp)
  have hdh := rep_heights hrep d hd_mem
  obtain ⟨hplen, hpget⟩ := init_prevs_spec hrep hc key
  set prevs := init_prevs s key (headHeight s) with hprevsd
  set m := hOf s d with hm
  have hok : ∀ i, i < m → nodeOkB s (prevs.getD i 0) = true ∧
      i < hOf s (prevs.getD i 0) := by
    intro i hi
    have hic : i < headHeight s := by omega
    have hgi : prevs.getD i 0 = predAt s key abs i := hpget i hic
    rw [hgi]
    exact ⟨predAt_ok hrep key i, predAt_hOf hrep key hic⟩
  obtain ⟨hsh, hT⟩ := fold_setNext_read s (fun i => prevs.getD i 0) d m hok
  set s1 := (List.range m).foldl
    (fun t i => setNext t (prevs.getD i 0) i (nextAt t d i)) s with hs1
  have hT' : ∀ a j, nextAt s1 a j =
      if j < m ∧ a = prevs.getD j 0 then nextAt s d j else nextAt s a j := hT
  have hsh' : SameShape s1 s := hsh
  have hT2 : ∀ a j, nextAt s1 a j =
      if j < m ∧ a = predAt s key abs j then nextAt s d j
      else nextAt s a j := by
    intro a j
    rw [hT' a j]
    by_cases hj : j < m
    · rw [hpget j (by omega)]
    · rw [if_neg (by rintro ⟨hc2, -⟩; omega),
        if_neg (by rintro ⟨hc2, -⟩; omega)]
  have hHH : headHeight s1 = headHeight s := hsh'.headHeight_eq
  have hhd : s1.headAddr = s.headAddr := hsh'.2.1
  have hfields := hsh'.2.2.2.2
  have habs := abs_decomp hrep hc key
  set abs2 := ltFilter s key abs 0 ++ D with habs2
  have habs2sub : List.Sublist abs2 abs := by
    rw [habs, hgs]
    exact (List.Sublist.refl _).append (List.sublist_cons_self d D)
  have hmem2 : ∀ a ∈ abs2, a ∈ abs := fun a ha => habs2sub.subset ha
  have hfl1 : ∀ L, filterLevel s1 abs2 L =
      ltFilter s key abs L ++ D.filter (fun a => decide (L < hOf s a)) := by
    intro L
    have hcongr : filterLevel s1 abs2 L = filterLevel s abs2 L := by
      unfold filterLevel
      apply List.filter_congr
      intro a _
      rw [(hfields a).2.1]
    rw [hcongr]
    unfold filterLevel
    rw [habs2, List.filter_append, ← ltFilter_of_zero hrep key L]
  have hgsL : ∀ L, L < hOf s d → geSuffix s key abs L =
      d :: D.filter (fun a => decide (L < hOf s a)) := by
    intro L hLd
    rw [geSuffix_of_zero hrep hc key L, hgs, List.filter_cons,
      if_pos (by simp [hLd])]
  have hgsL2 : ∀ L, hOf s d ≤ L → geSuffix s key abs L =
      D.filter (fun a => decide (L < hOf s a)) := by
    intro L hLd
    rw [geSuffix_of_zero hrep hc key L, hgs, List.filter_cons,
      if_neg (by simp; omega)]
  refine ⟨⟨?_, ?_, ?_, ?_, ?_, ?_⟩, hsh'⟩
  · rw [hhd]
    refine List.Nodup.sublist ?_ (rep_nodup hrep)
    exact habs2sub.cons₂ s.headAddr
  · intro a ha
    rw [hhd] at ha
    rw [(hfields a).2.2.2.2]
    rcases List.mem_cons.mp ha with ha | ha
    · rw [ha]
      exact rep_head_ok hrep
    · exact rep_mem_ok hrep (hmem2 a ha)
  · rw [hHH]
    exact rep_headH hrep
  · intro a ha
    rw [(hfields a).2.1, hHH]
    exact rep_heights hrep a (hmem2 a ha)
  · intro L hL
    rw [hHH] at hL
    rw [hhd, hfl1 L]
    by_cases hLd : L < hOf s d
    · apply remove_level_chain hrep hc key hL (hgsL L hLd)
      · intro a ha hane
        rw [hT2 a L, if_neg (fun hcc => hane hcc.2)]
      · rw [hT2 (predAt s key abs L) L, if_pos ⟨by omega, rfl⟩]
    · have hfla : filterLevel s abs L =
          ltFilter s key abs L ++
            D.filter (fun a => decide (L < hOf s a)) := by
        rw [(fl_split hrep hc key L).1, hgsL2 L (by omega)]
      rw [← hfla, linkedB_congr s1 s L _ ?_]
      · exact rep_chains hrep L hL
      · intro a ha
        rw [hT2 a L, if_neg (by rintro ⟨hcc, -⟩; omega)]
  · have hs := (rep_sorted hrep).sublist habs2sub
    refine List.Pairwise.imp_of_mem ?_ hs
    intro a b ha hb hr
    rw [hsh'.2.2.1, (hfields a).2.2.1, (hfields b).2.2.1]
    exact hr

/-- `skiplist_delete` when the first not-below node matches: that node is
unlinked everywhere, its value reported through the caller's cell, and the
count decremented by one. -/
theorem skiplist_delete_found_spec [Inhabited K] [Inhabited V] {s : SL K V}
    {abs : List Nat} (hrep : RepN s abs) (hc : LawfulCmp s.cmp) {key : K}
    (old : Option (Option V)) {d : Nat} {D : List Nat}
    (hgs : geSuffix s key abs 0 = d :: D)
    (hmatch : s.cmp (kOf s d) key = 0) :
    (skiplist_delete s key old).found = true ∧
    RepN (skiplist_delete s key old).sl (ltFilter s key abs 0 ++ D) ∧
    (skiplist_delete s key old).old = old.map (fun _ => some (vOf s d)) ∧
    (skiplist_delete s key old).sl.count = s.count - 1 ∧
    (skiplist_delete s key old).calls = [] ∧
    (∀ a, kOf (skiplist_delete s key old).sl a = kOf s a ∧
      vOf (skiplist_delete s key old).sl a = vOf s a) ∧
    (skiplist_delete s key old).sl.cmp = s.cmp := by
  have hd_mem : d ∈ abs := mem_geSuffix_mem_abs (by rw [hgs]; simp)
  have hsome := (nodeOkB_props (rep_mem_ok hrep hd_mem)).2.2
  rcases hn : node? s d with _ | dn
  · rw [hn] at hsome
    cases hsome
  case _ =>
  have hkd : kOf s d = dn.k := by
    unfold kOf
    rw [hn]
  have hvd : vOf s d = dn.v := by
    unfold vOf
    rw [hn]
  have hhd2 : hOf s d = dn.h := by
    unfold hOf
    rw [hn]
  have hsucc0 := succ0_eval hrep hc key
  have hdoomed : nextAt s ((init_prevs s key (headHeight s)).getD 0 0) 0
      = d := by
    rw [hsucc0, hgs]
    rfl
  have hne0 : ¬ (s.cmp dn.k key ≠ 0) := by
    rw [← hkd]
    simpa using hmatch
  have heval : skiplist_delete s key old =
      ⟨true,
       { (List.range (hOf s d)).foldl
           (fun t i => setNext t ((init_prevs s key (headHeight s)).getD i 0)
             i (nextAt t d i)) s with
         count := ((List.range (hOf s d)).foldl
           (fun t i => setNext t ((init_prevs s key (headHeight s)).getD i 0)
             i (nextAt t d i)) s).count - 1 },
       old.map (fun _ => some (vOf s d)), []⟩ := by
    rw [hvd, hhd2]
    simp only [skiplist_delete, delete_one_or_all, hdoomed, hn, if_neg hne0]
    rw [if_pos trivial]
  obtain ⟨hrepn, hshape⟩ := delete_one_state hrep hc key hgs
  refine ⟨by rw [heval], ?_, by rw [heval], ?_, by rw [heval], ?_, ?_⟩
  · rw [heval]
    exact repN_setCount hrepn _
  · rw [heval, count_sub, hshape.1]
  · intro a
    rw [heval, kOf_setCount, vOf_setCount]
    exact ⟨(hshape.2.2.2.2 a).2.2.1, (hshape.2.2.2.2 a).2.2.2.1⟩
  · rw [heval, cmp_setCount]
    exact hshape.2.2.1

/-- `skiplist_delete` when no stored key compares equal: not found, nothing
changes. -/
theorem skiplist_delete_notfound_spec [Inhabited K] [Inhabited V] {s : SL K V}
    {abs : List Nat} (hrep : RepN s abs) (hc : LawfulCmp s.cmp) {key : K}
    (old : Option (Option V))
    (hne : ∀ a ∈ abs, s.cmp (kOf s a) key ≠ 0) :
    skiplist_delete s key old = ⟨false, s, old, []⟩ := by
  have hsucc0 := succ0_eval hrep hc key
  rcases hgs : geSuffix s key abs 0 with _ | ⟨d, D⟩
  · have hdoomed : nextAt s ((init_prevs s key (headHeight s)).getD 0 0) 0
        = 0 := by
      rw [hsucc0, hgs]
      rfl
    simp only [skiplist_delete, delete_one_or_all, hdoomed]
    rfl
  · have hd_mem : d ∈ abs := mem_geSuffix_mem_abs (by rw [hgs]; simp)
    have hsome := (nodeOkB_props (rep_mem_ok hrep hd_mem)).2.2
    rcases hn : node? s d with _ | dn
    · rw [hn] at hsome
      cases hsome
    · have hkd : kOf s d = dn.k := by
        unfold kOf
        rw [hn]
      have hne1 : s.cmp dn.k key ≠ 0 := by
        rw [← hkd]
        exact hne d hd_mem
      have hdoomed : nextAt s ((init_prevs s key (headHeight s)).getD 0 0) 0
          = d := by
        rw [hsucc0, hgs]
        rfl
      simp only [skiplist_delete, delete_one_or_all, hdoomed, hn,
        if_pos hne1]

theorem lastD_irrel {α : Type} (d d' : α) :
    ∀ (l : List α), l ≠ [] → lastD d l = lastD d' l
  | [], h => absurd rfl h
  | x :: xs, _ => by
    rw [lastD_cons, lastD_cons]

theorem foldl_max_le {f : Nat → Nat} {c : Nat} :
    ∀ (l : List Nat) (b : Nat), b ≤ c → (∀ x ∈ l, f x ≤ c) →
      l.foldl (fun t e => max t (f e)) b ≤ c
  | [], b, hb, _ => hb
  | x :: xs, b, hb, hl => by
    rw [List.foldl_cons]
    exact foldl_max_le xs (max b (f x))
      (by have := hl x (by simp); omega)
      (fun y hy => hl y (by simp [hy]))

theorem lt_foldl_max {f : Nat → Nat} {i : Nat} :
    ∀ (l : List Nat) (b : Nat),
      i < l.foldl (fun t e => max t (f e)) b → i < b ∨ ∃ x ∈ l, i < f x
  | [], b, h => Or.inl h
  | x :: xs, b, h => by
    rw [List.foldl_cons] at h
    rcases lt_foldl_max xs (max b (f x)) h with h2 | ⟨y, hy, hy2⟩
    · rcases lt_max_iff.mp h2 with h3 | h3
      · exact Or.inl h3
      · exact Or.inr ⟨x, by simp, h3⟩
    · exact Or.inr ⟨y, by simp [hy], hy2⟩

theorem foldl_max_base_le (f : Nat → Nat) :
    ∀ (l : List Nat) (b : Nat), b ≤ l.foldl (fun t e => max t (f e)) b
  | [], _ => le_refl _
  | x :: xs, b => by
    rw [List.foldl_cons]
    exact le_trans (le_max_left _ _) (foldl_max_base_le f xs (max b (f x)))

theorem le_foldl_max (f : Nat → Nat) :
    ∀ (l : List Nat) (b : Nat), ∀ x ∈ l, f x ≤
      l.foldl (fun t e => max t (f e)) b
  | [], _, x, hx => by simp at hx
  | y :: ys, b, x, hx => by
    rw [List.foldl_cons]
    rcases List.mem_cons.mp hx with hx | hx
    · subst hx
      exact le_trans (le_max_right _ _) (foldl_max_base_le _ ys _)
    · exact le_foldl_max f ys (max b (f y)) x hx

/-- The level-`L` chain after unlinking a whole run `El`: the per-level
predecessor is pointed at the first survivor, everything else keeps its
links. -/
theorem remove_run_level_chain [Inhabited K] {s s' : SL K V} {abs : List Nat}
    (hrep : RepN s abs) (hc : LawfulCmp s.cmp) (key : K)
    {El Gl : List Nat} {L : Nat} (hL : L < headHeight s)
    (hgsL : geSuffix s key abs L = El ++ Gl)
    (H1 : ∀ a ∈ s.headAddr :: filterLevel s abs L,
        a ≠ predAt s key abs L → nextAt s' a L = nextAt s a L)
    (H3 : nextAt s' (predAt s key abs L) L = Gl.headD 0) :
    linkedB s' L (s.headAddr :: (ltFilter s key abs L ++ Gl)) = true := by
  obtain ⟨hsplit, -⟩ := fl_split hrep hc key L
  have hchain : linkedB s L
      (s.headAddr :: (ltFilter s key abs L ++ (El ++ Gl))) = true := by
    rw [← hgsL, ← hsplit]
    exact rep_chains hrep L hL
  have hOnodup : (s.headAddr :: (ltFilter s key abs L ++ (El ++ Gl))).Nodup := by
    rw [← hgsL, ← hsplit]
    refine List.Nodup.sublist ?_ (rep_nodup hrep)
    exact (List.filter_sublist abs).cons₂ s.headAddr
  set P := ltFilter s key abs L with hP
  have hPmem : ∀ a ∈ P, a ∈ filterLevel s abs L := by
    intro a ha
    rw [hsplit]
    exact List.mem_append.mpr (Or.inl ha)
  have hGLmem : ∀ a ∈ Gl, a ∈ filterLevel s abs L := by
    intro a ha
    rw [hsplit, hgsL]
    exact List.mem_append.mpr (Or.inr (List.mem_append.mpr (Or.inr ha)))
  have hhd_notP : s.headAddr ∉ P ++ (El ++ Gl) := (List.nodup_cons.mp hOnodup).1
  have htail_nodup : (P ++ (El ++ Gl)).Nodup := (List.nodup_cons.mp hOnodup).2
  have hGL_ne_pred : ∀ a ∈ Gl, a ≠ predAt s key abs L := by
    intro a ha hcon
    rcases predAt_cases s key abs L with hcp | hcp
    · rw [hcon, hcp] at ha
      exact hhd_notP (List.mem_append.mpr
        (Or.inr (List.mem_append.mpr (Or.inr ha))))
    · rw [hcon] at ha
      have hdisj := (List.nodup_append.mp htail_nodup).2.2
      exact hdisj hcp (List.mem_append.mpr (Or.inr ha))
  have hheadP_nodup : (s.headAddr :: P).Nodup := by
    refine List.Nodup.sublist ?_ hOnodup
    exact (List.sublist_append_left P (El ++ Gl)).cons₂ s.headAddr
  have hlinksP : linksB s' L (s.headAddr :: P) = true := by
    have holdl : linksB s L ((s.headAddr :: P) ++ (El ++ Gl)) = true := by
      have hshp : (s.headAddr :: P) ++ (El ++ Gl) =
          s.headAddr :: (P ++ (El ++ Gl)) := by simp
      rw [hshp]
      exact linksB_of_linkedB s L _ hchain
    have holdP := linksB_prefix s L (s.headAddr :: P) (El ++ Gl) holdl
    rw [linksB_congr_dropLast s' s L (s.headAddr :: P) ?_]
    · exact holdP
    · intro u hu
      have hne := mem_dropLast_ne_lastD hheadP_nodup hu
      have humem : u ∈ s.headAddr :: filterLevel s abs L := by
        rcases List.mem_cons.mp ((List.dropLast_sublist _).subset hu) with
          hu2 | hu2
        · rw [hu2]; simp
        · exact List.mem_cons_of_mem _ (hPmem u hu2)
      exact H1 u humem hne
  have hGLchain : Gl = [] ∨ linkedB s' L Gl = true := by
    by_cases hGL : Gl = []
    · exact Or.inl hGL
    · refine Or.inr ?_
      have hs0 : linkedB s L (((s.headAddr :: P) ++ El) ++ Gl) = true := by
        have hshp : ((s.headAddr :: P) ++ El) ++ Gl =
            s.headAddr :: (P ++ (El ++ Gl)) := by simp
        rw [hshp]
        exact hchain
      have hs2 : linkedB s L Gl = true :=
        linkedB_suffix s L ((s.headAddr :: P) ++ El) Gl hGL hs0
      rw [linkedB_congr s' s L Gl ?_]
      · exact hs2
      · intro a ha
        exact H1 a (List.mem_cons_of_mem _ (hGLmem a ha)) (hGL_ne_pred a ha)
  refine linkedB_glue s' L s.headAddr P Gl hlinksP ?_ hGLchain
  exact H3

theorem node?_props [Inhabited K] [Inhabited V] {s : SL K V} {abs : List Nat}
    (hrep : RepN s abs) {x : Nat} (hx : x ∈ abs) :
    ∃ n, node? s x = some n ∧ n.k = kOf s x ∧ n.v = vOf s x ∧
      n.h = hOf s x ∧ ∀ i, n.next.getD i 0 = nextAt s x i := by
  have hsome := (nodeOkB_props (rep_mem_ok hrep hx)).2.2
  rcases hn : node? s x with _ | n
  · rw [hn] at hsome
    cases hsome
  · refine ⟨n, rfl, ?_, ?_, ?_, ?_⟩
    · unfold kOf
      rw [hn]
    · unfold vOf
      rw [hn]
    · unfold hOf
      rw [hn]
    · intro i
      unfold nextAt
      rw [hn]

/-- The delete-all walk along a run `e :: E'` of comparator-equal nodes
followed by the survivors `Gl`: the callback trace records the search key and
each doomed value in order, `tdh` accumulates the doomed heights, and the
`nexts` array ends up holding, per level, the forward pointer of the last
doomed node occupying that level. -/
theorem deleteAllWalk_spec [Inhabited K] [Inhabited V] {s : SL K V}
    {abs : List Nat} (hrep : RepN s abs) (key : K) :
    ∀ (E' : List Nat) (e : Nat) (Gl : List Nat) (fuel : Nat)
      (nexts : List Nat) (tdh : Nat) (calls : List (K × V)),
      E'.length + 1 ≤ fuel →
      (∀ x ∈ e :: E', x ∈ abs ∧ s.cmp (kOf s x) key = 0) →
      (∀ g ∈ Gl, g ∈ abs ∧ s.cmp (kOf s g) key ≠ 0) →
      linkedB s 0 ((e :: E') ++ Gl) = true →
      (deleteAllWalk s key fuel e nexts tdh calls).2.2 =
          calls ++ (e :: E').map (fun x => (key, vOf s x)) ∧
        (deleteAllWalk s key fuel e nexts tdh calls).2.1 =
          (e :: E').foldl (fun t x => max t (hOf s x)) tdh ∧
        (deleteAllWalk s key fuel e nexts tdh calls).1.length =
          nexts.length ∧
        ∀ L d, (deleteAllWalk s key fuel e nexts tdh calls).1.getD L d =
          if ((e :: E').filter (fun x => decide (L < hOf s x))) ≠ [] ∧
              L < nexts.length then
            nextAt s
              (lastD 0 ((e :: E').filter (fun x => decide (L < hOf s x)))) L
          else nexts.getD L d := by
  intro E'
  induction E' with
  | nil =>
    intro e Gl fuel nexts tdh calls hfuel hE hG hlk
    rcases fuel with _ | f
    · omega
    obtain ⟨en, hn, hkn, hvn, hhn, hnx⟩ := node?_props hrep (hE e (by simp)).1
    have hb : nextAt s e 0 = Gl.headD 0 := by
      have hb0 := linkedB_break s 0 e [] Gl (by simpa using hlk)
      simpa [lastD] using hb0
    have hnxt : en.next.getD 0 0 = Gl.headD 0 := (hnx 0).trans hb
    have hres : (match node? s (Gl.headD 0) with
        | none => (-1 : Int)
        | some nx => s.cmp nx.k key) ≠ 0 := by
      rcases hGl : Gl with _ | ⟨g, G'⟩
      · simp [node?]
      · obtain ⟨gn, hgn, hkg, -, -, -⟩ :=
          node?_props hrep (hG g (by rw [hGl]; simp)).1
        rw [List.headD_cons, hgn]
        show s.cmp gn.k key ≠ 0
        rw [hkg]
        exact (hG g (by rw [hGl]; simp)).2
    have heval : deleteAllWalk s key (f + 1) e nexts tdh calls =
        ((List.range en.h).foldl (fun ns i => ns.set i (en.next.getD i 0))
           nexts,
         max tdh en.h, calls ++ [(key, en.v)]) := by
      simp only [deleteAllWalk, hn]
      rw [hnxt, if_neg hres]
    obtain ⟨hfl, hfT⟩ := fold_set_getD nexts (fun i => en.next.getD i 0) en.h
    have hfoldlen' : ((List.range en.h).foldl
        (fun ns i => ns.set i (en.next.getD i 0)) nexts).length =
        nexts.length := hfl
    have hfoldT' : ∀ j d2, ((List.range en.h).foldl
        (fun ns i => ns.set i (en.next.getD i 0)) nexts).getD j d2 =
        if j < en.h ∧ j < nexts.length then en.next.getD j 0
        else nexts.getD j d2 := hfT
    have heval1 : (deleteAllWalk s key (f + 1) e nexts tdh calls).1 =
        (List.range en.h).foldl (fun ns i => ns.set i (en.next.getD i 0))
          nexts := by rw [heval]
    have heval2 : (deleteAllWalk s key (f + 1) e nexts tdh calls).2.1 =
        max tdh en.h := by rw [heval]
    have heval3 : (deleteAllWalk s key (f + 1) e nexts tdh calls).2.2 =
        calls ++ [(key, en.v)] := by rw [heval]
    refine ⟨?_, ?_, ?_, ?_⟩
    · rw [heval3]
      simp [hvn]
    · rw [heval2]
      simp [hhn]
    · rw [heval1, hfoldlen']
    · intro L d
      rw [heval1, hfoldT' L d]
      by_cases hLn : L < nexts.length
      · by_cases hPe : L < hOf s e
        · have hbig : (e :: ([] : List Nat)).filter
              (fun x => decide (L < hOf s x)) = [e] := by
            simp [hPe]
          rw [if_pos ⟨by omega, hLn⟩, hbig, if_pos ⟨by simp, hLn⟩, hnx L]
          rfl
        · have hbig : (e :: ([] : List Nat)).filter
              (fun x => decide (L < hOf s x)) = [] := by
            simp [hPe]
          rw [if_neg (by rintro ⟨h1, -⟩; omega), hbig, if_neg (by simp)]
      · rw [if_neg (by rintro ⟨-, h2⟩; omega),
          if_neg (by rintro ⟨-, h2⟩; omega)]
  | cons e' E'' ih =>
    intro e Gl fuel nexts tdh calls hfuel hE hG hlk
    rcases fuel with _ | f
    · simp at hfuel
    obtain ⟨en, hn, hkn, hvn, hhn, hnx⟩ := node?_props hrep (hE e (by simp)).1
    obtain ⟨en', hn', hkn', -, -, -⟩ := node?_props hrep (hE e' (by simp)).1
    have hb : nextAt s e 0 = e' := by
      have hb0 := linkedB_break s 0 e [] ((e' :: E'') ++ Gl)
        (by simpa using hlk)
      simpa [lastD] using hb0
    have hnxt : en.next.getD 0 0 = e' := (hnx 0).trans hb
    have hres : (match node? s e' with
        | none => (-1 : Int)
        | some nx => s.cmp nx.k key) = 0 := by
      rw [hn']
      show s.cmp en'.k key = 0
      rw [hkn']
      exact (hE e' (by simp)).2
    have heval : deleteAllWalk s key (f + 1) e nexts tdh calls =
        deleteAllWalk s key f e'
          ((List.range en.h).foldl (fun ns i => ns.set i (en.next.getD i 0))
            nexts)
          (max tdh en.h) (calls ++ [(key, en.v)]) := by
      simp only [deleteAllWalk, hn]
      rw [hnxt, if_pos hres]
    have hE' : ∀ x ∈ e' :: E'', x ∈ abs ∧ s.cmp (kOf s x) key = 0 :=
      fun x hx => hE x (List.mem_cons_of_mem e hx)
    have hlk' : linkedB s 0 ((e' :: E'') ++ Gl) = true :=
      linkedB_suffix s 0 [e] ((e' :: E'') ++ Gl) (by simp) (by simpa using hlk)
    obtain ⟨ih1, ih2, ih3, ih4⟩ := ih e' Gl f
      ((List.range en.h).foldl (fun ns i => ns.set i (en.next.getD i 0)) nexts)
      (max tdh en.h) (calls ++ [(key, en.v)])
      (by simp only [List.length_cons] at hfuel; omega) hE' hG hlk'
    obtain ⟨hfl, hfT⟩ := fold_set_getD nexts (fun i => en.next.getD i 0) en.h
    have hfoldlen' : ((List.range en.h).foldl
        (fun ns i => ns.set i (en.next.getD i 0)) nexts).length =
        nexts.length := hfl
    have hfoldT' : ∀ j d2, ((List.range en.h).foldl
        (fun ns i => ns.set i (en.next.getD i 0)) nexts).getD j d2 =
        if j < en.h ∧ j < nexts.length then en.next.getD j 0
        else nexts.getD j d2 := hfT
    refine ⟨?_, ?_, ?_, ?_⟩
    · rw [heval, ih1]
      simp [hvn]
    · rw [heval, ih2]
      simp [hhn]
    · rw [heval, ih3, hfoldlen']
    · intro L d
      rw [heval, ih4 L d, hfoldlen']
      by_cases hLn : L < nexts.length
      · by_cases hrfe : (e' :: E'').filter (fun x => decide (L < hOf s x)) = []
        · rw [hrfe, if_neg (by simp), hfoldT' L d]
          by_cases hPe : L < hOf s e
          · have hbig : (e :: e' :: E'').filter
                (fun x => decide (L < hOf s x)) = [e] := by
              rw [List.filter_cons, hrfe, if_pos (by simp [hPe])]
            rw [if_pos ⟨by omega, hLn⟩, hbig, if_pos ⟨by simp, hLn⟩, hnx L]
            rfl
          · have hbig : (e :: e' :: E'').filter
                (fun x => decide (L < hOf s x)) = [] := by
              rw [List.filter_cons, hrfe, if_neg (by simp [hPe])]
            rw [if_neg (by rintro ⟨h1, -⟩; omega), hbig, if_neg (by simp)]
        · rw [if_pos ⟨hrfe, hLn⟩]
          by_cases hPe : L < hOf s e
          · have hbig : (e :: e' :: E'').filter
                (fun x => decide (L < hOf s x)) =
                e :: (e' :: E'').filter (fun x => decide (L < hOf s x)) := by
              rw [List.filter_cons, if_pos (by simp [hPe])]
            have hlst : lastD 0 (e :: (e' :: E'').filter
                (fun x => decide (L < hOf s x))) =
                lastD 0 ((e' :: E'').filter (fun x => decide (L < hOf s x)))
                := by
              rw [lastD_cons]
              exact lastD_irrel e 0 _ hrfe
            rw [hbig, if_pos ⟨by simp, hLn⟩, hlst]
          · have hbig : (e :: e' :: E'').filter
                (fun x => decide (L < hOf s x)) =
                (e' :: E'').filter (fun x => decide (L < hOf s x)) := by
              rw [List.filter_cons, if_neg (by simp [hPe])]
            rw [hbig, if_pos ⟨hrfe, hLn⟩]
      · rw [if_neg (by rintro ⟨-, h2⟩; omega), hfoldT' L d,
          if_neg (by rintro ⟨-, h2⟩; omega),
          if_neg (by rintro ⟨-, h2⟩; omega)]

theorem dropWhile_head_not {α : Type} (p : α → Bool) :
    ∀ (l : List α) {x : α} {xs : List α}, l.dropWhile p = x :: xs →
      p x = false
  | [], x, xs, h => by simp [List.dropWhile] at h
  | y :: ys, x, xs, h => by
    cases hy : p y with
    | false =>
      rw [List.dropWhile_cons_of_neg (by simp [hy])] at h
      injection h with h1 h2
      rw [← h1]
      exact hy
    | true =>
      rw [List.dropWhile_cons_of_pos hy] at h
      exact dropWhile_head_not p ys h

/-- The sorted suffix splits into the run of comparator-equal nodes (exactly
the equal-keyed members of `abs`, in order) followed by the strictly-greater
survivors; the non-equal members are the smaller prefix plus those
survivors. -/
theorem geSuffix_run_split [Inhabited K] {s : SL K V} {abs : List Nat}
    (hrep : RepN s abs) (hc : LawfulCmp s.cmp) (key : K) :
    geSuffix s key abs 0 =
      abs.filter (fun a => decide (s.cmp (kOf s a) key = 0)) ++
        (geSuffix s key abs 0).dropWhile
          (fun a => decide (s.cmp (kOf s a) key = 0)) ∧
    (∀ g ∈ (geSuffix s key abs 0).dropWhile
        (fun a => decide (s.cmp (kOf s a) key = 0)),
      0 < s.cmp (kOf s g) key) ∧
    abs.filter (fun a => decide (¬ s.cmp (kOf s a) key = 0)) =
      ltFilter s key abs 0 ++ (geSuffix s key abs 0).dropWhile
        (fun a => decide (s.cmp (kOf s a) key = 0)) := by
  obtain ⟨hsplit0, hge0⟩ := fl_split hrep hc key 0
  rw [filterLevel_zero hrep] at hsplit0
  set p := fun a => decide (s.cmp (kOf s a) key = 0) with hp
  set E := (geSuffix s key abs 0).takeWhile p with hE
  set G := (geSuffix s key abs 0).dropWhile p with hG
  have hEG : geSuffix s key abs 0 = E ++ G :=
    (List.takeWhile_append_dropWhile p _).symm
  have hEeq : ∀ e ∈ E, s.cmp (kOf s e) key = 0 := by
    intro e he
    rw [hE] at he
    have := List.mem_takeWhile_imp he
    simpa [hp] using this
  have hge : ∀ b ∈ geSuffix s key abs 0, 0 ≤ s.cmp (kOf s b) key := by
    intro b hb
    have h1 := hge0 b hb
    have hsome :=
      (nodeOkB_props (rep_mem_ok hrep (mem_geSuffix_mem_abs hb))).2.2
    rw [cmpRes_eq_of_isSome hsome key] at h1
    omega
  have hGsubGe : ∀ g ∈ G, g ∈ geSuffix s key abs 0 := by
    intro g hg
    rw [hEG]
    exact List.mem_append.mpr (Or.inr hg)
  have hGeSub : List.Sublist (geSuffix s key abs 0) abs := by
    have h3 : List.Sublist (geSuffix s key abs 0) (filterLevel s abs 0) := by
      unfold geSuffix
      exact List.dropWhile_sublist _
    rwa [filterLevel_zero hrep] at h3
  have hGgt : ∀ g ∈ G, 0 < s.cmp (kOf s g) key := by
    rcases hGnil : G with _ | ⟨g0, G'⟩
    · intro g hg
      simp at hg
    · have hg0p : p g0 = false :=
        dropWhile_head_not p (geSuffix s key abs 0) (by rw [← hG]; exact hGnil)
      have hg0ge := hge g0 (hGsubGe g0 (by rw [hGnil]; simp))
      have hg0ne : s.cmp (kOf s g0) key ≠ 0 := by
        intro hcc
        rw [hp] at hg0p
        simp [hcc] at hg0p
      have hg0gt : 0 < s.cmp (kOf s g0) key := by omega
      intro g hg
      rcases List.mem_cons.mp hg with hg | hg
      · rw [hg]
        exact hg0gt
      · have h1 : List.Sublist G (geSuffix s key abs 0) := by
          rw [hG]
          exact List.dropWhile_sublist _
        have hsubl : List.Sublist (g0 :: G') abs := by
          rw [← hGnil]
          exact h1.trans hGeSub
        have hGsorted : (g0 :: G').Pairwise
            (fun a b => s.cmp (kOf s a) (kOf s b) ≤ 0) :=
          (rep_sorted hrep).sublist hsubl
        have hle := (List.pairwise_cons.mp hGsorted).1 g hg
        have hlt0 : s.cmp key (kOf s g0) < 0 :=
          (hc.flip key (kOf s g0)).mpr hg0gt
        have hlt : s.cmp key (kOf s g) < 0 := hc.lt_of_lt_of_le hlt0 hle
        exact (hc.flip key (kOf s g)).mp hlt
  have hltne : ∀ a ∈ ltFilter s key abs 0, s.cmp (kOf s a) key < 0 := by
    intro a ha
    have := (List.mem_filter.mp ha).2
    have hsome :=
      (nodeOkB_props (rep_mem_ok hrep (mem_ltFilter_mem_abs ha))).2.2
    rw [cmpRes_eq_of_isSome hsome key] at this
    simpa using this
  have hEfilter : abs.filter p = E := by
    conv_lhs => rw [hsplit0, hEG]
    rw [List.filter_append, List.filter_append]
    have h1 : (ltFilter s key abs 0).filter p = [] := by
      rw [List.filter_eq_nil]
      intro a ha
      have := hltne a ha
      simp only [hp, decide_eq_true_eq]
      omega
    have h2 : E.filter p = E := List.filter_eq_self.mpr (fun a ha => by
      have := hEeq a ha
      simp only [hp, decide_eq_true_eq]
      exact this)
    have h3 : G.filter p = [] := by
      rw [List.filter_eq_nil]
      intro a ha
      have := hGgt a ha
      simp only [hp, decide_eq_true_eq]
      omega
    rw [h1, h2, h3]
    simp
  have hNefilter : abs.filter (fun a => decide (¬ s.cmp (kOf s a) key = 0)) =
      ltFilter s key abs 0 ++ G := by
    conv_lhs => rw [hsplit0, hEG]
    rw [List.filter_append, List.filter_append]
    have h1 : (ltFilter s key abs 0).filter
        (fun a => decide (¬ s.cmp (kOf s a) key = 0)) =
        ltFilter s key abs 0 := List.filter_eq_self.mpr (fun a ha => by
      have := hltne a ha
      simp only [decide_eq_true_eq]
      omega)
    have h2 : E.filter (fun a => decide (¬ s.cmp (kOf s a) key = 0)) = [] := by
      rw [List.filter_eq_nil]
      intro a ha
      have := hEeq a ha
      simp only [decide_eq_true_eq]
      omega
    have h3 : G.filter (fun a => decide (¬ s.cmp (kOf s a) key = 0)) = G :=
      List.filter_eq_self.mpr (fun a ha => by
        have := hGgt a ha
        simp only [decide_eq_true_eq]
        omega)
    rw [h1, h2, h3]
    simp
  refine ⟨?_, hGgt, hNefilter⟩
  rw [hEfilter]
  exact hEG

theorem lastD_append_ne {α : Type} (d d' : α) (P : List α) :
    ∀ {El : List α}, El ≠ [] → lastD d (P ++ El) = lastD d' El
  | [], h => absurd rfl h
  | x :: xs, _ => by
    rw [lastD_append_cons, lastD_cons]

/-- `skiplist_delete_all` on a container whose sorted order puts the
comparator-equal run `E` (nonempty) right before the strictly-greater
survivors `G`: every node of `E` is unlinked, the callback trace pairs the
search key with each doomed value in order, the count drops by the run
length, and the C return value is `false`. -/
theorem skiplist_delete_all_found_spec [Inhabited K] [Inhabited V]
    {s : SL K V} {abs : List Nat} (hrepn : RepN s abs) (hc : LawfulCmp s.cmp)
    {key : K} {E G : List Nat} (hgs : geSuffix s key abs 0 = E ++ G)
    (hEeq : ∀ e ∈ E, s.cmp (kOf s e) key = 0)
    (hGgt : ∀ g ∈ G, 0 < s.cmp (kOf s g) key)
    (hEne : E ≠ []) :
    (skiplist_delete_all s key).found = false ∧
    (skiplist_delete_all s key).calls = E.map (fun x => (key, vOf s x)) ∧
    RepN (skiplist_delete_all s key).sl (ltFilter s key abs 0 ++ G) ∧
    (skiplist_delete_all s key).sl.count = s.count - E.length ∧
    (skiplist_delete_all s key).old = none ∧
    (∀ a, kOf (skiplist_delete_all s key).sl a = kOf s a ∧
      vOf (skiplist_delete_all s key).sl a = vOf s a) ∧
    (skiplist_delete_all s key).sl.cmp = s.cmp := by
  have hH0 : 0 < headHeight s := rep_headH hrepn
  have hEmem : ∀ x ∈ E, x ∈ abs := by
    intro x hx
    exact mem_geSuffix_mem_abs
      (by rw [hgs]; exact List.mem_append.mpr (Or.inl hx))
  have hGmem : ∀ g ∈ G, g ∈ abs := by
    intro g hg
    exact mem_geSuffix_mem_abs
      (by rw [hgs]; exact List.mem_append.mpr (Or.inr hg))
  rcases E with _ | ⟨e, E'⟩
  · exact absurd rfl hEne
  obtain ⟨en, hn, hkn, hvn, hhn, hnx⟩ := node?_props hrepn (hEmem e (by simp))
  have hsucc0 := succ0_eval hrepn hc key
  have hdoomed : nextAt s ((init_prevs s key (headHeight s)).getD 0 0) 0
      = e := by
    rw [hsucc0, hgs]
    rfl
  have hne0 : ¬ (s.cmp en.k key ≠ 0) := by
    rw [hkn]
    simpa using hEeq e (by simp)
  have habs := abs_decomp hrepn hc key
  have hchain0 : linkedB s 0 ((e :: E') ++ G) = true := by
    have hch := rep_chains hrepn 0 hH0
    rw [filterLevel_zero hrepn] at hch
    have hsh2 : s.headAddr :: abs =
        (s.headAddr :: ltFilter s key abs 0) ++ ((e :: E') ++ G) := by
      conv_lhs => rw [habs, hgs]
      simp
    rw [hsh2] at hch
    exact linkedB_suffix s 0 _ _ (by simp) hch
  have hGeSub : List.Sublist (geSuffix s key abs 0) abs := by
    have h3 : List.Sublist (geSuffix s key abs 0) (filterLevel s abs 0) := by
      unfold geSuffix
      exact List.dropWhile_sublist _
    rwa [filterLevel_zero hrepn] at h3
  have hfuel : E'.length + 1 ≤ s.heap.length + 1 := by
    have hsub : List.Sublist (e :: E') abs := by
      have h1 : List.Sublist ((e :: E') ++ G) abs := by
        rw [← hgs]
        exact hGeSub
      exact (List.sublist_append_left (e :: E') G).trans h1
    have hl1 := hsub.length_le
    have hl2 := rep_abs_len hrepn
    simp only [List.length_cons] at hl1
    omega
  have hEin : ∀ x ∈ e :: E', x ∈ abs ∧ s.cmp (kOf s x) key = 0 :=
    fun x hx => ⟨hEmem x hx, hEeq x hx⟩
  have hGin : ∀ g ∈ G, g ∈ abs ∧ s.cmp (kOf s g) key ≠ 0 :=
    fun g hg => ⟨hGmem g hg, by have := hGgt g hg; omega⟩
  obtain ⟨hw3, hw2, hw1len, hw1T⟩ := deleteAllWalk_spec hrepn key E' e G
    (s.heap.length + 1) (List.replicate (headHeight s) 0) 0 [] hfuel hEin
    hGin hchain0
  set tdh := (e :: E').foldl (fun t x => max t (hOf s x)) 0 with htdh
  have htdh_le : tdh ≤ headHeight s := by
    rw [htdh]
    exact foldl_max_le _ _ (by omega)
      (fun x hx => (rep_heights hrepn x (hEmem x hx)).2)
  have htdh_ex : ∀ i, i < tdh → (e :: E').filter
      (fun x => decide (i < hOf s x)) ≠ [] := by
    intro i hi
    rw [htdh] at hi
    rcases lt_foldl_max _ _ hi with h0 | ⟨x, hx, hx2⟩
    · omega
    · intro hcc
      have hxm : x ∈ (e :: E').filter (fun x => decide (i < hOf s x)) :=
        List.mem_filter.mpr ⟨hx, by simpa using hx2⟩
      rw [hcc] at hxm
      simp at hxm
  have htdh_all : ∀ x ∈ e :: E', hOf s x ≤ tdh := by
    intro x hx
    rw [htdh]
    exact le_foldl_max _ _ _ x hx
  obtain ⟨hplen, hpget⟩ := init_prevs_spec hrepn hc key
  set prevs := init_prevs s key (headHeight s) with hprevs
  have hok : ∀ i, i < tdh → nodeOkB s (prevs.getD i 0) = true ∧
      i < hOf s (prevs.getD i 0) := by
    intro i hi
    have hic : i < headHeight s := by omega
    rw [hpget i hic]
    exact ⟨predAt_ok hrepn key i, predAt_hOf hrepn key hic⟩
  set W := deleteAllWalk s key (s.heap.length + 1) e
    (List.replicate (headHeight s) 0) 0 [] with hW
  obtain ⟨hsh, hT⟩ := fold_setNext_fixed s (fun i => prevs.getD i 0)
    (fun i => W.1.getD i 0) tdh hok
  set s1 := (List.range tdh).foldl
    (fun t i => setNext t (prevs.getD i 0) i (W.1.getD i 0)) s with hs1
  have hT' : ∀ a j, nextAt s1 a j =
      if j < tdh ∧ a = prevs.getD j 0 then W.1.getD j 0
      else nextAt s a j := hT
  have hsh' : SameShape s1 s := hsh
  have hw2raw : (deleteAllWalk s key (s.heap.length + 1) e
      (List.replicate (headHeight s) 0) 0 []).2.1 = tdh := hw2
  have heval : skiplist_delete_all s key =
      ⟨false, { s1 with count := s1.count - W.2.2.length }, none, W.2.2⟩ := by
    simp only [skiplist_delete_all, delete_one_or_all, hdoomed, hn,
      if_neg hne0]
    rw [if_neg (show ¬ (true = false) by simp), hw2raw]
  have hT2 : ∀ a j, nextAt s1 a j =
      if j < tdh ∧ a = predAt s key abs j then W.1.getD j 0
      else nextAt s a j := by
    intro a j
    rw [hT' a j]
    by_cases hj : j < tdh
    · rw [hpget j (by omega)]
    · rw [if_neg (by rintro ⟨hc2, -⟩; omega),
        if_neg (by rintro ⟨hc2, -⟩; omega)]
  have hWval : ∀ j, j < tdh → W.1.getD j 0 =
      nextAt s (lastD 0 ((e :: E').filter
        (fun x => decide (j < hOf s x)))) j := by
    intro j hj
    rw [hw1T j 0,
      if_pos ⟨htdh_ex j hj, by rw [List.length_replicate]; omega⟩]
  have hgsL : ∀ L, geSuffix s key abs L =
      (e :: E').filter (fun x => decide (L < hOf s x)) ++
        G.filter (fun x => decide (L < hOf s x)) := by
    intro L
    rw [geSuffix_of_zero hrepn hc key L, hgs, List.filter_append]
  have hbridge : ∀ L, L < tdh →
      nextAt s (lastD 0 ((e :: E').filter
        (fun x => decide (L < hOf s x)))) L =
      (G.filter (fun x => decide (L < hOf s x))).headD 0 := by
    intro L hL
    have hLc : L < headHeight s := by omega
    have hch := rep_chains hrepn L hLc
    have hform : s.headAddr :: filterLevel s abs L =
        s.headAddr :: ((ltFilter s key abs L ++
          (e :: E').filter (fun x => decide (L < hOf s x))) ++
          G.filter (fun x => decide (L < hOf s x))) := by
      rw [(fl_split hrepn hc key L).1, hgsL L]
      simp
    rw [hform] at hch
    have hbk := linkedB_break s L s.headAddr
      (ltFilter s key abs L ++
        (e :: E').filter (fun x => decide (L < hOf s x)))
      (G.filter (fun x => decide (L < hOf s x))) hch
    rwa [lastD_append_ne s.headAddr 0 _ (htdh_ex L hL)] at hbk
  have hfields := hsh'.2.2.2.2
  have hHH : headHeight s1 = headHeight s := hsh'.headHeight_eq
  have hhd : s1.headAddr = s.headAddr := hsh'.2.1
  set abs2 := ltFilter s key abs 0 ++ G with habs2
  have habs2sub : List.Sublist abs2 abs := by
    conv_rhs => rw [habs, hgs]
    exact (List.Sublist.refl _).append (List.sublist_append_right (e :: E') G)
  have hmem2 : ∀ a ∈ abs2, a ∈ abs := fun a ha => habs2sub.subset ha
  have hfl1 : ∀ L, filterLevel s1 abs2 L =
      ltFilter s key abs L ++ G.filter (fun a => decide (L < hOf s a)) := by
    intro L
    have hcongr : filterLevel s1 abs2 L = filterLevel s abs2 L := by
      unfold filterLevel
      apply List.filter_congr
      intro a _
      rw [(hfields a).2.1]
    rw [hcongr]
    unfold filterLevel
    rw [habs2, List.filter_append, ← ltFilter_of_zero hrepn key L]
  have hrepn1 : RepN s1 abs2 := by
    refine ⟨?_, ?_, ?_, ?_, ?_, ?_⟩
    · rw [hhd]
      refine List.Nodup.sublist ?_ (rep_nodup hrepn)
      exact habs2sub.cons₂ s.headAddr
    · intro a ha
      rw [hhd] at ha
      rw [(hfields a).2.2.2.2]
      rcases List.mem_cons.mp ha with ha | ha
      · rw [ha]
        exact rep_head_ok hrepn
      · exact rep_mem_ok hrepn (hmem2 a ha)
    · rw [hHH]
      exact rep_headH hrepn
    · intro a ha
      rw [(hfields a).2.1, hHH]
      exact rep_heights hrepn a (hmem2 a ha)
    · intro L hL
      rw [hHH] at hL
      rw [hhd, hfl1 L]
      by_cases hLd : L < tdh
      · apply remove_run_level_chain hrepn hc key hL (hgsL L)
        · intro a ha hane
          rw [hT2 a L, if_neg (fun hcc => hane hcc.2)]
        · rw [hT2 (predAt s key abs L) L, if_pos ⟨by omega, rfl⟩,
            hWval L hLd, hbridge L hLd]
      · have hELnil : (e :: E').filter (fun x => decide (L < hOf s x))
            = [] := by
          rw [List.filter_eq_nil]
          intro x hx
          have := htdh_all x hx
          simp only [decide_eq_true_eq]
          omega
        have hfla : filterLevel s abs L =
            ltFilter s key abs L ++
              G.filter (fun a => decide (L < hOf s a)) := by
          rw [(fl_split hrepn hc key L).1, hgsL L, hELnil]
          simp
        rw [← hfla, linkedB_congr s1 s L _ ?_]
        · exact rep_chains hrepn L hL
        · intro a ha
          rw [hT2 a L, if_neg (by rintro ⟨hcc, -⟩; omega)]
    · have hs := (rep_sorted hrepn).sublist habs2sub
      refine List.Pairwise.imp_of_mem ?_ hs
      intro a b ha hb hr
      rw [hsh'.2.2.1, (hfields a).2.2.1, (hfields b).2.2.1]
      exact hr
  have hcallslen : W.2.2.length = (e :: E').length := by
    rw [hw3]
    simp
  refine ⟨by rw [heval], ?_, ?_, ?_, by rw [heval], ?_, ?_⟩
  · rw [heval]
    show W.2.2 = _
    rw [hw3]
    simp
  · rw [heval]
    exact repN_setCount hrepn1 _
  · rw [heval, count_sub, hsh'.1, hcallslen]
  · intro a
    rw [heval, kOf_setCount, vOf_setCount]
    exact ⟨(hfields a).2.2.1, (hfields a).2.2.2.1⟩
  · rw [heval, cmp_setCount]
    exact hsh'.2.2.1

/-- `skiplist_delete_all` when no stored key compares equal: no callbacks,
nothing changes. -/
theorem skiplist_delete_all_notfound_spec [Inhabited K] [Inhabited V]
    {s : SL K V} {abs : List Nat} (hrep : RepN s abs) (hc : LawfulCmp s.cmp)
    {key : K} (hne : ∀ a ∈ abs, s.cmp (kOf s a) key ≠ 0) :
    skiplist_delete_all s key = ⟨false, s, none, []⟩ := by
  have hsucc0 := succ0_eval hrep hc key
  rcases hgs : geSuffix s key abs 0 with _ | ⟨d, D⟩
  · have hdoomed : nextAt s ((init_prevs s key (headHeight s)).getD 0 0) 0
        = 0 := by
      rw [hsucc0, hgs]
      rfl
    simp only [skiplist_delete_all, delete_one_or_all, hdoomed]
    rfl
  · have hd_mem : d ∈ abs := mem_geSuffix_mem_abs (by rw [hgs]; simp)
    have hsome := (nodeOkB_props (rep_mem_ok hrep hd_mem)).2.2
    rcases hn : node? s d with _ | dn
    · rw [hn] at hsome
      cases hsome
    · have hkd : kOf s d = dn.k := by
        unfold kOf
        rw [hn]
      have hne1 : s.cmp dn.k key ≠ 0 := by
        rw [← hkd]
        exact hne d hd_mem
      have hdoomed : nextAt s ((init_prevs s key (headHeight s)).getD 0 0) 0
          = d := by
        rw [hsucc0, hgs]
        rfl
      simp only [skiplist_delete_all, delete_one_or_all, hdoomed, hn,
        if_pos hne1]

/-- `skiplist_get` when some key matches: success, and the cell receives the
value of the first matching node in level-0 order. -/
theorem skiplist_get_found_spec [Inhabited K] [Inhabited V] {s : SL K V}
    {abs : List Nat} (hrep : RepN s abs) (hc : LawfulCmp s.cmp) {key : K}
    (cell : Option (Option V))
    (hex : ∃ a ∈ abs, s.cmp (kOf s a) key = 0) :
    skiplist_get s key cell =
      (true, cell.map
        (fun _ => some (vOf s ((geSuffix s key abs 0).headD 0)))) := by
  have heq0 := geSuffix_head_eq_of_exists hrep hc hex
  have hfe := get_first_eq_spec hrep hc key
  rw [if_pos heq0] at hfe
  rcases hn : node? s ((geSuffix s key abs 0).headD 0) with _ | n
  · exfalso
    unfold cmpRes at heq0
    rw [hn] at heq0
    simp at heq0
  · have hv : n.v = vOf s ((geSuffix s key abs 0).headD 0) := by
      unfold vOf
      rw [hn]
    simp only [skiplist_get, hfe, hn, Option.map_some']
    rw [hv]

/-- `skiplist_get` when no stored key compares equal: failure, cell
untouched. -/
theorem skiplist_get_notfound_spec [Inhabited K] [Inhabited V] {s : SL K V}
    {abs : List Nat} (hrep : RepN s abs) (hc : LawfulCmp s.cmp) {key : K}
    (cell : Option (Option V))
    (hne : ∀ a ∈ abs, s.cmp (kOf s a) key ≠ 0) :
    skiplist_get s key cell = (false, cell) := by
  have hfe := get_first_eq_spec hrep hc key
  have hne0 : ¬ (cmpRes s key ((geSuffix s key abs 0).headD 0) = 0) := by
    rcases hg : geSuffix s key abs 0 with _ | ⟨d, D⟩
    · rw [List.headD_nil, cmpRes_sentinel]
      omega
    · have hdmem : d ∈ abs := mem_geSuffix_mem_abs (by rw [hg]; simp)
      have hsome := (nodeOkB_props (rep_mem_ok hrep hdmem)).2.2
      rw [List.headD_cons, cmpRes_eq_of_isSome hsome key]
      exact hne d hdmem
  rw [if_neg hne0] at hfe
  simp only [skiplist_get, hfe]

theorem mem_dropLast_sublist {c : Nat} :
    ∀ {m l : List Nat}, List.Sublist m l → c ∈ m.dropLast →
      c ∈ l.dropLast := by
  intro m l hs
  induction hs with
  | slnil =>
    intro h
    simp at h
  | cons x hs2 ih =>
    intro h
    exact mem_dropLast_cons (ih h)
  | @cons₂ m1 l1 x hs2 ih =>
    rcases m1 with _ | ⟨y, m2⟩
    · intro h
      simp at h
    · intro h
      have hform : (x :: y :: m2).dropLast = x :: (y :: m2).dropLast := rfl
      rw [hform] at h
      rcases List.mem_cons.mp h with h | h
      · rcases l1 with _ | ⟨w, l2⟩
        · cases hs2
        · rw [h]
          simp [List.dropLast]
      · exact mem_dropLast_cons (ih h)

/-- The `skiplist_pop_last` per-level search loop on a chain: it stops at the
next-to-last node (the start itself when the chain past it has at most one
node). -/
theorem advancePenult_spec (s : SL K V) (lvl : Nat) :
    ∀ (rest : List Nat) (cur : Nat) (fuel : Nat),
      rest.length + 1 ≤ fuel →
      (∀ x ∈ rest, x ≠ 0) →
      linkedB s lvl (cur :: rest) = true →
      advancePenult s lvl fuel cur = lastD cur rest.dropLast := by
  intro rest
  induction rest with
  | nil =>
    intro cur fuel hfuel hnz hlk
    rcases fuel with _ | f
    · omega
    have h0 : nextAt s cur lvl = 0 := by simpa [linkedB] using hlk
    simp [advancePenult, h0, lastD]
  | cons z rest' ih =>
    intro cur fuel hfuel hnz hlk
    rcases fuel with _ | f
    · simp at hfuel
    have h1 : nextAt s cur lvl = z ∧ linkedB s lvl (z :: rest') = true := by
      simpa [linkedB] using hlk
    have hznz : z ≠ 0 := hnz z (by simp)
    rcases rest' with _ | ⟨w, rest''⟩
    · have hz0 : nextAt s z lvl = 0 := by simpa [linkedB] using h1.2
      simp [advancePenult, h1.1, hznz, hz0, lastD]
    · have hw : nextAt s z lvl = w := by
        have h2 := h1.2
        simp [linkedB] at h2
        exact h2.1
      have hwnz : w ≠ 0 := hnz w (by simp)
      have hstep : advancePenult s lvl (f + 1) cur =
          advancePenult s lvl f z := by
        simp only [advancePenult]
        rw [h1.1, if_neg hznz, if_neg (by rw [hw]; exact hwnz)]
      rw [hstep, ih z f (by simp only [List.length_cons] at hfuel ⊢; omega)
        (fun x hx => hnz x (by simp [hx])) h1.2]
      have hform : (z :: w :: rest'').dropLast = z :: (w :: rest'').dropLast :=
        rfl
      rw [hform, lastD_cons]

/-- The node `skiplist_pop_last` records for level `L`: the next-to-last
node of the level-`L` chain (head included). -/
def penultAt [Inhabited K] (s : SL K V) (abs : List Nat) (L : Nat) : Nat :=
  lastD s.headAddr ((filterLevel s abs L).dropLast)

theorem penultAt_top [Inhabited K] {s : SL K V} {abs : List Nat}
    (hrep : RepN s abs) {L : Nat} (hL : headHeight s ≤ L) :
    penultAt s abs L = s.headAddr := by
  unfold penultAt
  rw [filterLevel_top hrep hL]
  rfl

/-- Descending one level of the `pop_last` search resumes from the recorded
node and reaches the level-below next-to-last node. -/
theorem penult_step [Inhabited K] {s : SL K V} {abs : List Nat}
    (hrep : RepN s abs) {L : Nat} (hL : L < headHeight s) :
    advancePenult s L (s.heap.length + 1) (penultAt s abs (L + 1)) =
      penultAt s abs L := by
  have hchain : linkedB s L (s.headAddr :: filterLevel s abs L) = true :=
    rep_chains hrep L hL
  have hlen : (filterLevel s abs L).length ≤ s.heap.length :=
    le_trans (filterLevel_length_le s abs L) (rep_abs_len hrep)
  have hnz : ∀ x ∈ filterLevel s abs L, x ≠ 0 := by
    intro x hx
    exact (nodeOkB_props (rep_mem_ok hrep (mem_filterLevel.mp hx).1)).1
  rcases hne : (filterLevel s abs (L + 1)).dropLast with _ | ⟨g0, G'⟩
  · have hp1 : penultAt s abs (L + 1) = s.headAddr := by
      unfold penultAt
      rw [hne]
      rfl
    rw [hp1, advancePenult_spec s L (filterLevel s abs L) s.headAddr
      (s.heap.length + 1) (by omega) hnz hchain]
    rfl
  · have hcmem1 : penultAt s abs (L + 1) ∈
        (filterLevel s abs (L + 1)).dropLast := by
      unfold penultAt
      rw [hne]
      exact lastD_mem_of_ne_nil s.headAddr _ (by simp)
    have hsubl : List.Sublist (filterLevel s abs (L + 1))
        (filterLevel s abs L) := by
      rw [filterLevel_filter_succ]
      exact List.filter_sublist _
    have hcmemL : penultAt s abs (L + 1) ∈ (filterLevel s abs L).dropLast :=
      mem_dropLast_sublist hsubl hcmem1
    obtain ⟨P, S0, hPS⟩ := List.append_of_mem hcmemL
    have hflne : filterLevel s abs L ≠ [] := by
      intro hcc
      rw [hcc] at hcmemL
      simp at hcmemL
    set z := (filterLevel s abs L).getLast hflne with hz
    have hfull : filterLevel s abs L =
        P ++ penultAt s abs (L + 1) :: (S0 ++ [z]) := by
      conv_lhs => rw [← List.dropLast_append_getLast hflne]
      rw [hPS, hz]
      simp
    have hsuffix : linkedB s L (penultAt s abs (L + 1) ::
        (S0 ++ [z])) = true := by
      apply linkedB_suffix s L (s.headAddr :: P) _ (by simp)
      have heq : (s.headAddr :: P) ++ penultAt s abs (L + 1) ::
          (S0 ++ [z]) = s.headAddr :: filterLevel s abs L := by
        rw [hfull]
        simp
      rw [heq]
      exact hchain
    have hlen2 : (S0 ++ [z]).length + 1 ≤ s.heap.length + 1 := by
      have h0 := hlen
      rw [hfull] at h0
      simp only [List.length_append, List.length_cons] at h0 ⊢
      omega
    have hnz2 : ∀ x ∈ S0 ++ [z], x ≠ 0 := by
      intro x hx
      refine hnz x ?_
      rw [hfull]
      exact List.mem_append.mpr (Or.inr (List.mem_cons_of_mem _ hx))
    rw [advancePenult_spec s L _ _ (s.heap.length + 1) hlen2 hnz2 hsuffix]
    have hdrop : (S0 ++ [z]).dropLast = S0 := by
      simp
    rw [hdrop]
    show lastD (penultAt s abs (L + 1)) S0 = penultAt s abs L
    unfold penultAt at hPS ⊢
    rw [hPS, lastD_append_cons]

theorem popLastGo_spec [Inhabited K] {s : SL K V} {abs : List Nat}
    (hrep : RepN s abs) :
    ∀ (lvl : Nat), lvl < headHeight s →
      (popLastGo s (s.heap.length + 1) lvl
          (penultAt s abs (lvl + 1))).length = lvl + 1 ∧
      ∀ L, L ≤ lvl →
        (popLastGo s (s.heap.length + 1) lvl
            (penultAt s abs (lvl + 1))).getD L 0 = penultAt s abs L := by
  intro lvl
  induction lvl with
  | zero =>
    intro hlt
    have h0 := penult_step hrep hlt
    constructor
    · rfl
    · intro L hL
      interval_cases L
      simpa [popLastGo] using h0
  | succ lvl ih =>
    intro hlt
    have hstep := penult_step hrep hlt
    have hlt' : lvl < headHeight s := by omega
    obtain ⟨ihL, ihT⟩ := ih hlt'
    have hgo : popLastGo s (s.heap.length + 1) (lvl + 1)
        (penultAt s abs (lvl + 1 + 1)) =
        popLastGo s (s.heap.length + 1) lvl (penultAt s abs (lvl + 1))
          ++ [penultAt s abs (lvl + 1)] := by
      rw [popLastGo, hstep]
    rw [hgo]
    constructor
    · simp [ihL]
    · intro L hL
      by_cases hLle : L ≤ lvl
      · rw [getD_append_left (by omega), ihT L hLle]
      · have hLeq : L = lvl + 1 := by omega
        subst hLeq
        have h2 := getD_append_at_length
          (popLastGo s (s.heap.length + 1) lvl (penultAt s abs (lvl + 1)))
          (penultAt s abs (lvl + 1)) [] 0
        rw [ihL] at h2
        exact h2

theorem pop_last_prevs_spec [Inhabited K] {s : SL K V} {abs : List Nat}
    (hrep : RepN s abs) :
    (popLastGo s (s.heap.length + 1) (headHeight s - 1) s.headAddr).length =
      headHeight s ∧
    ∀ L, L < headHeight s →
      (popLastGo s (s.heap.length + 1) (headHeight s - 1)
          s.headAddr).getD L 0 = penultAt s abs L := by
  have h1 := rep_headH hrep
  have hh : headHeight s - 1 + 1 = headHeight s := by omega
  have hstart : s.headAddr = penultAt s abs (headHeight s - 1 + 1) := by
    rw [hh]
    exact (penultAt_top hrep (le_refl _)).symm
  obtain ⟨hl, hg⟩ := popLastGo_spec hrep (headHeight s - 1) (by omega)
  rw [hstart]
  exact ⟨by rw [hl]; omega, fun L hL => hg L (by omega)⟩

/-- `skiplist_pop_first` on an empty container: not found, unchanged. -/
theorem skiplist_pop_first_nil_spec [Inhabited K] [Inhabited V] {s : SL K V}
    (hrep : RepN s []) : skiplist_pop_first s = (none, s) := by
  have hH0 : 0 < headHeight s := rep_headH hrep
  have hch0 := rep_chains hrep 0 hH0
  rw [filterLevel_zero hrep] at hch0
  have hfirst : nextAt s s.headAddr 0 = 0 := by
    simpa [linkedB] using hch0
  simp [skiplist_pop_first, hfirst, node?]

/-- `skiplist_pop_first` on a non-empty container: the level-0 first node is
unlinked from every level it occupies, its key and value returned, the count
decremented. -/
theorem skiplist_pop_first_cons_spec [Inhabited K] [Inhabited V] {s : SL K V}
    {abs : List Nat} (hrepn : RepN s abs) {f : Nat} {abs' : List Nat}
    (habs : abs = f :: abs') :
    (skiplist_pop_first s).1 = some (kOf s f, vOf s f) ∧
    RepN (skiplist_pop_first s).2 abs' ∧
    (skiplist_pop_first s).2.count = s.count - 1 ∧
    (∀ a, kOf (skiplist_pop_first s).2 a = kOf s a ∧
      vOf (skiplist_pop_first s).2 a = vOf s a) ∧
    (skiplist_pop_first s).2.headAddr = s.headAddr ∧
    headHeight (skiplist_pop_first s).2 = headHeight s ∧
    (skiplist_pop_first s).2.cmp = s.cmp := by
  subst habs
  have hH0 : 0 < headHeight s := rep_headH hrepn
  have hfmem : f ∈ f :: abs' := by simp
  obtain ⟨fn, hn, hkn, hvn, hhn, hnx⟩ := node?_props hrepn hfmem
  have hch0 := rep_chains hrepn 0 hH0
  rw [filterLevel_zero hrepn] at hch0
  have hfirst : nextAt s s.headAddr 0 = f := by
    have hbk := linkedB_break s 0 s.headAddr [] (f :: abs')
      (by simpa using hch0)
    simpa [lastD] using hbk
  have hfh := rep_heights hrepn f hfmem
  have hok : ∀ i, i < hOf s f → nodeOkB s s.headAddr = true ∧
      i < hOf s s.headAddr := by
    intro i hi
    refine ⟨rep_head_ok hrepn, ?_⟩
    show i < headHeight s
    omega
  obtain ⟨hsh, hT⟩ := fold_setNext_head_read s f (hOf s f) hok
  set s1 := (List.range (hOf s f)).foldl
    (fun t i => setNext t t.headAddr i (nextAt t f i)) s with hs1
  have hT' : ∀ a j, nextAt s1 a j =
      if j < hOf s f ∧ a = s.headAddr then nextAt s f j
      else nextAt s a j := hT
  have hsh' : SameShape s1 s := hsh
  have heval : skiplist_pop_first s =
      (some (kOf s f, vOf s f), { s1 with count := s1.count - 1 }) := by
    simp only [skiplist_pop_first, hfirst, hn]
    rw [hkn, hvn, hhn]
  have hfields := hsh'.2.2.2.2
  have hHH : headHeight s1 = headHeight s := hsh'.headHeight_eq
  have hhd : s1.headAddr = s.headAddr := hsh'.2.1
  have habs'sub : List.Sublist abs' (f :: abs') := List.sublist_cons_self f abs'
  have hfl1 : ∀ L, filterLevel s1 abs' L = filterLevel s abs' L := by
    intro L
    unfold filterLevel
    apply List.filter_congr
    intro a _
    rw [(hfields a).2.1]
  have hflcons : ∀ L, filterLevel s (f :: abs') L =
      if L < hOf s f then f :: filterLevel s abs' L
      else filterLevel s abs' L := by
    intro L
    unfold filterLevel
    rw [List.filter_cons]
    by_cases hLf : L < hOf s f
    · rw [if_pos (by simpa using hLf), if_pos hLf]
    · rw [if_neg (by simpa using hLf), if_neg hLf]
  have hrepn1 : RepN s1 abs' := by
    refine ⟨?_, ?_, ?_, ?_, ?_, ?_⟩
    · rw [hhd]
      refine List.Nodup.sublist ?_ (rep_nodup hrepn)
      exact habs'sub.cons₂ s.headAddr
    · intro a ha
      rw [hhd] at ha
      rw [(hfields a).2.2.2.2]
      rcases List.mem_cons.mp ha with ha | ha
      · rw [ha]
        exact rep_head_ok hrepn
      · exact rep_mem_ok hrepn (List.mem_cons_of_mem f ha)
    · rw [hHH]
      exact hH0
    · intro a ha
      rw [(hfields a).2.1, hHH]
      exact rep_heights hrepn a (List.mem_cons_of_mem f ha)
    · intro L hL
      rw [hHH] at hL
      rw [hhd, hfl1 L]
      have hchL := rep_chains hrepn L hL
      rw [hflcons L] at hchL
      by_cases hLf : L < hOf s f
      · rw [if_pos hLf] at hchL
        have hnf : nextAt s f L = (filterLevel s abs' L).headD 0 := by
          have hsuf : linkedB s L (f :: filterLevel s abs' L) = true :=
            linkedB_suffix s L [s.headAddr] _ (by simp) (by simpa using hchL)
          have hbk := linkedB_break s L f [] (filterLevel s abs' L)
            (by simpa using hsuf)
          simpa [lastD] using hbk
        have hheadnew : nextAt s1 s.headAddr L =
            (filterLevel s abs' L).headD 0 := by
          rw [hT' s.headAddr L, if_pos ⟨hLf, rfl⟩, hnf]
        have hrest : filterLevel s abs' L = [] ∨
            linkedB s1 L (filterLevel s abs' L) = true := by
          by_cases hre : filterLevel s abs' L = []
          · exact Or.inl hre
          · refine Or.inr ?_
            have hsuf2 : linkedB s L (filterLevel s abs' L) = true :=
              linkedB_suffix s L [s.headAddr, f] _ hre (by simpa using hchL)
            rw [linkedB_congr s1 s L _ ?_]
            · exact hsuf2
            · intro a ha
              rw [hT' a L]
              rw [if_neg ?_]
              rintro ⟨-, hcc⟩
              have hmem : a ∈ abs' := (mem_filterLevel.mp ha).1
              have hnd := rep_nodup hrepn
              rw [hcc] at hmem
              exact (List.nodup_cons.mp hnd).1 (List.mem_cons_of_mem f hmem)
        exact linkedB_glue s1 L s.headAddr [] (filterLevel s abs' L)
          rfl hheadnew hrest
      · rw [if_neg hLf] at hchL
        rw [linkedB_congr s1 s L _ ?_]
        · exact hchL
        · intro a ha
          rw [hT' a L, if_neg (by rintro ⟨hcc, -⟩; omega)]
    · have hs2 := (rep_sorted hrepn).sublist habs'sub
      refine List.Pairwise.imp_of_mem ?_ hs2
      intro a b ha hb hr
      rw [hsh'.2.2.1, (hfields a).2.2.1, (hfields b).2.2.1]
      exact hr
  refine ⟨by rw [heval], ?_, ?_, ?_, ?_, ?_, ?_⟩
  · rw [heval]
    exact repN_setCount hrepn1 _
  · rw [heval, count_sub, hsh'.1]
  · intro a
    rw [heval, kOf_setCount, vOf_setCount]
    exact ⟨(hfields a).2.2.1, (hfields a).2.2.2.1⟩
  · rw [heval, headAddr_setCount, hhd]
  · rw [heval]
    show headHeight s1 = headHeight s
    exact hHH
  · rw [heval, cmp_setCount]
    exact hsh'.2.2.1

/-- `skiplist_pop_last` on an empty container (count 0): not found,
unchanged. -/
theorem skiplist_pop_last_empty_spec [Inhabited K] [Inhabited V] {s : SL K V}
    (h : s.count = 0) : skiplist_pop_last s = (none, s) := by
  simp [skiplist_pop_last, h]

/-- `skiplist_pop_last` on a non-empty container: the last level-0 node is
unlinked from every level it occupies, its key and value returned, the count
decremented. -/
theorem skiplist_pop_last_cons_spec [Inhabited K] [Inhabited V] {s : SL K V}
    {abs : List Nat} (hrepn : RepN s abs) (hcount_ne : ¬ (s.count = 0))
    (hne : abs ≠ []) :
    (skiplist_pop_last s).1 =
      some (kOf s (abs.getLast hne), vOf s (abs.getLast hne)) ∧
    RepN (skiplist_pop_last s).2 abs.dropLast ∧
    (skiplist_pop_last s).2.count = s.count - 1 ∧
    (∀ a, kOf (skiplist_pop_last s).2 a = kOf s a ∧
      vOf (skiplist_pop_last s).2 a = vOf s a) ∧
    (skiplist_pop_last s).2.headAddr = s.headAddr ∧
    headHeight (skiplist_pop_last s).2 = headHeight s ∧
    (skiplist_pop_last s).2.cmp = s.cmp := by
  have hH0 : 0 < headHeight s := rep_headH hrepn
  set z := abs.getLast hne with hzdef
  have hzmem : z ∈ abs := by
    rw [hzdef]
    exact List.getLast_mem hne
  obtain ⟨zn, hn, hkn, hvn, hhn, hnx⟩ := node?_props hrepn hzmem
  have habs0 : abs = abs.dropLast ++ [z] := by
    rw [hzdef]
    exact (List.dropLast_append_getLast hne).symm
  have hhne : ¬ (headHeight s = 0) := by omega
  obtain ⟨hplen, hpget⟩ := pop_last_prevs_spec hrepn
  set prevs := popLastGo s (s.heap.length + 1) (headHeight s - 1) s.headAddr
    with hprevs
  have hlastA : nextAt s (prevs.getD 0 0) 0 = z := by
    rw [hpget 0 hH0]
    have hchain := rep_chains hrepn 0 hH0
    rw [filterLevel_zero hrepn] at hchain
    have hform : s.headAddr :: abs =
        s.headAddr :: (abs.dropLast ++ [z]) := by
      conv_lhs => rw [habs0]
    rw [hform] at hchain
    have hbk := linkedB_break s 0 s.headAddr abs.dropLast [z] hchain
    have hpe : penultAt s abs 0 = lastD s.headAddr abs.dropLast := by
      unfold penultAt
      rw [filterLevel_zero hrepn]
    rw [hpe]
    simpa using hbk
  have hpen_mem : ∀ L, penultAt s abs L ∈
      s.headAddr :: filterLevel s abs L := by
    intro L
    unfold penultAt
    rcases lastD_mem s.headAddr ((filterLevel s abs L).dropLast) with h | h
    · rw [h]
      simp
    · exact List.mem_cons_of_mem _ ((List.dropLast_sublist _).subset h)
  have hpen_ok : ∀ L, nodeOkB s (penultAt s abs L) = true := by
    intro L
    rcases List.mem_cons.mp (hpen_mem L) with h | h
    · rw [h]
      exact rep_head_ok hrepn
    · exact rep_mem_ok hrepn (mem_filterLevel.mp h).1
  have hpen_h : ∀ L, L < headHeight s → L < hOf s (penultAt s abs L) := by
    intro L hL
    rcases List.mem_cons.mp (hpen_mem L) with h | h
    · rw [h]
      exact hL
    · exact (mem_filterLevel.mp h).2
  have hzh := rep_heights hrepn z hzmem
  have hok : ∀ i, i < hOf s z → nodeOkB s (prevs.getD i 0) = true ∧
      i < hOf s (prevs.getD i 0) := by
    intro i hi
    have hic : i < headHeight s := by omega
    rw [hpget i hic]
    exact ⟨hpen_ok i, hpen_h i hic⟩
  obtain ⟨hsh, hT⟩ := fold_setNext_fixed s (fun i => prevs.getD i 0)
    (fun _ => 0) (hOf s z) hok
  set s1 := (List.range (hOf s z)).foldl
    (fun t i => setNext t (prevs.getD i 0) i 0) s with hs1
  have hT' : ∀ a j, nextAt s1 a j =
      if j < hOf s z ∧ a = prevs.getD j 0 then 0 else nextAt s a j := hT
  have hsh' : SameShape s1 s := hsh
  have hT2 : ∀ a j, nextAt s1 a j =
      if j < hOf s z ∧ a = penultAt s abs j then 0 else nextAt s a j := by
    intro a j
    rw [hT' a j]
    by_cases hj : j < hOf s z
    · rw [hpget j (by omega)]
    · rw [if_neg (by rintro ⟨hc2, -⟩; omega),
        if_neg (by rintro ⟨hc2, -⟩; omega)]
  have heval : skiplist_pop_last s =
      (some (kOf s z, vOf s z), { s1 with count := s1.count - 1 }) := by
    have hlastAraw : nextAt s ((popLastGo s (s.heap.length + 1)
        (headHeight s - 1) s.headAddr).getD 0 0) 0 = z := hlastA
    simp only [skiplist_pop_last, if_neg hcount_ne, if_neg hhne, hlastAraw,
      hn]
    rw [hkn, hvn, hhn]
  have hfields := hsh'.2.2.2.2
  have hHH : headHeight s1 = headHeight s := hsh'.headHeight_eq
  have hhd : s1.headAddr = s.headAddr := hsh'.2.1
  have habs2sub : List.Sublist abs.dropLast abs := List.dropLast_sublist abs
  have hfl1 : ∀ L, filterLevel s1 abs.dropLast L =
      filterLevel s abs.dropLast L := by
    intro L
    unfold filterLevel
    apply List.filter_congr
    intro a _
    rw [(hfields a).2.1]
  have hflD : ∀ L, filterLevel s abs L =
      filterLevel s abs.dropLast L ++
        (if L < hOf s z then [z] else []) := by
    intro L
    conv_lhs => rw [habs0]
    unfold filterLevel
    rw [List.filter_append]
    congr 1
    by_cases hLz : L < hOf s z
    · simp [hLz]
    · simp [hLz]
  have hpenD : ∀ L, L < hOf s z →
      penultAt s abs L = lastD s.headAddr (filterLevel s abs.dropLast L) := by
    intro L hLz
    unfold penultAt
    rw [hflD L, if_pos hLz]
    simp
  have hheadfl_nodup : ∀ L,
      (s.headAddr :: filterLevel s abs L).Nodup := by
    intro L
    refine List.Nodup.sublist ?_ (rep_nodup hrepn)
    exact (List.filter_sublist abs).cons₂ s.headAddr
  have hrepn1 : RepN s1 abs.dropLast := by
    refine ⟨?_, ?_, ?_, ?_, ?_, ?_⟩
    · rw [hhd]
      refine List.Nodup.sublist ?_ (rep_nodup hrepn)
      exact habs2sub.cons₂ s.headAddr
    · intro a ha
      rw [hhd] at ha
      rw [(hfields a).2.2.2.2]
      rcases List.mem_cons.mp ha with ha | ha
      · rw [ha]
        exact rep_head_ok hrepn
      · exact rep_mem_ok hrepn (habs2sub.subset ha)
    · rw [hHH]
      exact hH0
    · intro a ha
      rw [(hfields a).2.1, hHH]
      exact rep_heights hrepn a (habs2sub.subset ha)
    · intro L hL
      rw [hHH] at hL
      rw [hhd, hfl1 L]
      have hchL := rep_chains hrepn L hL
      by_cases hLz : L < hOf s z
      · have hchL2 : linkedB s L ((s.headAddr ::
            filterLevel s abs.dropLast L) ++ [z]) = true := by
          have hform2 : (s.headAddr :: filterLevel s abs.dropLast L) ++ [z] =
              s.headAddr :: filterLevel s abs L := by
            rw [hflD L, if_pos hLz]
            simp
          rw [hform2]
          exact hchL
        have hDnodup : (s.headAddr :: filterLevel s abs.dropLast L).Nodup := by
          refine List.Nodup.sublist ?_ (hheadfl_nodup L)
          have hsb : List.Sublist (filterLevel s abs.dropLast L)
              (filterLevel s abs L) := by
            rw [hflD L, if_pos hLz]
            exact List.sublist_append_left _ _
          exact hsb.cons₂ s.headAddr
        refine (linkedB_iff s1 L _ (by simp)).mpr ⟨?_, ?_⟩
        · have holdP := linksB_prefix s L
            (s.headAddr :: filterLevel s abs.dropLast L) [z]
            (linksB_of_linkedB s L _ hchL2)
          rw [linksB_congr_dropLast s1 s L _ ?_]
          · exact holdP
          · intro u hu
            have hne2 := mem_dropLast_ne_lastD hDnodup hu
            rw [hT2 u L]
            rw [if_neg ?_]
            rintro ⟨-, hcc⟩
            rw [hpenD L hLz] at hcc
            exact hne2 hcc
        · have hlast : lastD 0 (s.headAddr :: filterLevel s abs.dropLast L) =
              penultAt s abs L := by
            rw [lastD_cons, hpenD L hLz]
          rw [hlast, hT2 (penultAt s abs L) L, if_pos ⟨hLz, rfl⟩]
      · have hform3 : filterLevel s abs.dropLast L = filterLevel s abs L := by
          rw [hflD L, if_neg hLz]
          simp
        rw [hform3, linkedB_congr s1 s L _ ?_]
        · exact hchL
        · intro a ha
          rw [hT2 a L, if_neg (by rintro ⟨hcc, -⟩; omega)]
    · have hs2 := (rep_sorted hrepn).sublist habs2sub
      refine List.Pairwise.imp_of_mem ?_ hs2
      intro a b ha hb hr
      rw [hsh'.2.2.1, (hfields a).2.2.1, (hfields b).2.2.1]
      exact hr
  refine ⟨by rw [heval], ?_, ?_, ?_, ?_, ?_, ?_⟩
  · rw [heval]
    exact repN_setCount hrepn1 _
  · rw [heval, count_sub, hsh'.1]
  · intro a
    rw [heval, kOf_setCount, vOf_setCount]
    exact ⟨(hfields a).2.2.1, (hfields a).2.2.2.1⟩
  · rw [heval, headAddr_setCount, hhd]
  · rw [heval]
    show headHeight s1 = headHeight s
    exact hHH
  · rw [heval, cmp_setCount]
    exact hsh'.2.2.1

/-- `skiplist_pop_last` with a nonzero `count` field but no live nodes (the
state `skiplist_clear` leaves behind): the search lands on the sentinel and
nothing happens. -/
theorem skiplist_pop_last_nil_spec [Inhabited K] [Inhabited V] {s : SL K V}
    (hrepn : RepN s []) (hcount_ne : ¬ (s.count = 0)) :
    skiplist_pop_last s = (none, s) := by
  have hH0 : 0 < headHeight s := rep_headH hrepn
  have hhne : ¬ (headHeight s = 0) := by omega
  obtain ⟨hplen, hpget⟩ := pop_last_prevs_spec hrepn
  have hlastA : nextAt s ((popLastGo s (s.heap.length + 1)
      (headHeight s - 1) s.headAddr).getD 0 0) 0 = 0 := by
    rw [hpget 0 hH0]
    have hchain := rep_chains hrepn 0 hH0
    rw [filterLevel_zero hrepn] at hchain
    have hpe : penultAt s [] 0 = s.headAddr := by
      unfold penultAt
      rw [filterLevel_zero hrepn]
      rfl
    rw [hpe]
    simpa [linkedB] using hchain
  simp only [skiplist_pop_last, if_neg hcount_ne, if_neg hhne, hlastA, node?]
  simp

/-- The level-0 disposal walk of `skiplist_clear` along a chain: it calls the
callback on every node in order with that node's stored key and value. -/
theorem clearWalk_spec [Inhabited K] [Inhabited V] {s : SL K V}
    {abs : List Nat} (hrep : RepN s abs) :
    ∀ (l : List Nat) (fuel : Nat) (acc : List (K × V)),
      (∀ x ∈ l, x ∈ abs) →
      l.length + 1 ≤ fuel →
      linkedB s 0 l = true →
      clearWalk s fuel (l.headD 0) acc =
        acc ++ l.map (fun a => (kOf s a, vOf s a)) := by
  intro l
  induction l with
  | nil =>
    intro fuel acc hmem hfuel hlk
    rcases fuel with _ | f
    · omega
    simp [clearWalk, node?]
  | cons x l' ih =>
    intro fuel acc hmem hfuel hlk
    rcases fuel with _ | f
    · simp at hfuel
    obtain ⟨n, hn, hkn, hvn, hhn, hnx⟩ := node?_props hrep (hmem x (by simp))
    have hnxt : n.next.getD 0 0 = l'.headD 0 := by
      have hbk := linkedB_break s 0 x [] l' (by simpa using hlk)
      rw [hnx 0]
      simpa [lastD] using hbk
    have hlk' : linkedB s 0 l' = true := by
      rcases l' with _ | ⟨y, l''⟩
      · rfl
      · exact linkedB_suffix s 0 [x] _ (by simp) (by simpa using hlk)
    have hstep : clearWalk s (f + 1) ((x :: l').headD 0) acc =
        clearWalk s f (l'.headD 0) (acc ++ [(n.k, n.v)]) := by
      simp only [List.headD_cons, clearWalk, hn, hnxt]
    rw [hstep, ih f (acc ++ [(n.k, n.v)])
      (fun y hy => hmem y (by simp [hy]))
      (by simp only [List.length_cons] at hfuel; omega) hlk']
    rw [hkn, hvn]
    simp

/-- `skiplist_clear`: the disposal callback is invoked once per live node in
level-0 order; the returned removal count is the number of live nodes; all
head forward pointers are reset to the sentinel; and the container's `count`
field is left untouched. -/
theorem skiplist_clear_spec [Inhabited K] [Inhabited V] {s : SL K V}
    {abs : List Nat} (hrep : RepN s abs) :
    (skiplist_clear s).1 = abs.length ∧
    (skiplist_clear s).2.1 = abs.map (fun a => (kOf s a, vOf s a)) ∧
    RepN (skiplist_clear s).2.2 [] ∧
    (skiplist_clear s).2.2.count = s.count ∧
    (skiplist_clear s).2.2.headAddr = s.headAddr ∧
    headHeight (skiplist_clear s).2.2 = headHeight s ∧
    (skiplist_clear s).2.2.cmp = s.cmp := by
  have hH0 : 0 < headHeight s := rep_headH hrep
  have hch0 := rep_chains hrep 0 hH0
  rw [filterLevel_zero hrep] at hch0
  have hfirst : nextAt s s.headAddr 0 = abs.headD 0 := by
    have hbk := linkedB_break s 0 s.headAddr [] abs (by simpa using hch0)
    simpa [lastD] using hbk
  have hlkabs : linkedB s 0 abs = true := by
    rcases abs with _ | ⟨a0, abs'⟩
    · rfl
    · exact linkedB_suffix s 0 [s.headAddr] _ (by simp) (by simpa using hch0)
  have hlen : abs.length + 1 ≤ s.heap.length + 1 := by
    have := rep_abs_len hrep
    omega
  have hcalls : clearWalk s (s.heap.length + 1) (nextAt s s.headAddr 0) [] =
      abs.map (fun a => (kOf s a, vOf s a)) := by
    rw [hfirst]
    have := clearWalk_spec hrep abs (s.heap.length + 1) []
      (fun x hx => hx) hlen hlkabs
    simpa using this
  have hok : ∀ i, i < headHeight s → nodeOkB s s.headAddr = true ∧
      i < hOf s s.headAddr := by
    intro i hi
    exact ⟨rep_head_ok hrep, hi⟩
  obtain ⟨hsh, hT⟩ := fold_setNext_head_zero s (headHeight s) hok
  set s1 := (List.range (headHeight s)).foldl
    (fun t i => setNext t t.headAddr i 0) s with hs1
  have hT' : ∀ a j, nextAt s1 a j =
      if j < headHeight s ∧ a = s.headAddr then 0 else nextAt s a j := hT
  have hsh' : SameShape s1 s := hsh
  have hfields := hsh'.2.2.2.2
  have hHH : headHeight s1 = headHeight s := hsh'.headHeight_eq
  have hhd : s1.headAddr = s.headAddr := hsh'.2.1
  have heval : skiplist_clear s =
      ((abs.map (fun a => (kOf s a, vOf s a))).length,
       abs.map (fun a => (kOf s a, vOf s a)), s1) := by
    simp only [skiplist_clear, hcalls]
  have hrepn1 : RepN s1 [] := by
    refine ⟨?_, ?_, ?_, ?_, ?_, ?_⟩
    · simp
    · intro a ha
      rw [hhd] at ha
      rw [(hfields a).2.2.2.2]
      rcases List.mem_cons.mp ha with ha | ha
      · rw [ha]
        exact rep_head_ok hrep
      · simp at ha
    · rw [hHH]
      exact hH0
    · intro a ha
      simp at ha
    · intro L hL
      rw [hHH] at hL
      rw [hhd]
      have hflnil : filterLevel s1 ([] : List Nat) L = [] := rfl
      rw [hflnil]
      have hz : nextAt s1 s.headAddr L = 0 := by
        rw [hT' s.headAddr L, if_pos ⟨hL, rfl⟩]
      simp [linkedB, hz]
    · simp
  refine ⟨?_, by rw [heval], by rw [heval]; exact hrepn1, ?_, ?_, ?_, ?_⟩
  · rw [heval]
    simp
  · rw [heval]
    exact hsh'.1
  · rw [heval]
    exact hhd
  · rw [heval]
    exact hHH
  · rw [heval]
    exact hsh'.2.2.1

/-- A fresh container satisfies the representation invariant with no
entries. -/
theorem skiplist_new_rep [Inhabited K] [Inhabited V] (cmp : K → K → Int) :
    Rep (skiplist_new cmp : SL K V) [] := by
  refine ⟨⟨?_, ?_, ?_, ?_, ?_, ?_⟩, rfl⟩
  · simp [skiplist_new]
  · intro a ha
    simp [skiplist_new] at ha
    rw [ha]
    rfl
  · exact le_refl 1
  · intro a ha
    simp at ha
  · intro L hL
    have hL0 : L = 0 := by
      have : headHeight (skiplist_new cmp : SL K V) = 1 := rfl
      omega
    subst hL0
    rfl
  · simp

/-- `add_or_set` preserves the structural invariant and the comparator for
every oracle outcome. -/
theorem add_or_set_repN [Inhabited K] [Inhabited V] {s : SL K V}
    {abs : List Nat} (hrepn : RepN s abs) (hc : LawfulCmp s.cmp) (tr : Bool)
    (key : K) (value : V) (old : Option (Option V)) {newHeight : Nat}
    (ao : List Bool) (h1 : 1 ≤ newHeight) :
    ∃ abs2, RepN (add_or_set s tr key value old newHeight ao).sl abs2 ∧
      (add_or_set s tr key value old newHeight ao).sl.cmp = s.cmp := by
  by_cases hmatch : tr = true ∧ ∃ a ∈ abs, s.cmp (kOf s a) key = 0
  · obtain ⟨htr, hex⟩ := hmatch
    subst htr
    have heval : add_or_set s true key value old newHeight ao =
        { ok := true,
          sl := setVal s ((geSuffix s key abs 0).headD 0) value,
          old := old.map
            (fun _ => some (vOf s ((geSuffix s key abs 0).headD 0))) } :=
      set_replace_spec hrepn hc value old newHeight ao hex
    refine ⟨abs, ?_, ?_⟩
    · rw [heval]
      exact repN_setVal hrepn _ _
    · rw [heval]
      exact cmp_setVal s _ _
  · have hmiss : tr = true → ∀ a ∈ abs, s.cmp (kOf s a) key ≠ 0 := by
      intro htr a ha hceq
      exact hmatch ⟨htr, a, ha, hceq⟩
    obtain ⟨hok, hsl⟩ := add_or_set_insert_eval hrepn hc tr key value old
      newHeight ao hmiss
    by_cases h0 : ao.getD 0 true = false
    · rw [if_pos h0] at hsl
      exact ⟨abs, by rw [hsl]; exact hrepn, by rw [hsl]⟩
    · rw [if_neg h0] at hsl
      by_cases hg : headHeight s < newHeight
      · rw [if_pos hg] at hsl
        by_cases h1f : ao.getD 1 true = false
        · rw [if_pos h1f] at hsl
          exact ⟨abs, by rw [hsl]; exact repN_allocNode hrepn _ _ _,
                 by rw [hsl]; exact cmp_allocNode s _ _ _⟩
        · rw [if_neg h1f] at hsl
          obtain ⟨hrepn2, -, -, -, -, -, -, -, -⟩ :=
            insert_state_grow hrepn hc key value hg
          refine ⟨ltFilter s key abs 0 ++ (s.heap.length + 1) ::
            geSuffix s key abs 0, ?_, ?_⟩
          · rw [hsl]
            exact repN_setCount hrepn2 _
          · rw [hsl, cmp_setCount, cmp_splice, cmp_growHead, cmp_allocNode]
      · rw [if_neg hg] at hsl
        have hle : newHeight ≤ headHeight s := Nat.le_of_not_lt hg
        obtain ⟨hrepn2, -, -, -, -, -, -, -, -⟩ :=
          insert_state_nogrow hrepn hc key value h1 hle
        refine ⟨ltFilter s key abs 0 ++ (s.heap.length + 1) ::
          geSuffix s key abs 0, ?_, ?_⟩
        · rw [hsl]
          exact repN_setCount hrepn2 _
        · rw [hsl, cmp_setCount, cmp_splice, cmp_allocNode]

/-- The states reachable from `skiplist_new` by the public mutating API.
`newHeight` carries the guarantee `1 ≤ newHeight` of `SKIPLIST_GEN_HEIGHT`,
and the comparator passed to `skiplist_new` is assumed lawful. -/
inductive Reachable [Inhabited K] [Inhabited V] : SL K V → Prop where
  | new (cmp : K → K → Int) (hc : LawfulCmp cmp) :
      Reachable (skiplist_new cmp)
  | add {s : SL K V} (hs : Reachable s) (key : K) (value : V)
      (newHeight : Nat) (ao : List Bool) (h1 : 1 ≤ newHeight) :
      Reachable (skiplist_add s key value newHeight ao).sl
  | set {s : SL K V} (hs : Reachable s) (key : K) (value : V)
      (old : Option (Option V)) (newHeight : Nat) (ao : List Bool)
      (h1 : 1 ≤ newHeight) :
      Reachable (skiplist_set s key value old newHeight ao).sl
  | delete {s : SL K V} (hs : Reachable s) (key : K)
      (old : Option (Option V)) :
      Reachable (skiplist_delete s key old).sl
  | delete_all {s : SL K V} (hs : Reachable s) (key : K) :
      Reachable (skiplist_delete_all s key).sl
  | pop_first {s : SL K V} (hs : Reachable s) :
      Reachable (skiplist_pop_first s).2
  | pop_last {s : SL K V} (hs : Reachable s) :
      Reachable (skiplist_pop_last s).2
  | clear {s : SL K V} (hs : Reachable s) :
      Reachable (skiplist_clear s).2.2

/-- Every reachable state has a lawful comparator and satisfies the
structural invariant for some abstract list of live nodes. -/
theorem reachable_inv [Inhabited K] [Inhabited V] {s : SL K V}
    (h : Reachable s) : LawfulCmp s.cmp ∧ ∃ abs, RepN s abs := by
  induction h with
  | new cmp hc => exact ⟨hc, [], (skiplist_new_rep cmp).1⟩
  | @add s' hs key value newHeight ao h1 ih =>
    obtain ⟨hc, abs, hrepn⟩ := ih
    obtain ⟨abs2, hrep2, hcmp2⟩ :=
      add_or_set_repN hrepn hc false key value none ao h1
    refine ⟨?_, abs2, hrep2⟩
    have hcmp2a : (skiplist_add s' key value newHeight ao).sl.cmp =
        s'.cmp := hcmp2
    rw [hcmp2a]
    exact hc
  | @set s' hs key value old newHeight ao h1 ih =>
    obtain ⟨hc, abs, hrepn⟩ := ih
    obtain ⟨abs2, hrep2, hcmp2⟩ :=
      add_or_set_repN hrepn hc true key value old ao h1
    refine ⟨?_, abs2, hrep2⟩
    have hcmp2a : (skiplist_set s' key value old newHeight ao).sl.cmp =
        s'.cmp := hcmp2
    rw [hcmp2a]
    exact hc
  | @delete s' hs key old ih =>
    obtain ⟨hc, abs, hrepn⟩ := ih
    by_cases hex : ∃ a ∈ abs, s'.cmp (kOf s' a) key = 0
    · rcases hgs : geSuffix s' key abs 0 with _ | ⟨d, D⟩
      · exfalso
        obtain ⟨a, ha, heq⟩ := hex
        have hlt := (geSuffix_nil_iff hrepn hc key).mp hgs a ha
        have hsome := (nodeOkB_props (rep_mem_ok hrepn ha)).2.2
        rw [cmpRes_eq_of_isSome hsome key, heq] at hlt
        omega
      · have hdmem : d ∈ abs := mem_geSuffix_mem_abs (by rw [hgs]; simp)
        have hsome := (nodeOkB_props (rep_mem_ok hrepn hdmem)).2.2
        have hmatch : s'.cmp (kOf s' d) key = 0 := by
          have := geSuffix_head_eq_of_exists hrepn hc hex
          rw [hgs] at this
          rw [← cmpRes_eq_of_isSome hsome key]
          simpa using this
        obtain ⟨-, hrep2, -, -, -, -, hcmp2⟩ :=
          skiplist_delete_found_spec hrepn hc old hgs hmatch
        exact ⟨by rw [hcmp2]; exact hc, _, hrep2⟩
    · have hne : ∀ a ∈ abs, s'.cmp (kOf s' a) key ≠ 0 := by
        intro a ha heq
        exact hex ⟨a, ha, heq⟩
      have heval := skiplist_delete_notfound_spec hrepn hc old hne
      exact ⟨by rw [heval]; exact hc, abs, by rw [heval]; exact hrepn⟩
  | @delete_all s' hs key ih =>
    obtain ⟨hc, abs, hrepn⟩ := ih
    by_cases hex : ∃ a ∈ abs, s'.cmp (kOf s' a) key = 0
    · obtain ⟨hsplit, hGgt, -⟩ := geSuffix_run_split hrepn hc key
      have hEeq : ∀ e ∈ abs.filter
          (fun a => decide (s'.cmp (kOf s' a) key = 0)),
          s'.cmp (kOf s' e) key = 0 := by
        intro e he
        have := (List.mem_filter.mp he).2
        simpa using this
      have hGgt' : ∀ g ∈ (geSuffix s' key abs 0).dropWhile
          (fun a => decide (s'.cmp (kOf s' a) key = 0)),
          0 < s'.cmp (kOf s' g) key := hGgt
      have hEne : abs.filter
          (fun a => decide (s'.cmp (kOf s' a) key = 0)) ≠ [] := by
        obtain ⟨a, ha, heq⟩ := hex
        intro hnil
        have : a ∈ abs.filter
            (fun a => decide (s'.cmp (kOf s' a) key = 0)) :=
          List.mem_filter.mpr ⟨ha, by simpa using heq⟩
        rw [hnil] at this
        simp at this
      obtain ⟨-, -, hrep2, -, -, -, hcmp2⟩ :=
        skiplist_delete_all_found_spec hrepn hc hsplit hEeq hGgt' hEne
      exact ⟨by rw [hcmp2]; exact hc, _, hrep2⟩
    · have hne : ∀ a ∈ abs, s'.cmp (kOf s' a) key ≠ 0 := by
        intro a ha heq
        exact hex ⟨a, ha, heq⟩
      have heval := skiplist_delete_all_notfound_spec hrepn hc hne
      exact ⟨by rw [heval]; exact hc, abs, by rw [heval]; exact hrepn⟩
  | @pop_first s' hs ih =>
    obtain ⟨hc, abs, hrepn⟩ := ih
    rcases habs : abs with _ | ⟨f, abs'⟩
    · subst habs
      have heval := skiplist_pop_first_nil_spec hrepn
      exact ⟨by rw [heval]; exact hc, [], by rw [heval]; exact hrepn⟩
    · obtain ⟨-, hrep2, -, -, -, -, hcmp2⟩ :=
        skiplist_pop_first_cons_spec hrepn habs
      exact ⟨by rw [hcmp2]; exact hc, _, hrep2⟩
  | @pop_last s' hs ih =>
    obtain ⟨hc, abs, hrepn⟩ := ih
    by_cases hcount : s'.count = 0
    · have heval := skiplist_pop_last_empty_spec hcount
      exact ⟨by rw [heval]; exact hc, abs, by rw [heval]; exact hrepn⟩
    · rcases habs : abs with _ | ⟨f, abs'⟩
      · subst habs
        have heval := skiplist_pop_last_nil_spec hrepn hcount
        exact ⟨by rw [heval]; exact hc, [], by rw [heval]; exact hrepn⟩
      · subst habs
        obtain ⟨-, hrep2, -, -, -, -, hcmp2⟩ :=
          skiplist_pop_last_cons_spec hrepn hcount (by simp)
        exact ⟨by rw [hcmp2]; exact hc, _, hrep2⟩
  | @clear s' hs ih =>
    obtain ⟨hc, abs, hrepn⟩ := ih
    obtain ⟨-, -, hrep2, -, -, -, hcmp2⟩ := skiplist_clear_spec hrepn
    exact ⟨by rw [hcmp2]; exact hc, [], hrep2⟩

/-! ## Concrete comparator and example states -/

theorem lawful_intCmp : LawfulCmp intCmp := by
  constructor
  · intro a b
    unfold intCmp
    split_ifs <;> omega
  · intro a b c
    unfold intCmp
    split_ifs <;> omega

theorem lawful_cmp_self {cmp : K → K → Int} (hc : LawfulCmp cmp) (a : K) :
    cmp a a = 0 := by
  have h := hc.flip a a
  rcases lt_trichotomy (cmp a a) 0 with h1 | h1 | h1
  · have := h.mp h1
    omega
  · exact h1
  · have := h.mpr h1
    omega

theorem dropWhile_all_append {α : Type} (p : α → Bool) :
    ∀ (l₁ : List α) (y : α) (l₂ : List α), (∀ x ∈ l₁, p x = true) →
      p y = false → (l₁ ++ y :: l₂).dropWhile p = y :: l₂
  | [], y, l₂, _, hy => by
    rw [List.nil_append, List.dropWhile_cons, if_neg (by simp [hy])]
  | x :: l₁, y, l₂, hall, hy => by
    have hx : p x = true := hall x (by simp)
    rw [List.cons_append, List.dropWhile_cons, if_pos (by simp [hx])]
    exact dropWhile_all_append p l₁ y l₂ (fun z hz => hall z (by simp [hz])) hy

/-! ## The claims -/

/-- C1: the spec says that after every public operation the `count` field
equals the number of real nodes reachable by a level-0 traversal, and that
after `skiplist_clear` a subsequent `skiplist_count` returns 0 and
`skiplist_empty` returns true.  The code disagrees: `skiplist_clear` frees
every node and resets the head forward pointers but never touches
`sl->count`, so after clearing a one-element container the level-0 traversal
is empty while the count stays 1 and the container does not report empty. -/
theorem C1_clear_leaves_count_stale :
    levelChain (skiplist_clear exOne).2.2 0 = [] ∧
    skiplist_count (skiplist_clear exOne).2.2 = 1 ∧
    skiplist_empty (skiplist_clear exOne).2.2 = false := by
  decide

/-- C2: for every container reachable by any sequence of public operations
(duplicate keys permitted) and every level `L`, the level-`L` list reachable
from the head is sorted by the comparator (non-decreasing: consecutive nodes
compare `≤ 0`; the strict version claimed by the spec fails on duplicates)
and terminated by the sentinel, and every node present at level `L` is
present at every level `0..L`. -/
theorem C2_level_chains_sorted [Inhabited K] [Inhabited V] {s : SL K V}
    (h : Reachable s) (L : Nat) :
    List.Pairwise (fun a b => s.cmp (kOf s a) (kOf s b) ≤ 0)
      (levelChain s L) ∧
    linkedB s L (levelChain s L) = true ∧
    (∀ a ∈ levelChain s L, ∀ L' ≤ L, a ∈ levelChain s L') := by
  obtain ⟨hc, abs, hrepn⟩ := reachable_inv h
  by_cases hL : L < headHeight s
  · have hlc := levelChain_eq hrepn hL
    refine ⟨?_, ?_, ?_⟩
    · rw [hlc]
      exact (rep_sorted hrepn).sublist (List.filter_sublist abs)
    · rw [hlc]
      rcases hfl : filterLevel s abs L with _ | ⟨x, xs⟩
      · rfl
      · have hch := rep_chains hrepn L hL
        rw [hfl] at hch
        exact linkedB_suffix s L [s.headAddr] _ (by simp) (by simpa using hch)
    · intro a ha L' hL'
      rw [hlc] at ha
      obtain ⟨hamem, hah⟩ := mem_filterLevel.mp ha
      have hL'lt : L' < headHeight s := lt_of_le_of_lt hL' hL
      rw [levelChain_eq hrepn hL'lt]
      exact mem_filterLevel.mpr ⟨hamem, lt_of_le_of_lt hL' hah⟩
  · rw [levelChain_top hrepn (Nat.le_of_not_lt hL)]
    exact ⟨List.Pairwise.nil, rfl, by simp⟩

theorem C2_level_chains_sorted_witness :
    List.Pairwise (fun a b => exOne.cmp (kOf exOne a) (kOf exOne b) ≤ 0)
      (levelChain exOne 0) ∧
    linkedB exOne 0 (levelChain exOne 0) = true ∧
    (∀ a ∈ levelChain exOne 0, ∀ L' ≤ 0, a ∈ levelChain exOne L') :=
  C2_level_chains_sorted
    (Reachable.add (Reachable.new intCmp lawful_intCmp) 5 50 1 [true]
      (le_refl 1)) 0

/-- C3: `skiplist_add` returns false only on allocation failure — of the new
node, or of the grown head when the drawn height exceeds the current head
height — and on any such failure the container keeps its prior state: the
invariant still holds for the same live nodes, the count and head are
unchanged, and every per-level chain is exactly as before (the failed node is
never linked in at any level). -/
theorem C3_insert_false_only_on_alloc_failure [Inhabited K] [Inhabited V]
    {s : SL K V} {abs : List Nat} (hrep : Rep s abs) (hc : LawfulCmp s.cmp)
    (key : K) (value : V) (newHeight : Nat) (ao : List Bool) :
    ((skiplist_add s key value newHeight ao).ok = false ↔
      (ao.getD 0 true = false ∨
        (headHeight s < newHeight ∧ ao.getD 1 true = false))) ∧
    ((skiplist_add s key value newHeight ao).ok = false →
      Rep (skiplist_add s key value newHeight ao).sl abs ∧
      (skiplist_add s key value newHeight ao).sl.count = s.count ∧
      (skiplist_add s key value newHeight ao).sl.headAddr = s.headAddr ∧
      (∀ L, levelChain (skiplist_add s key value newHeight ao).sl L =
        levelChain s L)) := by
  have hmiss : false = true → ∀ a ∈ abs, s.cmp (kOf s a) key ≠ 0 :=
    fun hco => absurd hco (by decide)
  obtain ⟨hok, hsl⟩ := add_or_set_insert_eval hrep.1 hc false key value none
    newHeight ao hmiss
  constructor
  · rw [show (skiplist_add s key value newHeight ao).ok =
      (add_or_set s false key value none newHeight ao).ok from rfl, hok]
    by_cases h0 : ao.getD 0 true = false
    · rw [if_pos h0]
      exact ⟨fun _ => Or.inl h0, fun _ => rfl⟩
    · rw [if_neg h0]
      by_cases hg : headHeight s < newHeight
      · rw [if_pos hg]
        by_cases h1f : ao.getD 1 true = false
        · rw [if_pos h1f]
          exact ⟨fun _ => Or.inr ⟨hg, h1f⟩, fun _ => rfl⟩
        · rw [if_neg h1f]
          constructor
          · intro hco
            exact absurd hco (by decide)
          · intro hor
            rcases hor with h | ⟨-, h⟩
            · exact absurd h h0
            · exact absurd h h1f
      · rw [if_neg hg]
        constructor
        · intro hco
          exact absurd hco (by decide)
        · intro hor
          rcases hor with h | ⟨hg2, -⟩
          · exact absurd h h0
          · exact absurd hg2 hg
  · intro hfail
    rw [show (skiplist_add s key value newHeight ao).ok =
      (add_or_set s false key value none newHeight ao).ok from rfl, hok]
      at hfail
    have hsl' : (skiplist_add s key value newHeight ao).sl =
        (add_or_set s false key value none newHeight ao).sl := rfl
    by_cases h0 : ao.getD 0 true = false
    · rw [if_pos h0] at hsl
      rw [hsl', hsl]
      exact ⟨hrep, rfl, rfl, fun L => rfl⟩
    · rw [if_neg h0] at hfail hsl
      by_cases hg : headHeight s < newHeight
      · rw [if_pos hg] at hfail hsl
        by_cases h1f : ao.getD 1 true = false
        · rw [if_pos h1f] at hsl
          rw [hsl', hsl]
          have hrepn2 : RepN (allocNode s newHeight key value).1 abs :=
            repN_allocNode hrep.1 newHeight key value
          have hhdle : s.headAddr ≤ s.heap.length :=
            (nodeOkB_props (rep_head_ok hrep.1)).2.1
          have hHH : headHeight (allocNode s newHeight key value).1 =
              headHeight s := by
            unfold headHeight
            rw [headAddr_allocNode, hOf_allocNode_old s newHeight key value
              hhdle]
          refine ⟨⟨hrepn2, ?_⟩, count_allocNode s newHeight key value,
            headAddr_allocNode s newHeight key value, ?_⟩
          · rw [count_allocNode]
            exact hrep.2
          · intro L
            by_cases hL : L < headHeight s
            · rw [levelChain_eq hrepn2 (by rw [hHH]; exact hL),
                levelChain_eq hrep.1 hL]
              unfold filterLevel
              apply List.filter_congr
              intro a ha
              have hale : a ≤ s.heap.length :=
                (nodeOkB_props (rep_mem_ok hrep.1 (by simp [ha]))).2.1
              rw [hOf_allocNode_old s newHeight key value hale]
            · rw [levelChain_top hrepn2 (by rw [hHH]; omega),
                levelChain_top hrep.1 (by omega)]
        · rw [if_neg h1f] at hfail
          exact absurd hfail (by decide)
      · rw [if_neg hg] at hfail
        exact absurd hfail (by decide)

theorem C3_insert_false_only_on_alloc_failure_witness :
    Rep exOne [2] ∧ LawfulCmp exOne.cmp ∧
    (((skiplist_add exOne 9 90 1 [false]).ok = false ↔
      (([false] : List Bool).getD 0 true = false ∨
        (headHeight exOne < 1 ∧ ([false] : List Bool).getD 1 true = false))) ∧
    ((skiplist_add exOne 9 90 1 [false]).ok = false →
      Rep (skiplist_add exOne 9 90 1 [false]).sl [2] ∧
      (skiplist_add exOne 9 90 1 [false]).sl.count = exOne.count ∧
      (skiplist_add exOne 9 90 1 [false]).sl.headAddr = exOne.headAddr ∧
      (∀ L, levelChain (skiplist_add exOne 9 90 1 [false]).sl L =
        levelChain exOne L))) :=
  ⟨by decide, lawful_intCmp,
   C3_insert_false_only_on_alloc_failure (by decide) lawful_intCmp 9 90 1
     [false]⟩

theorem lawful_divCmp : LawfulCmp divCmp := by
  constructor
  · intro a b
    exact lawful_intCmp.flip (a / 10) (b / 10)
  · intro a b c
    exact lawful_intCmp.le_trans (a / 10) (b / 10) (c / 10)

/-- C4: on a container holding entries whose keys compare equal to `key`,
interleaved with entries of other keys, `skiplist_delete_all` invokes the
disposal callback exactly once per matching entry, decrements the count by
the number of matches, and leaves exactly the non-matching entries, still
satisfying the full invariant (correctly linked at every level, keys and
values intact). -/
theorem C4_remove_all_correct [Inhabited K] [Inhabited V] {s : SL K V}
    {abs : List Nat} (hrep : Rep s abs) (hc : LawfulCmp s.cmp) (key : K) :
    (skiplist_delete_all s key).calls.length =
      (abs.filter (fun a => decide (s.cmp (kOf s a) key = 0))).length ∧
    (skiplist_delete_all s key).sl.count =
      s.count -
        (abs.filter (fun a => decide (s.cmp (kOf s a) key = 0))).length ∧
    Rep (skiplist_delete_all s key).sl
      (abs.filter (fun a => decide (¬ s.cmp (kOf s a) key = 0))) ∧
    (∀ a, kOf (skiplist_delete_all s key).sl a = kOf s a ∧
      vOf (skiplist_delete_all s key).sl a = vOf s a) := by
  by_cases hE : abs.filter (fun a => decide (s.cmp (kOf s a) key = 0)) = []
  · have hne : ∀ a ∈ abs, s.cmp (kOf s a) key ≠ 0 := by
      intro a ha heq
      have hmem : a ∈ abs.filter
          (fun a => decide (s.cmp (kOf s a) key = 0)) :=
        List.mem_filter.mpr ⟨ha, by simpa using heq⟩
      rw [hE] at hmem
      simp at hmem
    have heval := skiplist_delete_all_notfound_spec hrep.1 hc hne
    have hfilter : abs.filter
        (fun a => decide (¬ s.cmp (kOf s a) key = 0)) = abs := by
      rw [List.filter_eq_self]
      intro a ha
      simpa using hne a ha
    rw [heval, hE, hfilter]
    exact ⟨rfl, rfl, hrep, fun a => ⟨rfl, rfl⟩⟩
  · obtain ⟨hsplit, hGgt, hfne⟩ := geSuffix_run_split hrep.1 hc key
    have hEeq : ∀ e ∈ abs.filter
        (fun a => decide (s.cmp (kOf s a) key = 0)),
        s.cmp (kOf s e) key = 0 := by
      intro e he
      have := (List.mem_filter.mp he).2
      simpa using this
    obtain ⟨-, hcalls, hrep2, hcount2, -, hkv2, -⟩ :=
      skiplist_delete_all_found_spec hrep.1 hc hsplit hEeq hGgt hE
    have habs2 := abs_decomp hrep.1 hc key
    have hlen1 : abs.length =
        (ltFilter s key abs 0).length + (geSuffix s key abs 0).length := by
      conv_lhs => rw [habs2]
      simp [List.length_append]
    have hlen2 : (geSuffix s key abs 0).length =
        (abs.filter (fun a => decide (s.cmp (kOf s a) key = 0))).length +
        ((geSuffix s key abs 0).dropWhile
          (fun a => decide (s.cmp (kOf s a) key = 0))).length := by
      conv_lhs => rw [hsplit]
      simp [List.length_append]
    have hlen3 : (abs.filter
        (fun a => decide (¬ s.cmp (kOf s a) key = 0))).length =
        (ltFilter s key abs 0).length +
        ((geSuffix s key abs 0).dropWhile
          (fun a => decide (s.cmp (kOf s a) key = 0))).length := by
      rw [hfne]
      simp [List.length_append]
    refine ⟨?_, hcount2, ⟨?_, ?_⟩, hkv2⟩
    · rw [hcalls]
      simp
    · rw [hfne]
      exact hrep2
    · rw [hcount2, hrep.2]
      omega

theorem C4_remove_all_correct_witness :
    Rep exTwo [2, 3] ∧ LawfulCmp exTwo.cmp ∧
    ((skiplist_delete_all exTwo 5).calls.length =
      ([2, 3].filter
        (fun a => decide (exTwo.cmp (kOf exTwo a) 5 = 0))).length ∧
    (skiplist_delete_all exTwo 5).sl.count =
      exTwo.count -
        ([2, 3].filter
          (fun a => decide (exTwo.cmp (kOf exTwo a) 5 = 0))).length ∧
    Rep (skiplist_delete_all exTwo 5).sl
      ([2, 3].filter (fun a => decide (¬ exTwo.cmp (kOf exTwo a) 5 = 0))) ∧
    (∀ a, kOf (skiplist_delete_all exTwo 5).sl a = kOf exTwo a ∧
      vOf (skiplist_delete_all exTwo 5).sl a = vOf exTwo a)) :=
  ⟨by decide, lawful_intCmp,
   C4_remove_all_correct (by decide) lawful_intCmp 5⟩

/-- C9: every disposal-callback invocation made by `skiplist_delete_all`
receives the caller's search-key argument as its key parameter — the trace
is exactly one `(key, value-of-matching-node)` entry per comparator-equal
node, in order; the key stored in the freed node is never passed. -/
theorem C9_remove_all_callback_search_key [Inhabited K] [Inhabited V]
    {s : SL K V} {abs : List Nat} (hrepn : RepN s abs) (hc : LawfulCmp s.cmp)
    (key : K) :
    (skiplist_delete_all s key).calls =
      (abs.filter (fun a => decide (s.cmp (kOf s a) key = 0))).map
        (fun a => (key, vOf s a)) ∧
    ∀ c ∈ (skiplist_delete_all s key).calls, c.1 = key := by
  have hmain : (skiplist_delete_all s key).calls =
      (abs.filter (fun a => decide (s.cmp (kOf s a) key = 0))).map
        (fun a => (key, vOf s a)) := by
    by_cases hE : abs.filter (fun a => decide (s.cmp (kOf s a) key = 0)) = []
    · have hne : ∀ a ∈ abs, s.cmp (kOf s a) key ≠ 0 := by
        intro a ha heq
        have hmem : a ∈ abs.filter
            (fun a => decide (s.cmp (kOf s a) key = 0)) :=
          List.mem_filter.mpr ⟨ha, by simpa using heq⟩
        rw [hE] at hmem
        simp at hmem
      have heval := skiplist_delete_all_notfound_spec hrepn hc hne
      rw [heval, hE]
      rfl
    · obtain ⟨hsplit, hGgt, -⟩ := geSuffix_run_split hrepn hc key
      have hEeq : ∀ e ∈ abs.filter
          (fun a => decide (s.cmp (kOf s a) key = 0)),
          s.cmp (kOf s e) key = 0 := by
        intro e he
        have := (List.mem_filter.mp he).2
        simpa using this
      obtain ⟨-, hcalls, -, -, -, -, -⟩ :=
        skiplist_delete_all_found_spec hrepn hc hsplit hEeq hGgt hE
      exact hcalls
  refine ⟨hmain, ?_⟩
  intro c hcm
  rw [hmain] at hcm
  obtain ⟨a, -, ha⟩ := List.mem_map.mp hcm
  rw [← ha]

theorem C9_remove_all_callback_search_key_witness :
    RepN exRef [3, 2] ∧ LawfulCmp exRef.cmp ∧
    ((skiplist_delete_all exRef 50).calls =
      ([3, 2].filter
        (fun a => decide (exRef.cmp (kOf exRef a) 50 = 0))).map
        (fun a => (50, vOf exRef a)) ∧
    ∀ c ∈ (skiplist_delete_all exRef 50).calls, c.1 = 50) :=
  ⟨by decide, lawful_divCmp,
   C9_remove_all_callback_search_key (by decide) lawful_divCmp 50⟩

theorem dropWhile_congr {α : Type} (p q : α → Bool) :
    ∀ (l : List α), (∀ a ∈ l, p a = q a) → l.dropWhile p = l.dropWhile q
  | [], _ => rfl
  | x :: l, h => by
    rw [List.dropWhile_cons, List.dropWhile_cons, h x (by simp)]
    split
    · exact dropWhile_congr p q l (fun a ha => h a (by simp [ha]))
    · rfl

/-- C5: when a comparator-equal key is present, upsert replaces the value of
the first matching entry in place — the result is exactly `setVal` on the
matching cell, so no node is allocated and the heap size is unchanged —
returns true, reports the previous value through `old`, leaves the count
unchanged, and a subsequent lookup yields the new value. -/
theorem C5_upsert_replaces_in_place [Inhabited K] [Inhabited V] {s : SL K V}
    {abs : List Nat} (hrep : Rep s abs) (hc : LawfulCmp s.cmp) {key : K}
    (value : V) (old : Option (Option V)) (newHeight : Nat) (ao : List Bool)
    (cell : Option (Option V))
    (hex : ∃ a ∈ abs, s.cmp (kOf s a) key = 0) :
    (skiplist_set s key value old newHeight ao).ok = true ∧
    (skiplist_set s key value old newHeight ao).sl =
      setVal s ((geSuffix s key abs 0).headD 0) value ∧
    (skiplist_set s key value old newHeight ao).old =
      old.map (fun _ => some (vOf s ((geSuffix s key abs 0).headD 0))) ∧
    (skiplist_set s key value old newHeight ao).sl.count = s.count ∧
    (skiplist_set s key value old newHeight ao).sl.heap.length =
      s.heap.length ∧
    Rep (skiplist_set s key value old newHeight ao).sl abs ∧
    skiplist_get (skiplist_set s key value old newHeight ao).sl key cell =
      (true, cell.map (fun _ => some value)) := by
  have heval := set_replace_spec hrep.1 hc value old newHeight ao hex
  set d := (geSuffix s key abs 0).headD 0 with hddef
  have hdne : geSuffix s key abs 0 ≠ [] := by
    intro hnil
    obtain ⟨a, ha, heq⟩ := hex
    have hlt := (geSuffix_nil_iff hrep.1 hc key).mp hnil a ha
    have hsome := (nodeOkB_props (rep_mem_ok hrep.1 ha)).2.2
    rw [cmpRes_eq_of_isSome hsome key, heq] at hlt
    omega
  have hdmem : d ∈ abs := by
    rcases hgs : geSuffix s key abs 0 with _ | ⟨e, D⟩
    · exact absurd hgs hdne
    · rw [hddef, hgs]
      simp only [List.headD_cons]
      exact mem_geSuffix_mem_abs (by rw [hgs]; simp)
  have hrep' : RepN (setVal s d value) abs :=
    repN_setVal hrep.1 _ _
  have hc' : LawfulCmp (setVal s d value).cmp := by
    rw [cmp_setVal]
    exact hc
  have hex' : ∃ a ∈ abs,
      (setVal s d value).cmp (kOf (setVal s d value) a) key = 0 := by
    obtain ⟨a, ha, heq⟩ := hex
    exact ⟨a, ha, by rw [cmp_setVal, kOf_setVal]; exact heq⟩
  have hget := skiplist_get_found_spec hrep' hc' cell hex'
  have hfl : filterLevel (setVal s d value) abs 0 = filterLevel s abs 0 := by
    unfold filterLevel
    exact List.filter_congr (fun a _ => by rw [hOf_setVal])
  have hgeq : geSuffix (setVal s d value) key abs 0 =
      geSuffix s key abs 0 := by
    unfold geSuffix
    rw [hfl]
    exact dropWhile_congr _ _ _ (fun a _ => by rw [cmpRes_setVal])
  have hvd : vOf (setVal s d value) d = value :=
    vOf_setVal_self s value (rep_mem_ok hrep.1 hdmem)
  refine ⟨by rw [heval], by rw [heval], by rw [heval], ?_, ?_, ?_, ?_⟩
  · rw [heval]
    exact count_setVal s _ _
  · rw [heval]
    exact heapLength_setVal s _ _
  · rw [heval]
    refine ⟨hrep', ?_⟩
    rw [count_setVal]
    exact hrep.2
  · rw [heval]
    rw [hget, hgeq]
    simp only [hvd]

theorem C5_upsert_replaces_in_place_witness :
    Rep exOne [2] ∧ LawfulCmp exOne.cmp ∧
    (2 ∈ ([2] : List Nat) ∧ exOne.cmp (kOf exOne 2) 5 = 0) ∧
    ((skiplist_set exOne 5 99 (some none) 1 [true]).ok = true ∧
    (skiplist_set exOne 5 99 (some none) 1 [true]).sl =
      setVal exOne ((geSuffix exOne 5 [2] 0).headD 0) 99 ∧
    (skiplist_set exOne 5 99 (some none) 1 [true]).old =
      (some (none : Option Int)).map
        (fun _ => some (vOf exOne ((geSuffix exOne 5 [2] 0).headD 0))) ∧
    (skiplist_set exOne 5 99 (some none) 1 [true]).sl.count = exOne.count ∧
    (skiplist_set exOne 5 99 (some none) 1 [true]).sl.heap.length =
      exOne.heap.length ∧
    Rep (skiplist_set exOne 5 99 (some none) 1 [true]).sl [2] ∧
    skiplist_get (skiplist_set exOne 5 99 (some none) 1 [true]).sl 5 none =
      (true, (none : Option (Option Int)).map (fun _ => some 99))) :=
  ⟨by decide, lawful_intCmp, ⟨by decide, by decide⟩,
   C5_upsert_replaces_in_place (by decide) lawful_intCmp 99 (some none) 1
     [true] none ⟨2, by decide, by decide⟩⟩

/-- C8: when upsert finds no matching key and therefore inserts, the
caller's `old` cell is written NULL exactly when the level-0 successor at
the insertion point is a real non-matching node — that is, when some stored
key is comparator-greater than the search key; when the successor is the
sentinel (empty container, or search key greater than every stored key), the
cell is left untouched. -/
theorem C8_upsert_miss_old_cell [Inhabited K] [Inhabited V] {s : SL K V}
    {abs : List Nat} (hrepn : RepN s abs) (hc : LawfulCmp s.cmp) {key : K}
    (value : V) (old : Option (Option V)) (newHeight : Nat) (ao : List Bool)
    (hne : ∀ a ∈ abs, s.cmp (kOf s a) key ≠ 0) :
    ((∀ a ∈ abs, s.cmp (kOf s a) key < 0) →
      (skiplist_set s key value old newHeight ao).old = old) ∧
    ((∃ a ∈ abs, 0 < s.cmp (kOf s a) key) →
      (skiplist_set s key value old newHeight ao).old =
        old.map (fun _ => none)) := by
  obtain ⟨hsent, hreal⟩ :=
    set_insert_old_spec hrepn hc key value old newHeight ao hne
  constructor
  · intro hall
    apply hsent
    rw [geSuffix_nil_iff hrepn hc key]
    intro a ha
    have hsome := (nodeOkB_props (rep_mem_ok hrepn ha)).2.2
    rw [cmpRes_eq_of_isSome hsome key]
    exact hall a ha
  · intro hex
    apply hreal
    intro hnil
    obtain ⟨a, ha, hgt⟩ := hex
    have hlt := (geSuffix_nil_iff hrepn hc key).mp hnil a ha
    have hsome := (nodeOkB_props (rep_mem_ok hrepn ha)).2.2
    rw [cmpRes_eq_of_isSome hsome key] at hlt
    omega

theorem C8_upsert_miss_old_cell_witness :
    RepN exOne [2] ∧ LawfulCmp exOne.cmp ∧
    (∀ a ∈ ([2] : List Nat), exOne.cmp (kOf exOne a) 3 ≠ 0) ∧
    (2 ∈ ([2] : List Nat) ∧ 0 < exOne.cmp (kOf exOne 2) 3) ∧
    ((∀ a ∈ ([2] : List Nat), exOne.cmp (kOf exOne a) 3 < 0) →
      (skiplist_set exOne 3 30 (some none) 1 [true]).old = some none) ∧
    ((∃ a ∈ ([2] : List Nat), 0 < exOne.cmp (kOf exOne a) 3) →
      (skiplist_set exOne 3 30 (some none) 1 [true]).old =
        (some (none : Option Int)).map (fun _ => none)) :=
  ⟨by decide, lawful_intCmp, by decide, ⟨by decide, by decide⟩,
   (C8_upsert_miss_old_cell (by decide) lawful_intCmp 30 (some none) 1
     [true] (by decide)).1,
   (C8_upsert_miss_old_cell (by decide) lawful_intCmp 30 (some none) 1
     [true] (by decide)).2⟩

/-- C10: a successful plain insert places the new node (at the fresh
address) after every entry with a strictly smaller key and immediately
before every entry whose key compares equal or greater — in particular
before all previously inserted comparator-equal duplicates — so level-0
iteration meets the newest duplicate first, and when no strictly smaller key
is stored, `pop_first` returns the new entry. -/
theorem C10_insert_before_equal_keys [Inhabited K] [Inhabited V] {s : SL K V}
    {abs : List Nat} (hrep : Rep s abs) (hc : LawfulCmp s.cmp) (key : K)
    (value : V) {newHeight : Nat} (ao : List Bool) (h1 : 1 ≤ newHeight)
    (hao0 : ao.getD 0 true = true)
    (hao1 : headHeight s < newHeight → ao.getD 1 true = true) :
    levelChain (skiplist_add s key value newHeight ao).sl 0 =
      ltFilter s key abs 0 ++ (s.heap.length + 1) :: geSuffix s key abs 0 ∧
    kOf (skiplist_add s key value newHeight ao).sl (s.heap.length + 1) =
      key ∧
    vOf (skiplist_add s key value newHeight ao).sl (s.heap.length + 1) =
      value ∧
    (∀ a ∈ ltFilter s key abs 0, s.cmp (kOf s a) key < 0) ∧
    (∀ a ∈ geSuffix s key abs 0, 0 ≤ s.cmp (kOf s a) key) ∧
    (ltFilter s key abs 0 = [] →
      (skiplist_pop_first (skiplist_add s key value newHeight ao).sl).1 =
        some (key, value)) := by
  rw [show skiplist_add s key value newHeight ao =
    add_or_set s false key value none newHeight ao from rfl]
  obtain ⟨hok, hrep2, hknn, hvnn, hold, hcount⟩ :=
    add_or_set_insert_ok hrep hc false key value none ao h1
      (fun hco => absurd hco (by decide)) hao0 hao1
  have hH0 : 0 < headHeight (add_or_set s false key value none newHeight
      ao).sl := rep_headH hrep2.1
  have hchain0 : levelChain (add_or_set s false key value none newHeight
      ao).sl 0 =
      ltFilter s key abs 0 ++ (s.heap.length + 1) ::
        geSuffix s key abs 0 := by
    rw [levelChain_eq hrep2.1 hH0, filterLevel_zero hrep2.1]
  refine ⟨hchain0, hknn, hvnn, ?_, ?_, ?_⟩
  · intro a ha
    have hmem : a ∈ abs := mem_ltFilter_mem_abs ha
    have hsome := (nodeOkB_props (rep_mem_ok hrep.1 hmem)).2.2
    have hlt := (List.mem_filter.mp ha).2
    rw [cmpRes_eq_of_isSome hsome key] at hlt
    simpa using hlt
  · intro a ha
    have hmem : a ∈ abs := mem_geSuffix_mem_abs ha
    have hsome := (nodeOkB_props (rep_mem_ok hrep.1 hmem)).2.2
    have hge := (fl_split hrep.1 hc key 0).2 a ha
    rw [cmpRes_eq_of_isSome hsome key] at hge
    omega
  · intro hlt0
    have habs2 : ltFilter s key abs 0 ++ (s.heap.length + 1) ::
        geSuffix s key abs 0 = (s.heap.length + 1) ::
        geSuffix s key abs 0 := by
      rw [hlt0, List.nil_append]
    obtain ⟨hpop1, -, -, -, -, -, -⟩ :=
      skiplist_pop_first_cons_spec hrep2.1 habs2
    rw [hpop1, hknn, hvnn]

theorem C10_insert_before_equal_keys_witness :
    Rep (skiplist_add exNew 5 1 1 [true]).sl [2] ∧
    LawfulCmp (skiplist_add exNew 5 1 1 [true]).sl.cmp ∧
    (levelChain
        (skiplist_add (skiplist_add exNew 5 1 1 [true]).sl 5 2 1 [true]).sl
        0 =
      ltFilter (skiplist_add exNew 5 1 1 [true]).sl 5 [2] 0 ++
        ((skiplist_add exNew 5 1 1 [true]).sl.heap.length + 1) ::
          geSuffix (skiplist_add exNew 5 1 1 [true]).sl 5 [2] 0 ∧
    kOf (skiplist_add (skiplist_add exNew 5 1 1 [true]).sl 5 2 1 [true]).sl
      ((skiplist_add exNew 5 1 1 [true]).sl.heap.length + 1) = 5 ∧
    vOf (skiplist_add (skiplist_add exNew 5 1 1 [true]).sl 5 2 1 [true]).sl
      ((skiplist_add exNew 5 1 1 [true]).sl.heap.length + 1) = 2 ∧
    (∀ a ∈ ltFilter (skiplist_add exNew 5 1 1 [true]).sl 5 [2] 0,
      (skiplist_add exNew 5 1 1 [true]).sl.cmp
        (kOf (skiplist_add exNew 5 1 1 [true]).sl a) 5 < 0) ∧
    (∀ a ∈ geSuffix (skiplist_add exNew 5 1 1 [true]).sl 5 [2] 0,
      0 ≤ (skiplist_add exNew 5 1 1 [true]).sl.cmp
        (kOf (skiplist_add exNew 5 1 1 [true]).sl a) 5) ∧
    (ltFilter (skiplist_add exNew 5 1 1 [true]).sl 5 [2] 0 = [] →
      (skiplist_pop_first
        (skiplist_add (skiplist_add exNew 5 1 1 [true]).sl 5 2 1
          [true]).sl).1 = some (5, 2))) :=
  ⟨by decide, lawful_intCmp,
   C10_insert_before_equal_keys (by decide) lawful_intCmp 5 2 [true]
     (le_refl 1) (by decide) (fun h => absurd h (by decide))⟩

theorem drainFirst_spec [Inhabited K] [Inhabited V] :
    ∀ (abs : List Nat) (s : SL K V) (fuel : Nat), Rep s abs →
      abs.length ≤ fuel →
      (drainFirst fuel s).1 = abs.map (fun a => (kOf s a, vOf s a)) ∧
      (drainFirst fuel s).2.count = 0
  | [], s, fuel, hrep, _ => by
    rcases fuel with _ | f
    · exact ⟨rfl, hrep.2⟩
    · have hpop := skiplist_pop_first_nil_spec hrep.1
      simp only [drainFirst, hpop]
      exact ⟨rfl, hrep.2⟩
  | f0 :: abs', s, fuel, hrep, hfuel => by
    rcases fuel with _ | f
    · simp at hfuel
    · obtain ⟨h1, hrep2, hcount2, hkv2, -, -, -⟩ :=
        skiplist_pop_first_cons_spec hrep.1 (rfl : f0 :: abs' = f0 :: abs')
      have hrep2' : Rep (skiplist_pop_first s).2 abs' := by
        refine ⟨hrep2, ?_⟩
        rw [hcount2, hrep.2]
        simp
      have hlen2 : abs'.length ≤ f := by
        simp only [List.length_cons] at hfuel
        omega
      obtain ⟨ih1, ih2⟩ := drainFirst_spec abs' (skiplist_pop_first s).2 f
        hrep2' hlen2
      have hmap : abs'.map (fun a => (kOf (skiplist_pop_first s).2 a,
          vOf (skiplist_pop_first s).2 a)) =
          abs'.map (fun a => (kOf s a, vOf s a)) :=
        List.map_congr_left (fun a _ => by rw [(hkv2 a).1, (hkv2 a).2])
      simp only [drainFirst, h1]
      rw [ih1, hmap]
      exact ⟨rfl, ih2⟩

theorem drainLast_spec [Inhabited K] [Inhabited V] :
    ∀ (fuel : Nat) (abs : List Nat) (s : SL K V), Rep s abs →
      abs.length ≤ fuel →
      (drainLast fuel s).1 =
        (abs.map (fun a => (kOf s a, vOf s a))).reverse ∧
      (drainLast fuel s).2.count = 0
  | 0, abs, s, hrep, hfuel => by
    have habs : abs = [] := List.length_eq_zero.mp (by omega)
    subst habs
    exact ⟨rfl, hrep.2⟩
  | fuel + 1, abs, s, hrep, hfuel => by
    rcases habs : abs with _ | ⟨f0, abs'⟩
    · subst habs
      have hcount : s.count = 0 := hrep.2
      have hpop := skiplist_pop_last_empty_spec hcount
      simp only [drainLast, hpop]
      exact ⟨rfl, hcount⟩
    · subst habs
      have hcne : ¬ (s.count = 0) := by
        rw [hrep.2]
        simp
      obtain ⟨h1, hrep2, hcount2, hkv2, -, -, -⟩ :=
        skiplist_pop_last_cons_spec hrep.1 hcne (by simp)
      have hrep2' : Rep (skiplist_pop_last s).2 ((f0 :: abs').dropLast) := by
        refine ⟨hrep2, ?_⟩
        rw [hcount2, hrep.2]
        simp
      have hlen2 : ((f0 :: abs').dropLast).length ≤ fuel := by
        simp only [List.length_cons] at hfuel
        simp only [List.length_dropLast, List.length_cons]
        omega
      obtain ⟨ih1, ih2⟩ := drainLast_spec fuel _ _ hrep2' hlen2
      have hmap : ((f0 :: abs').dropLast).map
          (fun a => (kOf (skiplist_pop_last s).2 a,
            vOf (skiplist_pop_last s).2 a)) =
          ((f0 :: abs').dropLast).map (fun a => (kOf s a, vOf s a)) :=
        List.map_congr_left (fun a _ => by rw [(hkv2 a).1, (hkv2 a).2])
      simp only [drainLast, h1]
      rw [ih1, hmap]
      refine ⟨?_, ih2⟩
      have hsplit : f0 :: abs' = (f0 :: abs').dropLast ++
          [(f0 :: abs').getLast (by simp)] :=
        (List.dropLast_append_getLast (by simp)).symm
      conv_rhs => rw [hsplit]
      simp

/-- C6: popping first until empty yields the entries in level-0 order, so
the keys come out non-decreasing; popping last until empty yields them in
reverse, so the keys come out non-increasing; both leave the count at zero;
and `skiplist_pop_last` on an empty container reports not-found and returns
the container unchanged. -/
theorem C6_pop_drain_order [Inhabited K] [Inhabited V] {s : SL K V}
    {abs : List Nat} (hrep : Rep s abs) (hc : LawfulCmp s.cmp) (fuel : Nat)
    (hfuel : abs.length ≤ fuel) :
    ((drainFirst fuel s).1.map Prod.fst = abs.map (kOf s) ∧
     List.Pairwise (fun x y => s.cmp x y ≤ 0)
       ((drainFirst fuel s).1.map Prod.fst) ∧
     (drainFirst fuel s).2.count = 0) ∧
    ((drainLast fuel s).1.map Prod.fst = (abs.map (kOf s)).reverse ∧
     List.Pairwise (fun x y => s.cmp y x ≤ 0)
       ((drainLast fuel s).1.map Prod.fst) ∧
     (drainLast fuel s).2.count = 0) ∧
    (s.count = 0 → skiplist_pop_last s = (none, s)) := by
  obtain ⟨hd1, hd2⟩ := drainFirst_spec abs s fuel hrep hfuel
  obtain ⟨hl1, hl2⟩ := drainLast_spec fuel abs s hrep hfuel
  have hmapfst : (abs.map (fun a => (kOf s a, vOf s a))).map Prod.fst =
      abs.map (kOf s) := by
    rw [List.map_map]
    rfl
  have hpair : List.Pairwise (fun x y => s.cmp x y ≤ 0)
      (abs.map (kOf s)) :=
    List.Pairwise.map _ (fun a b hab => hab) (rep_sorted hrep.1)
  refine ⟨⟨?_, ?_, hd2⟩, ⟨?_, ?_, hl2⟩,
    fun h0 => skiplist_pop_last_empty_spec h0⟩
  · rw [hd1, hmapfst]
  · rw [hd1, hmapfst]
    exact hpair
  · rw [hl1, List.map_reverse, hmapfst]
  · rw [hl1, List.map_reverse, hmapfst, List.pairwise_reverse]
    exact hpair

theorem C6_pop_drain_order_witness :
    Rep exTwo [2, 3] ∧ LawfulCmp exTwo.cmp ∧ ([2, 3] : List Nat).length ≤ 2 ∧
    (((drainFirst 2 exTwo).1.map Prod.fst = [2, 3].map (kOf exTwo) ∧
     List.Pairwise (fun x y => exTwo.cmp x y ≤ 0)
       ((drainFirst 2 exTwo).1.map Prod.fst) ∧
     (drainFirst 2 exTwo).2.count = 0) ∧
    ((drainLast 2 exTwo).1.map Prod.fst = ([2, 3].map (kOf exTwo)).reverse ∧
     List.Pairwise (fun x y => exTwo.cmp y x ≤ 0)
       ((drainLast 2 exTwo).1.map Prod.fst) ∧
     (drainLast 2 exTwo).2.count = 0) ∧
    (exTwo.count = 0 → skiplist_pop_last exTwo = (none, exTwo))) :=
  ⟨by decide, lawful_intCmp, by decide,
   C6_pop_drain_order (by decide) lawful_intCmp 2 (by decide)⟩

theorem geSuffix_zero_eq [Inhabited K] {s : SL K V} {abs : List Nat}
    (hrep : RepN s abs) (key : K) :
    geSuffix s key abs 0 =
      abs.dropWhile (fun a => decide (cmpRes s key a < 0)) := by
  unfold geSuffix
  rw [filterLevel_zero hrep]

/-- C7: insert followed by lookup succeeds and yields the inserted value —
this holds unconditionally, because the new node is placed before every
comparator-equal entry, so the lookup finds it first.  Remove followed by
lookup reports not-found provided at most one stored entry matches the key
(the regime the spec tacitly assumes); with duplicates stored, remove
deletes only the first match and the lookup still succeeds, refuting the
spec's unconditional claim (see the counterexample). -/
theorem C7_insert_lookup_remove_lookup [Inhabited K] [Inhabited V]
    {s : SL K V} {abs : List Nat} (hrep : Rep s abs) (hc : LawfulCmp s.cmp)
    {key : K} (value : V) {newHeight : Nat} (ao : List Bool)
    (old : Option (Option V)) (cell : Option (Option V))
    (h1 : 1 ≤ newHeight) (hao0 : ao.getD 0 true = true)
    (hao1 : headHeight s < newHeight → ao.getD 1 true = true) :
    skiplist_get (skiplist_add s key value newHeight ao).sl key cell =
      (true, cell.map (fun _ => some value)) ∧
    ((∀ a ∈ abs, ∀ b ∈ abs, s.cmp (kOf s a) key = 0 →
        s.cmp (kOf s b) key = 0 → a = b) →
      skiplist_get (skiplist_delete s key old).sl key cell =
        (false, cell)) := by
  constructor
  · rw [show skiplist_add s key value newHeight ao =
      add_or_set s false key value none newHeight ao from rfl]
    obtain ⟨hok, hrep2, hknn, hvnn, hold, hcount⟩ :=
      add_or_set_insert_ok hrep hc false key value none ao h1
        (fun hco => absurd hco (by decide)) hao0 hao1
    set s2 := (add_or_set s false key value none newHeight ao).sl with hs2
    set nn := s.heap.length + 1 with hnndef
    set abs2 := ltFilter s key abs 0 ++ nn :: geSuffix s key abs 0
      with habs2
    obtain ⟨abs0, -, hcmp2⟩ :=
      add_or_set_repN hrep.1 hc false key value none ao h1
    have hcmp2' : s2.cmp = s.cmp := hcmp2
    have hc2 : LawfulCmp s2.cmp := by
      rw [hcmp2']
      exact hc
    have hnnmem : nn ∈ abs2 := by
      rw [habs2]
      simp
    have hknn0 : s2.cmp (kOf s2 nn) key = 0 := by
      rw [hcmp2', hknn]
      exact lawful_cmp_self hc key
    have hex2 : ∃ a ∈ abs2, s2.cmp (kOf s2 a) key = 0 := ⟨nn, hnnmem, hknn0⟩
    have hget := skiplist_get_found_spec hrep2.1 hc2 cell hex2
    have hall : ∀ x ∈ ltFilter s key abs 0,
        (fun a => decide (cmpRes s2 key a < 0)) x = true := by
      intro x hx
      have hxa : x ∈ abs := mem_ltFilter_mem_abs hx
      have hxle : x ≤ s.heap.length :=
        (nodeOkB_props (rep_mem_ok hrep.1 hxa)).2.1
      have hx2 : x ∈ abs2 := by
        rw [habs2]
        exact List.mem_append.mpr (Or.inl hx)
      have hsome2 := (nodeOkB_props (rep_mem_ok hrep2.1 hx2)).2.2
      have hsome1 := (nodeOkB_props (rep_mem_ok hrep.1 hxa)).2.2
      have hlt : cmpRes s key x < 0 := by
        simpa using (List.mem_filter.mp hx).2
      rw [cmpRes_eq_of_isSome hsome1 key] at hlt
      have hlt2 : cmpRes s2 key x < 0 := by
        rw [cmpRes_eq_of_isSome hsome2 key, hcmp2', (hold x hxle).1]
        exact hlt
      simpa using hlt2
    have hnnp : (fun a => decide (cmpRes s2 key a < 0)) nn = false := by
      have hsome2 := (nodeOkB_props (rep_mem_ok hrep2.1 hnnmem)).2.2
      have h0 : cmpRes s2 key nn = 0 := by
        rw [cmpRes_eq_of_isSome hsome2 key]
        exact hknn0
      simp [h0]
    have hgs2 : geSuffix s2 key abs2 0 = nn :: geSuffix s key abs 0 := by
      rw [geSuffix_zero_eq hrep2.1 key, habs2]
      exact dropWhile_all_append _ _ _ _ hall hnnp
    rw [hget]
    simp only [hgs2, List.headD_cons, hvnn]
  · intro huniq
    by_cases hex : ∃ a ∈ abs, s.cmp (kOf s a) key = 0
    · rcases hgs : geSuffix s key abs 0 with _ | ⟨d, D⟩
      · exfalso
        obtain ⟨a, ha, heq⟩ := hex
        have hlt := (geSuffix_nil_iff hrep.1 hc key).mp hgs a ha
        have hsome := (nodeOkB_props (rep_mem_ok hrep.1 ha)).2.2
        rw [cmpRes_eq_of_isSome hsome key, heq] at hlt
        omega
      · have hdabs : d ∈ abs := mem_geSuffix_mem_abs (by rw [hgs]; simp)
        have hsomed := (nodeOkB_props (rep_mem_ok hrep.1 hdabs)).2.2
        have hmatch : s.cmp (kOf s d) key = 0 := by
          have hh := geSuffix_head_eq_of_exists hrep.1 hc hex
          rw [hgs] at hh
          rw [← cmpRes_eq_of_isSome hsomed key]
          simpa using hh
        obtain ⟨-, hrepD, -, -, -, hkvD, hcmpD⟩ :=
          skiplist_delete_found_spec hrep.1 hc old hgs hmatch
        have hcD : LawfulCmp (skiplist_delete s key old).sl.cmp := by
          rw [hcmpD]
          exact hc
        have hnd : (d :: D).Nodup := by
          have hsub : List.Sublist (d :: D) abs :=
            hgs ▸ geSuffix_sublist_abs hrep.1 key
          exact (rep_abs_nodup hrep.1).sublist hsub
        have hdD : d ∉ D := (List.nodup_cons.mp hnd).1
        have hneD : ∀ a ∈ ltFilter s key abs 0 ++ D,
            (skiplist_delete s key old).sl.cmp
              (kOf (skiplist_delete s key old).sl a) key ≠ 0 := by
          intro a ha
          rw [hcmpD, (hkvD a).1]
          rcases List.mem_append.mp ha with hltm | hD
          · have hxa : a ∈ abs := mem_ltFilter_mem_abs hltm
            have hsome := (nodeOkB_props (rep_mem_ok hrep.1 hxa)).2.2
            have h2 : cmpRes s key a < 0 := by
              simpa using (List.mem_filter.mp hltm).2
            rw [cmpRes_eq_of_isSome hsome key] at h2
            omega
          · intro heq0
            have haabs : a ∈ abs :=
              mem_geSuffix_mem_abs (by rw [hgs]; simp [hD])
            have had : a = d := huniq a haabs d hdabs heq0 hmatch
            rw [had] at hD
            exact hdD hD
        exact skiplist_get_notfound_spec hrepD hcD cell hneD
    · have hne : ∀ a ∈ abs, s.cmp (kOf s a) key ≠ 0 := by
        intro a ha heq
        exact hex ⟨a, ha, heq⟩
      have heval := skiplist_delete_notfound_spec hrep.1 hc old hne
      rw [heval]
      exact skiplist_get_notfound_spec hrep.1 hc cell hne

theorem C7_insert_lookup_remove_lookup_witness :
    Rep exDup [3, 2] ∧ LawfulCmp exDup.cmp ∧
    (skiplist_get (skiplist_add exDup 5 99 1 [true]).sl 5 none =
      (true, (none : Option (Option Int)).map (fun _ => some 99)) ∧
    ((∀ a ∈ ([3, 2] : List Nat), ∀ b ∈ ([3, 2] : List Nat),
        exDup.cmp (kOf exDup a) 5 = 0 → exDup.cmp (kOf exDup b) 5 = 0 →
          a = b) →
      skiplist_get (skiplist_delete exDup 5 none).sl 5 none =
        (false, none))) :=
  ⟨by decide, lawful_intCmp,
   @C7_insert_lookup_remove_lookup Int Int _ _ exDup [3, 2] (by decide)
     lawful_intCmp 5 99 1 [true] none none (le_refl 1) (by decide)
     (fun h => absurd h (by decide))⟩

/-- C7 counterexample to the literal spec wording: with two duplicate
entries of the comparator-equal key 5 stored, remove deletes only the first
match, so the subsequent lookup still succeeds instead of returning
false. -/
theorem C7_remove_lookup_refuted :
    Reachable exDup ∧
    (skiplist_get (skiplist_delete exDup 5 none).sl 5 none).1 = true :=
  ⟨Reachable.add
      (Reachable.add (Reachable.new intCmp lawful_intCmp) 5 1 1 [true]
        (le_refl 1)) 5 2 1 [true] (le_refl 1),
   by decide⟩

/-- C2 counterexample to the literal spec wording: after two plain inserts
of the comparator-equal key 5 (a reachable state), the level-0 chain holds
two nodes whose keys compare equal, so it is not strictly increasing. -/
theorem C2_strict_increase_refuted :
    Reachable exDup ∧
    ¬ List.Pairwise (fun a b => exDup.cmp (kOf exDup a) (kOf exDup b) < 0)
      (levelChain exDup 0) :=
  ⟨Reachable.add
      (Reachable.add (Reachable.new intCmp lawful_intCmp) 5 1 1 [true]
        (le_refl 1)) 5 2 1 [true] (le_refl 1),
   by decide⟩

end Skiplist
